import Mathlib

/-!
# Path algebra of `src/utils.c`

A shallow embedding of `chosp`, `canonicalize_path`, `make_rel_path`,
`replace_home_part`, `expand_tilde`, `is_root_dir`, `is_path_absolute` and the
UTF-8 scans `get_char_width`, `get_utf8_string_length` and
`get_utf8_overhead`, and the properties of the canonicalizer, of the
relative-path resolver, of the path classifier, of the home-directory
shorthand and of the scans.  `canonicalize_path` and
`make_rel_path` are the functions of a build without `_WIN32`;
`canonicalize_path_win32` is the canonicalizer of a build with it, and the
other functions take the build as the parameter `win32`.

* A C text is the list of the characters that precede its terminating NUL
  (`c_str` cuts a list at its first NUL).
* A `char` buffer is the list of the bytes that start at the buffer's address;
  every byte beyond the end of the list reads as NUL (`rd`), and a store beyond
  the end of the list extends it (`wr`), so that a store past the capacity the
  caller announced stays visible.
* The destination cursor `q` of `canonicalize_path` is kept as the count
  `n = (q + 1) - buf`, the quantity the loop condition of the source compares
  with `buf_size - 1`.  The byte at `buf[-1]`, which the source reads through
  `*q` when `q == buf - 1`, is the parameter `before`.
* The bytes a buffer holds above the cursor matter: line 769 compares the
  whole text at `buf` with "../".  `canonicalize_path` therefore takes the
  content of the destination as an argument, and `make_rel_path` the content
  its static buffer has at entry.
* What the functions take from their environment is a parameter: `PATH_MAX`,
  `NAME_MAX`, `cfg.home_dir`, the user lookup `getpwnam`, and whether `malloc`
  succeeds.  `expand_tilde` has no result where its automatic array `name`
  is too small for what the source stores in it.
* A loop whose number of iterations is not the length of a list takes a fuel;
  the UTF-8 scans return `none` when the fuel runs out, and the theorems show
  that they do not.

The first part of the file holds the definitions: the embedding itself, then
the predicates the proofs use.  The theorems follow.
-/

namespace Vifm

/-- The terminator of a C text. -/
def NUL : Char := Char.ofNat 0

/-- The text a `const char *` denotes: the characters before the first NUL. -/
def c_str (s : List Char) : List Char :=
  s.takeWhile (fun c => c != NUL)

/-- The C library's `strlen`. -/
def strlen (s : List Char) : Nat :=
  (c_str s).length

/-- Load of `buf[i]`; bytes beyond the list are NUL. -/
def rd (buf : List Char) (i : Nat) : Char :=
  buf.getD i NUL

/-- Store `buf[i] = c`; a store beyond the list extends it with NUL bytes. -/
def wr (buf : List Char) (i : Nat) (c : Char) : List Char :=
  if i < buf.length then buf.set i c
  else buf ++ List.replicate (i - buf.length) NUL ++ [c]

/-- Arithmetic of `size_t` (64 bits): `a - b`. -/
def size_sub (a b : Nat) : Nat :=
  (a % 2 ^ 64 + 2 ^ 64 - b % 2 ^ 64) % 2 ^ 64

/-- The source's `chosp`: removes one trailing slash of the text at `text`. -/
def chosp (text : List Char) : List Char :=
  if rd text 0 = NUL then text
  else
    let len := strlen text
    if rd text (len - 1) = '/' then wr text (len - 1) NUL else text

/-- The scan `while(q >= buf && *q != '/') q--;` of `canonicalize_path`, on the
count `k = (q + 1) - buf`: the result is `0` or one more than the index of the
last slash below `k`. -/
def scan_back (buf : List Char) : Nat → Nat
  | 0 => 0
  | k + 1 => if rd buf k = '/' then k + 1 else scan_back buf k

/-- The `while` loop of `canonicalize_path` (lines 758-792).  `limit` is
`buf_size - 1`, the list argument is the text at `p`, `buf` the destination
memory and `n` the count `(q + 1) - buf`.  Returns the memory and the count at
loop exit.  The two `[]` alternatives after a test for "./" or ".." cannot be
taken: the test guarantees two characters at `p`. -/
def canonicalize_loop (limit : Nat) : List Char → List Char → Nat → List Char × Nat
  | [], buf, n => (buf, n)
  | c :: p1, buf, n =>
    if n < limit then
      let prev_dir_present : Bool := n != 0 && rd buf (n - 1) == '/'
      if prev_dir_present && (c :: p1).take 2 == ['.', '/'] then
        match p1 with
        | [] => (buf, n)
        | _ :: p2 => canonicalize_loop limit p2 buf n
      else if prev_dir_present && (c :: p1) == ['.'] then
        canonicalize_loop limit p1 buf n
      else if prev_dir_present
          && ((c :: p1).take 3 == ['.', '.', '/'] || (c :: p1) == ['.', '.'])
          && c_str buf != ['.', '.', '/'] then
        match p1 with
        | [] => (buf, scan_back buf (n - 1))
        | _ :: p2 => canonicalize_loop limit p2 buf (scan_back buf (n - 1))
      else if c == '/' then
        if !prev_dir_present then canonicalize_loop limit p1 (wr buf n '/') (n + 1)
        else canonicalize_loop limit p1 buf n
      else
        canonicalize_loop limit p1 (wr buf n c) (n + 1)
    else (buf, n)

/-- The source's `canonicalize_path(directory, buf, buf_size)`: the memory at
`buf` after the call.  `before` is the byte at `buf[-1]`. -/
def canonicalize_path (directory : List Char) (buf : List Char) (before : Char)
    (buf_size : Nat) : List Char :=
  let buf0 := wr buf 0 NUL
  let r := canonicalize_loop (size_sub buf_size 1) (c_str directory) buf0 0
  let last := if r.2 = 0 then before else rd r.1 (r.2 - 1)
  if last != '/' then wr (wr r.1 r.2 '/') (r.2 + 1) NUL
  else wr r.1 r.2 NUL

/-- The text `canonicalize_path` leaves in a zero-initialised buffer of
`buf_size` bytes. -/
def canon (directory : List Char) (before : Char) (buf_size : Nat) : List Char :=
  c_str (canonicalize_path directory (List.replicate buf_size NUL) before buf_size)

/-- Offset of `strchr(s + i + 1, '/')` in the text `s`, or `strlen(s)` when there
is no further slash (lines 820-823 of `make_rel_path`). -/
def next_slash (s : List Char) (i : Nat) : Nat :=
  i + 1 + (s.drop (i + 1)).findIdx (fun c => c == '/')

/-- The segment-matching `while` loop of `make_rel_path` (lines 817-830) on the
offsets `i = p - path` and `j = b - base`.  The first argument bounds the
number of iterations; every iteration moves `i` forward, so the `strlen(path)`
that `make_rel_path_buf` passes is never used up (`rel_loop_count_enough`). -/
def rel_loop (path base : List Char) : Nat → Nat → Nat → Nat × Nat
  | 0, i, j => (i, j)
  | fuel + 1, i, j =>
    if rd path i != NUL && rd path (i + 1) != NUL
        && rd base j != NUL && rd base (j + 1) != NUL then
      let i2 := next_slash path i
      let j2 := next_slash base j
      if i2 != j2 || path.take i2 != base.take i2 then (i, j)
      else rel_loop path base fuel i2 j2
    else (i, j)

/-- Stores the text `s` and its terminator from `buf[i]` on. -/
def store_text (buf : List Char) (i : Nat) : List Char → List Char
  | [] => wr buf i NUL
  | c :: s => store_text (wr buf i c) (i + 1) s

/-- The C library's `strcat(dest, src)`. -/
def strcat (dest src : List Char) : List Char :=
  store_text dest (strlen dest) (c_str src)

/-- Lines 832-851 of `make_rel_path`, from the pointers `p` (into `path`) and
`b` (into `base`) the segment-matching loop left: the content of the static
`buf` at return.  `PATH_MAX` is the platform constant that sizes `buf`, `buf`
the content the static array has at entry (the text of the previous call) and
`before` the byte in front of it.  The second `canonicalize_path` writes at
`buf + strlen(buf)`, so the byte in front of its destination is the last "/"
of the "../" run when there is one. -/
def make_rel_tail (PATH_MAX : Nat) (p b : List Char) (buf : List Char)
    (before : Char) : List Char :=
  let buf1 := chosp (canonicalize_path b buf before PATH_MAX)
  let nslashes := (c_str buf1).count '/'
  let buf2 := (fun m => strcat m ['.', '.', '/'])^[nslashes] (wr buf1 0 NUL)
  let p := if rd p 0 == '/' then p.drop 1 else p
  let len := strlen buf2
  let sub := canonicalize_path p (buf2.drop len)
    (if len = 0 then before else rd buf2 (len - 1)) (size_sub PATH_MAX len)
  let buf3 := chosp (buf2.take len ++ sub)
  if rd buf3 0 == NUL then wr (wr buf3 0 '.') 1 NUL else buf3

/-- The source's `make_rel_path(path, base)` (lines 805-851): the content of
the static `buf` at return. -/
def make_rel_path_buf (PATH_MAX : Nat) (path base : List Char) (buf : List Char)
    (before : Char) : List Char :=
  let path := c_str path
  let base := c_str base
  let ij := rel_loop path base path.length 0 0
  make_rel_tail PATH_MAX (path.drop ij.1) (base.drop ij.2) buf before

/-- The text `make_rel_path` returns. -/
def make_rel_path (PATH_MAX : Nat) (path base : List Char) (buf : List Char)
    (before : Char) : List Char :=
  c_str (make_rel_path_buf PATH_MAX path base buf before)

/-- The source's `prev_dir_present` at the count `n`. -/
def prev (m : List Char) (n : Nat) : Prop :=
  n ≠ 0 ∧ rd m (n - 1) = '/'

/-- The tests of lines 763-769 under which the loop body neither copies a
character nor handles a slash: a "./", a final ".", or a ".." segment while
the text at `buf` is not exactly "../". -/
def special (p m : List Char) : Prop :=
  p.take 2 = ['.', '/'] ∨ p = ['.']
    ∨ ((p.take 3 = ['.', '.', '/'] ∨ p = ['.', '.']) ∧ c_str m ≠ ['.', '.', '/'])

/-- The first `k` bytes of a buffer, as a text. -/
def txt (m : List Char) : Nat → List Char
  | 0 => []
  | k + 1 => txt m k ++ [rd m k]

/-- What lines 794-797 of `canonicalize_path` make of the text `out` the loop
left: a slash is appended unless `*q` is one, where `*q` is the last character
of `out`, or the byte `before` in front of the buffer when `out` is empty. -/
def finish (before : Char) (out : List Char) : List Char :=
  if out.getLast?.getD before = '/' then out else out ++ ['/']

/-- A buffer that was all NUL when the loop of `canonicalize_path` started:
the bytes below the high-water mark `H` are characters, the bytes from `H` on
are still NUL, and the cursor `n` is not above `H`. -/
def Zmem (m : List Char) (n H : Nat) : Prop :=
  n ≤ H ∧ (∀ i, i < H → rd m i ≠ NUL) ∧ (∀ i, H ≤ i → rd m i = NUL)

/-- The form of the texts `canonicalize_path` produces: no "//", no "/./", and
"/../" only as the second half of a leading "../../". -/
structure CanonForm (out : List Char) : Prop where
  noSS : ¬ ['/', '/'] <:+: out
  noSDS : ¬ ['/', '.', '/'] <:+: out
  dd : ∀ u v, out = u ++ ['/', '.', '.', '/'] ++ v → u = ['.', '.']

/-- The loop invariant behind `CanonForm`: the text `out` below the cursor has
the form, and when it ends with "/." or "/.." the text `p` still to be read
continues the segment (or `out` is the kept "../." or "../.."). -/
structure Jinv (out p : List Char) : Prop where
  form : CanonForm out
  d1 : ['/', '.'] <:+ out → ∃ c p1, p = c :: p1 ∧ c ≠ '/'
    ∧ (c = '.' → (∃ d p2, p1 = d :: p2 ∧ d ≠ '/') ∨ out = ['.', '.', '/', '.'])
  d2 : ['/', '.', '.'] <:+ out → (∃ c p1, p = c :: p1 ∧ c ≠ '/')
    ∨ out = ['.', '.', '/', '.', '.']

/-- The tests of `special` with the comparison of the buffer with "../"
replaced by the comparison of the text below the cursor. -/
def specialA (p out : List Char) : Prop :=
  p.take 2 = ['.', '/'] ∨ p = ['.']
    ∨ ((p.take 3 = ['.', '.', '/'] ∨ p = ['.', '.']) ∧ out ≠ ['.', '.', '/'])

/-- The situation of the text `v` still to be read when the text `out` below
the cursor ends with a slash, in which the loop copies `v` unchanged: `v` does
not begin with a slash, with "./" or with a ".." segment and is not ".",
except for a ".." segment behind the text "../" with `z` (the byte after
"../" is NUL), which line 769 keeps. -/
def okAt (out v : List Char) (z : Prop) : Prop :=
  out.getLast? = some '/' →
    v.head? ≠ some '/' ∧ v.take 2 ≠ ['.', '/'] ∧ v ≠ ['.']
      ∧ ((v.take 3 = ['.', '.', '/'] ∨ v = ['.', '.']) → out = ['.', '.', '/'] ∧ z)

/-- The loop state of an absolute path: the buffer begins with a slash as soon
as the cursor has left its start, and at the start the next character to be
read is a slash. -/
def AbsState (m : List Char) (n : Nat) (p : List Char) : Prop :=
  (n = 0 → p = [] ∨ p.head? = some '/') ∧ (n ≠ 0 → rd m 0 = '/')

/-- A segment of a canonical path: a non-empty text without slash (and
without NUL) that is neither "." nor "..". -/
def Seg (s : List Char) : Prop :=
  s ≠ [] ∧ '/' ∉ s ∧ NUL ∉ s ∧ s ≠ ['.'] ∧ s ≠ ['.', '.']

/-- The text "/s1/s2/.../sn" of the segments `s1 ... sn` (empty for no
segment). -/
def rooted : List (List Char) → List Char
  | [] => []
  | s :: l => '/' :: s ++ rooted l

/-- The canonical absolute path with the given segments: "/" for no segment,
otherwise "/s1/.../sn", without trailing separator. -/
def abs_path : List (List Char) → List Char
  | [] => ['/']
  | s :: l => rooted (s :: l)

/-- The "/"-join of a list of segments: "s1/s2/.../sn". -/
def join_slash : List (List Char) → List Char
  | [] => []
  | [s] => s
  | s :: t :: l => s ++ '/' :: join_slash (t :: l)

/-- Length of the longest common prefix of two lists of whole segments. -/
def common_len : List (List Char) → List (List Char) → Nat
  | a :: as, b :: bs => if a = b then common_len as bs + 1 else 0
  | _, _ => 0

/-- The segment-wise reference definition of the relative path, following the
specification: with `k` the length of the longest common prefix of the
segment lists `ps` (of the path) and `bs` (of the base), the "/"-join of
`|bs| - k` copies of ".." followed by the segments of `ps` after the first
`k`, or "." when that list is empty. -/
def rel_reference (ps bs : List (List Char)) : List Char :=
  let k := common_len ps bs
  let l := List.replicate (bs.length - k) ['.', '.'] ++ ps.drop k
  if l = [] then ['.'] else join_slash l

/-- The text `v` does not begin with a slash, with "./" or with a ".."
segment, and is not ".": behind a slash the loop of `canonicalize_path`
copies its first character. -/
def plainAt (v : List Char) : Prop :=
  v.head? ≠ some '/' ∧ v.take 2 ≠ ['.', '/'] ∧ v ≠ ['.']
    ∧ v.take 3 ≠ ['.', '.', '/'] ∧ v ≠ ['.', '.']

/-- Every position of `t` that follows a slash of `t` is `plainAt`. -/
def PlainText (t : List Char) : Prop :=
  ∀ u c v, t = u ++ c :: v → u.getLast? = some '/' → plainAt (c :: v)

/-- The text of `n` copies of "../". -/
def dots : Nat → List Char
  | 0 => []
  | n + 1 => dots n ++ ['.', '.', '/']

instance (s : List Char) : Decidable (Seg s) := by
  unfold Seg
  infer_instance

/-- The C library's `isalpha` in the "C" locale: the letters A-Z and a-z. -/
def isalpha (c : Char) : Bool :=
  c.isAlpha

/-- The C library's `strchr(s, c)` for a character `c` other than NUL: the
offset of the first `c` in the text at `s`, or `none` for `NULL`. -/
def strchr (s : List Char) (c : Char) : Option Nat :=
  let t := c_str s
  let i := t.findIdx (fun x => x == c)
  if i < t.length then some i else none

/-- The source's `is_root_dir(path)` (lines 957-972).  `win32` tells whether the
build defines `_WIN32`. -/
def is_root_dir (win32 : Bool) (path : List Char) : Bool :=
  if win32 && isalpha (rd path 0) && c_str (path.drop 1) == [':', '/'] then true
  else if win32 && rd path 0 == '/' && rd path 1 == '/' && rd path 2 != NUL
      && (match strchr (path.drop 2) '/' with
          | none => true
          | some i => rd (path.drop 2) (i + 1) == NUL) then true
  else rd path 0 == '/' && rd path 1 == NUL

/-- The source's `is_path_absolute(path)` (lines 974-984). -/
def is_path_absolute (win32 : Bool) (path : List Char) : Bool :=
  if win32 && isalpha (rd path 0) && rd path 1 == ':' then true
  else if win32 && rd path 0 == '/' && rd path 1 == '/' then true
  else rd path 0 == '/'

/-- The source's `is_unc_path(path)` (lines 1155-1159, `_WIN32` builds). -/
def is_unc_path (path : List Char) : Bool :=
  rd path 0 == '/' && rd path 1 == '/' && rd path 2 != '/'

/-- The source's `is_unc_root(path)` (lines 1161-1171, `_WIN32` builds). -/
def is_unc_root (path : List Char) : Bool :=
  if is_unc_path path then
    match strchr (path.drop 2) '/' with
    | none => true
    | some i => rd (path.drop 2) (i + 1) == NUL
  else false

/-- The `while` loop of `canonicalize_path` (lines 758-792) in a `_WIN32`
build: the loop of `canonicalize_loop` with the test `*(q - 1) != ':'` of line
772 around the erasure.  `before` is the byte at `buf[-1]`, which `*(q - 1)`
reads when `q` is `buf`. -/
def canonicalize_loop_win32 (limit : Nat) (before : Char) :
    List Char → List Char → Nat → List Char × Nat
  | [], buf, n => (buf, n)
  | c :: p1, buf, n =>
    if n < limit then
      let prev_dir_present : Bool := n != 0 && rd buf (n - 1) == '/'
      if prev_dir_present && (c :: p1).take 2 == ['.', '/'] then
        match p1 with
        | [] => (buf, n)
        | _ :: p2 => canonicalize_loop_win32 limit before p2 buf n
      else if prev_dir_present && (c :: p1) == ['.'] then
        canonicalize_loop_win32 limit before p1 buf n
      else if prev_dir_present
          && ((c :: p1).take 3 == ['.', '.', '/'] || (c :: p1) == ['.', '.'])
          && c_str buf != ['.', '.', '/'] then
        if (if 2 ≤ n then rd buf (n - 2) else before) != ':' then
          match p1 with
          | [] => (buf, scan_back buf (n - 1))
          | _ :: p2 => canonicalize_loop_win32 limit before p2 buf (scan_back buf (n - 1))
        else canonicalize_loop_win32 limit before p1 buf n
      else if c == '/' then
        if !prev_dir_present then canonicalize_loop_win32 limit before p1 (wr buf n '/') (n + 1)
        else canonicalize_loop_win32 limit before p1 buf n
      else canonicalize_loop_win32 limit before p1 (wr buf n c) (n + 1)
    else (buf, n)

/-- Lines 758-797 of `canonicalize_path` in a `_WIN32` build, run with the
text `p` still to be read and the cursor just before `buf`: the memory at
`buf` afterwards. -/
def canonicalize_rest_win32 (p : List Char) (buf : List Char) (before : Char)
    (buf_size : Nat) : List Char :=
  let r := canonicalize_loop_win32 (size_sub buf_size 1) before p buf 0
  let last := if r.2 = 0 then before else rd r.1 (r.2 - 1)
  if last != '/' then wr (wr r.1 r.2 '/') (r.2 + 1) NUL else wr r.1 r.2 NUL

/-- The copy `while(*p != '\0' && *p != '/') *++q = *p++;` of lines 752-753, on the
text `p` still to be read and the count `n` of bytes below the cursor: the
memory, the count and the text left afterwards. -/
def unc_copy : List Char → List Char → Nat → List Char × Nat × List Char
  | [], buf, n => (buf, n, [])
  | c :: p1, buf, n =>
    if c != '/' then unc_copy p1 (wr buf n c) (n + 1) else (buf, n, c :: p1)

/-- The source's `canonicalize_path(directory, buf, buf_size)` in a `_WIN32`
build: the memory at the caller's `buf` afterwards.  After a UNC server name
the source sets `buf = q + 1`, so the rest of the function works on the memory
from that byte on, and the byte before it is the last one of the name. -/
def canonicalize_path_win32 (directory : List Char) (buf : List Char) (before : Char)
    (buf_size : Nat) : List Char :=
  let buf0 := wr buf 0 NUL
  let p := c_str directory
  if rd p 0 == '/' && rd p 1 == '/' && rd p 2 != '/' then
    let buf1 := store_text buf0 0 ['/', '/']
    let r := unc_copy (p.drop 2) buf1 2
    r.1.take r.2.1 ++
      canonicalize_rest_win32 r.2.2 (r.1.drop r.2.1) (rd r.1 (r.2.1 - 1)) buf_size
  else canonicalize_rest_win32 p buf0 before buf_size

/-- The C library's `strncmp(a, b, n) == 0`. -/
def strncmp_eq (a b : List Char) (n : Nat) : Bool :=
  (c_str a).take n == (c_str b).take n

/-- The C library's `strncat(dest, src, n)`: appends at most `n` characters of
the text at `src`, and a terminator. -/
def strncat (dest src : List Char) (n : Nat) : List Char :=
  store_text dest (strlen dest) ((c_str src).take n)

/-- Stores the bytes `s` from `buf[i]` on, without a terminator. -/
def store_bytes (buf : List Char) (i : Nat) : List Char → List Char
  | [] => buf
  | c :: s => store_bytes (wr buf i c) (i + 1) s

/-- The C library's `strncpy(dest, src, n)`: exactly `n` bytes are stored, the
text at `src` cut to `n` characters and padded with NUL bytes. -/
def strncpy (dest src : List Char) (n : Nat) : List Char :=
  store_bytes dest 0 ((c_str src).take n ++ List.replicate (n - strlen src) NUL)

/-- The source's `replace_home_part(directory)` (lines 854-870): the content of
the static buffer afterwards.  `PATH_MAX` is the platform's constant,
`home_dir` is `cfg.home_dir`, and `buf` is what the static buffer held
before.  For an empty `cfg.home_dir` the `size_t` value `len` is
`2 ^ 64 - 1`, so that `directory + len` is `directory - 1`: `dir_before` is
the byte at `directory[-1]`, which lines 862-863 then read. -/
def replace_home_part (win32 : Bool) (PATH_MAX : Nat) (home_dir : List Char)
    (directory : List Char) (dir_before : Char) (buf : List Char) : List Char :=
  let len := size_sub (strlen home_dir) 1
  let at_len : Char := if len = 2 ^ 64 - 1 then dir_before else rd directory len
  let from_len : List Char :=
    if len = 2 ^ 64 - 1 then dir_before :: directory else directory.drop len
  let buf1 :=
    if strncmp_eq directory home_dir len && (at_len == NUL || at_len == '/') then
      strncat (store_text buf 0 ['~']) from_len PATH_MAX
    else strncpy buf directory PATH_MAX
  if !is_root_dir win32 buf1 then chosp buf1 else buf1

/-- The source's `expand_tilde(path)` (lines 872-921).  `NAME_MAX` is the
platform's constant, the size of the array `name`; `home_dir` is
`cfg.home_dir`; `getpwnam` is the system's user lookup, giving the `pw_dir` of
a known user; `malloc_ok` tells whether `malloc` succeeds.  The result is
`none` when the store into `name` runs past the array: line 899 copies the
whole rest of the path and its terminator, and the `snprintf` of line 903 is
given the size `p - (path + 1) + 1`, the name and its terminator, whatever
`NAME_MAX` is; the behaviour of the program is undefined from there.
Otherwise the first component is the text returned (`none` for `NULL`; the
argument itself where the source returns `path`) and the second lists the
names passed to `getpwnam`.  The `free(path)` of lines 892 and 915 leaves the
text returned as it is. -/
def expand_tilde (win32 : Bool) (NAME_MAX : Nat) (home_dir : List Char)
    (getpwnam : List Char → Option (List Char)) (malloc_ok : Bool)
    (path : List Char) : Option (Option (List Char) × List (List Char)) :=
  if win32 then some (some path, [])
  else if rd path 0 != '~' then some (some path, [])
  else if rd path 1 == NUL || rd path 1 == '/' then
    if !malloc_ok then some (none, [])
    else
      some (some (c_str home_dir ++ (if rd path 1 == '/' then c_str (path.drop 2) else [])), [])
  else
    let name_p : List Char × List Char :=
      match strchr path '/' with
      | none => (c_str (path.drop 1), [])
      | some i => ((c_str (path.drop 1)).take ((i - 1 + 1) - 1), c_str (path.drop (i + 1)))
    if NAME_MAX < name_p.1.length + 1 then none
    else
      match getpwnam name_p.1 with
      | none => some (some path, [name_p.1])
      | some pw_dir =>
        if !malloc_ok then some (none, [name_p.1])
        else some (some (c_str (chosp pw_dir) ++ ['/'] ++ name_p.2), [name_p.1])

/-- The source's `get_char_width(string)` (lines 202-218).  `(rd string i).toNat`
is the value of the byte `string[i]`; the masks `0xe0`, `0xc0`, `0xf0` and
`0xf8` select bits of the low eight, so the sign of `char` plays no part. -/
def get_char_width (string : List Char) : Nat :=
  if ((rd string 0).toNat &&& 0xe0) == 0xc0 && ((rd string 1).toNat &&& 0xc0) == 0x80 then 2
  else if ((rd string 0).toNat &&& 0xf0) == 0xe0 && ((rd string 1).toNat &&& 0xc0) == 0x80
      && ((rd string 2).toNat &&& 0xc0) == 0x80 then 3
  else if ((rd string 0).toNat &&& 0xf8) == 0xf0 && ((rd string 1).toNat &&& 0xc0) == 0x80
      && ((rd string 2).toNat &&& 0xc0) == 0x80 && ((rd string 3).toNat &&& 0xc0) == 0x80 then 4
  else if rd string 0 == NUL then 0
  else 1

/-- The `while` loop of `get_utf8_string_length` (lines 303-308) on the memory
`s`: the pointer `string` is kept as its offset `i` from `s`, and the result is
the offset and the value of `length` when the loop is left, or `none` when
`fuel` iterations do not reach that point. -/
def get_utf8_string_length_loop (s : List Char) : Nat → Nat → Nat → Option (Nat × Nat)
  | 0, _, _ => none
  | fuel + 1, i, length =>
    if rd s i != NUL then
      let char_width := get_char_width (s.drop i)
      get_utf8_string_length_loop s fuel (i + char_width) ((length + 1) % 2 ^ 64)
    else some (i, length)

/-- The source's `get_utf8_string_length(string)` (lines 298-310); `none` if
the loop did not end. -/
def get_utf8_string_length (string : List Char) : Option Nat :=
  (get_utf8_string_length_loop string (string.length + 1) 0 0).map Prod.snd

/-- The `while` loop of `get_utf8_overhead` (lines 317-322) on the memory `s`,
with the pointer `string` kept as its offset `i` from `s`: the offset and the
value of `overhead` when the loop is left, or `none` when `fuel` iterations do
not reach that point. -/
def get_utf8_overhead_loop (s : List Char) : Nat → Nat → Nat → Option (Nat × Nat)
  | 0, _, _ => none
  | fuel + 1, i, overhead =>
    if rd s i != NUL then
      let char_width := get_char_width (s.drop i)
      get_utf8_overhead_loop s fuel (i + char_width) ((overhead + size_sub char_width 1) % 2 ^ 64)
    else some (i, overhead)

/-- The source's `get_utf8_overhead(string)` (lines 312-324); `none` if the
loop did not end. -/
def get_utf8_overhead (string : List Char) : Option Nat :=
  (get_utf8_overhead_loop string (string.length + 1) 0 0).map Prod.snd

/-! ## Memory -/

theorem rd_eq (m : List Char) (i : Nat) : rd m i = (m[i]?).getD NUL := by
  simp [rd, List.getD_eq_getElem?_getD]

theorem rd_wr (m : List Char) (i : Nat) (c : Char) (j : Nat) :
    rd (wr m i c) j = if j = i then c else rd m j := by
  unfold wr
  by_cases h : i < m.length
  · simp only [h, if_true, rd_eq, List.getElem?_set]
    by_cases hj : j = i
    · subst hj; simp [h]
    · simp [hj, Ne.symm hj]
  · simp only [h, if_false, rd_eq]
    have hi : m.length ≤ i := Nat.le_of_not_lt h
    by_cases hj : j = i
    · subst hj
      simp [List.getElem?_append_right, hi]
    · simp only [hj, if_false]
      by_cases hjl : j < m.length
      · rw [List.append_assoc, List.getElem?_append_left hjl]
      · have hjl2 : m.length ≤ j := Nat.le_of_not_lt hjl
        rw [List.append_assoc, List.getElem?_append_right hjl2]
        rw [List.getElem?_eq_none (Nat.le_of_not_lt hjl)]
        by_cases hj2 : j - m.length < i - m.length
        · rw [List.getElem?_append_left (by simpa using hj2)]
          simp [List.getElem?_replicate, hj2]
        · have : i - m.length < j - m.length := by omega
          rw [List.getElem?_eq_none (by simp; omega)]

theorem rd_wr_same (m : List Char) (i : Nat) (c : Char) : rd (wr m i c) i = c := by
  simp [rd_wr]

theorem rd_wr_ne (m : List Char) (i : Nat) (c : Char) (j : Nat) (h : j ≠ i) :
    rd (wr m i c) j = rd m j := by
  simp [rd_wr, h]


theorem wr_wr (m : List Char) (i : Nat) (c d : Char) : wr (wr m i c) i d = wr m i d := by
  unfold wr
  by_cases h : i < m.length
  · simp [h]
  · have h1 : ¬ i < m.length + (i - m.length) := by omega
    have h2 : i - (m.length + (i - m.length)) = 0 := by omega
    have h3 : i < m.length + (i - m.length + 1) := by omega
    simp [List.set_append, h1, h2, h3, h]

/-! ## One iteration of the loop of `canonicalize_path` -/

theorem loop_nil (L : Nat) (m : List Char) (n : Nat) :
    canonicalize_loop L [] m n = (m, n) := by
  simp [canonicalize_loop]

theorem loop_cons (L : Nat) (c : Char) (p1 m : List Char) (n : Nat) :
    canonicalize_loop L (c :: p1) m n =
      if n < L then
        if (n != 0 && rd m (n - 1) == '/') && (c :: p1).take 2 == ['.', '/'] then
          canonicalize_loop L p1.tail m n
        else if (n != 0 && rd m (n - 1) == '/') && (c :: p1) == ['.'] then
          canonicalize_loop L p1 m n
        else if (n != 0 && rd m (n - 1) == '/')
            && ((c :: p1).take 3 == ['.', '.', '/'] || (c :: p1) == ['.', '.'])
            && c_str m != ['.', '.', '/'] then
          canonicalize_loop L p1.tail m (scan_back m (n - 1))
        else if c == '/' then
          if !(n != 0 && rd m (n - 1) == '/') then canonicalize_loop L p1 (wr m n '/') (n + 1)
          else canonicalize_loop L p1 m n
        else
          canonicalize_loop L p1 (wr m n c) (n + 1)
      else (m, n) := by
  cases p1 with
  | nil => simp [canonicalize_loop]
  | cons d p2 => simp [canonicalize_loop]

theorem loop_stop (L : Nat) (p m : List Char) (n : Nat) (h : ¬ n < L) :
    canonicalize_loop L p m n = (m, n) := by
  cases p with
  | nil => exact loop_nil L m n
  | cons c p1 => rw [loop_cons]; simp [h]

theorem loop_dotslash (L : Nat) (p2 m : List Char) (n : Nat) (hL : n < L) (hp : prev m n) :
    canonicalize_loop L ('.' :: '/' :: p2) m n = canonicalize_loop L p2 m n := by
  obtain ⟨h0, h1⟩ := hp
  rw [loop_cons]; simp [hL, h0, h1]

theorem loop_dot (L : Nat) (m : List Char) (n : Nat) (hp : prev m n) :
    canonicalize_loop L ['.'] m n = (m, n) := by
  obtain ⟨h0, h1⟩ := hp
  rw [loop_cons]; simp [h0, h1, loop_nil]

theorem loop_dd_slash (L : Nat) (p3 m : List Char) (n : Nat) (hL : n < L) (hp : prev m n)
    (hg : c_str m ≠ ['.', '.', '/']) :
    canonicalize_loop L ('.' :: '.' :: '/' :: p3) m n
      = canonicalize_loop L ('/' :: p3) m (scan_back m (n - 1)) := by
  obtain ⟨h0, h1⟩ := hp
  rw [loop_cons]; simp [hL, h0, h1, hg]

theorem loop_dd_end (L : Nat) (m : List Char) (n : Nat) (hL : n < L) (hp : prev m n)
    (hg : c_str m ≠ ['.', '.', '/']) :
    canonicalize_loop L ['.', '.'] m n = (m, scan_back m (n - 1)) := by
  obtain ⟨h0, h1⟩ := hp
  rw [loop_cons]; simp [hL, h0, h1, hg, loop_nil]

theorem loop_slash_skip (L : Nat) (p1 m : List Char) (n : Nat) (hL : n < L) (hp : prev m n) :
    canonicalize_loop L ('/' :: p1) m n = canonicalize_loop L p1 m n := by
  obtain ⟨h0, h1⟩ := hp
  rw [loop_cons]; simp [hL, h0, h1]

theorem loop_slash_write (L : Nat) (p1 m : List Char) (n : Nat) (hL : n < L)
    (hp : ¬ prev m n) :
    canonicalize_loop L ('/' :: p1) m n = canonicalize_loop L p1 (wr m n '/') (n + 1) := by
  unfold prev at hp
  rw [loop_cons]
  by_cases h0 : n = 0
  · subst h0; simp [hL]
  · have h1 : rd m (n - 1) ≠ '/' := fun h => hp ⟨h0, h⟩
    simp [hL, h0, h1]

theorem loop_copy_noprev (L : Nat) (c : Char) (p1 m : List Char) (n : Nat) (hL : n < L)
    (hp : ¬ prev m n) (hc : c ≠ '/') :
    canonicalize_loop L (c :: p1) m n = canonicalize_loop L p1 (wr m n c) (n + 1) := by
  unfold prev at hp
  rw [loop_cons]
  by_cases h0 : n = 0
  · subst h0; simp [hL, hc]
  · have h1 : rd m (n - 1) ≠ '/' := fun h => hp ⟨h0, h⟩
    simp [hL, h0, h1, hc]

theorem loop_copy (L : Nat) (c : Char) (p1 m : List Char) (n : Nat) (hL : n < L)
    (hc : c ≠ '/') (hs : ¬ special (c :: p1) m) :
    canonicalize_loop L (c :: p1) m n = canonicalize_loop L p1 (wr m n c) (n + 1) := by
  by_cases hp : prev m n
  · obtain ⟨h0, h1⟩ := hp
    unfold special at hs
    push_neg at hs
    obtain ⟨s1, s2, s3⟩ := hs
    rw [loop_cons]
    simp only [hL, if_true]
    rw [if_neg (by simpa using fun _ _ => s1), if_neg (by simpa using fun _ _ => s2)]
    rw [if_neg, if_neg (by simpa using hc)]
    simp only [Bool.and_eq_true, bne_iff_ne, ne_eq, Bool.or_eq_true, beq_iff_eq, not_and,
      Decidable.not_not]
    intro hdd
    exact s3 hdd.2
  · exact loop_copy_noprev L c p1 m n hL hp hc

/-! ## A prefix that ends with a slash is processed independently of what follows -/

theorem loop_append_aux (L : Nat) (rest : List Char) :
    ∀ (k : Nat) (a m : List Char) (n : Nat), a.length ≤ k →
      (a = [] ∨ a.getLast? = some '/') →
      canonicalize_loop L (a ++ rest) m n
        = canonicalize_loop L rest (canonicalize_loop L a m n).1 (canonicalize_loop L a m n).2 := by
  intro k
  induction k with
  | zero =>
    intro a m n hk _
    have : a = [] := List.length_eq_zero.mp (Nat.le_zero.mp hk)
    subst this
    simp [loop_nil]
  | succ k ih =>
    intro a m n hk ha
    by_cases hL : n < L
    swap
    · rw [loop_stop L _ m n hL, loop_stop L a m n hL, loop_stop L rest m n hL]
    match a, hk, ha with
    | [], _, _ => simp [loop_nil]
    | [c], _, ha =>
      have hc : c = '/' := by simpa using ha
      subst hc
      simp only [List.singleton_append]
      rw [loop_cons L '/' rest, loop_cons L '/' []]
      by_cases hp : (n != 0 && rd m (n - 1) == '/') = true
      · simp [hL, hp, loop_nil]
      · simp [hL, hp, loop_nil]
    | [c, d], hk, ha =>
      have hk1 : 1 ≤ k := by simp at hk; omega
      have hd : d = '/' := by simpa using ha
      subst hd
      have e1 : canonicalize_loop L ([c, '/'] ++ rest) m n
          = canonicalize_loop L (c :: ('/' :: rest)) m n := rfl
      rw [e1, loop_cons L c ('/' :: rest), loop_cons L c ['/']]
      have i1 := ih ['/'] m n (by simpa using hk1) (Or.inr rfl)
      have i2 := ih [] m n (by simp) (Or.inl rfl)
      have i3 := ih ['/'] (wr m n '/') (n + 1) (by simpa using hk1) (Or.inr rfl)
      have i4 := ih ['/'] (wr m n c) (n + 1) (by simpa using hk1) (Or.inr rfl)
      simp only [List.singleton_append, List.nil_append] at i1 i2 i3 i4
      by_cases hp : (n != 0 && rd m (n - 1) == '/') = true
      · by_cases hc : c = '.'
        · subst hc
          simp [hL, hp, i2]
        · by_cases hc2 : c = '/'
          · subst hc2
            simp [hL, hp, i1]
          · simp [hL, hp, hc, hc2, i4]
      · by_cases hc2 : c = '/'
        · subst hc2
          simp [hL, hp, i3]
        · simp [hL, hp, hc2, i4]
    | c :: d :: e :: a3, hk, ha =>
      have ha1 : (d :: e :: a3).getLast? = some '/' := by simpa using ha
      have ha2 : (e :: a3).getLast? = some '/' := by simpa using ha1
      have e1 : canonicalize_loop L (c :: d :: e :: a3 ++ rest) m n
          = canonicalize_loop L (c :: (d :: e :: (a3 ++ rest))) m n := rfl
      rw [e1, loop_cons L c (d :: e :: (a3 ++ rest)), loop_cons L c (d :: e :: a3)]
      have hk1 : (d :: e :: a3).length ≤ k := by simp at hk ⊢; omega
      have hk2 : (e :: a3).length ≤ k := by simp at hk ⊢; omega
      have i1 := fun m n => ih (d :: e :: a3) m n hk1 (Or.inr ha1)
      have i2 := fun m n => ih (e :: a3) m n hk2 (Or.inr ha2)
      simp only [List.cons_append] at i1 i2
      simp only [List.tail_cons, i1, i2, hL, if_true, List.take_succ_cons, List.take_zero]
      split_ifs <;> first | rfl | simp_all

theorem loop_append (L : Nat) (a rest m : List Char) (n : Nat)
    (ha : a = [] ∨ a.getLast? = some '/') :
    canonicalize_loop L (a ++ rest) m n
      = canonicalize_loop L rest (canonicalize_loop L a m n).1 (canonicalize_loop L a m n).2 :=
  loop_append_aux L rest a.length a m n (Nat.le_refl _) ha

theorem loop_copy_gen (L : Nat) (c : Char) (p1 m : List Char) (n : Nat) (hL : n < L)
    (hc : c ≠ '/') (hs : ¬ (prev m n ∧ special (c :: p1) m)) :
    canonicalize_loop L (c :: p1) m n = canonicalize_loop L p1 (wr m n c) (n + 1) := by
  by_cases hp : prev m n
  · exact loop_copy L c p1 m n hL hc (fun h => hs ⟨hp, h⟩)
  · exact loop_copy_noprev L c p1 m n hL hp hc

/-- Induction along the iterations of the loop of `canonicalize_path`: one case
for each way the loop body can go. -/
theorem loop_induction (L : Nat) (P : List Char → List Char → Nat → Prop)
    (h_nil : ∀ m n, P [] m n)
    (h_stop : ∀ p m n, ¬ n < L → P p m n)
    (h_dotslash : ∀ p2 m n, n < L → prev m n → P p2 m n → P ('.' :: '/' :: p2) m n)
    (h_dot : ∀ m n, n < L → prev m n → P ['.'] m n)
    (h_ddslash : ∀ p3 m n, n < L → prev m n → c_str m ≠ ['.', '.', '/'] →
      P ('/' :: p3) m (scan_back m (n - 1)) → P ('.' :: '.' :: '/' :: p3) m n)
    (h_ddend : ∀ m n, n < L → prev m n → c_str m ≠ ['.', '.', '/'] → P ['.', '.'] m n)
    (h_skip : ∀ p1 m n, n < L → prev m n → P p1 m n → P ('/' :: p1) m n)
    (h_slash : ∀ p1 m n, n < L → ¬ prev m n → P p1 (wr m n '/') (n + 1) → P ('/' :: p1) m n)
    (h_copy : ∀ c p1 m n, n < L → c ≠ '/' → ¬ (prev m n ∧ special (c :: p1) m) →
      P p1 (wr m n c) (n + 1) → P (c :: p1) m n) :
    ∀ p m n, P p m n := by
  have key : ∀ (k : Nat) (p m : List Char) (n : Nat), p.length ≤ k → P p m n := by
    intro k
    induction k with
    | zero =>
      intro p m n hk
      have : p = [] := List.length_eq_zero.mp (Nat.le_zero.mp hk)
      subst this
      exact h_nil m n
    | succ k ih =>
      intro p m n hk
      by_cases hL : n < L
      swap
      · exact h_stop p m n hL
      match p, hk with
      | [], _ => exact h_nil m n
      | c :: p1, hk =>
        have hk1 : p1.length ≤ k := by simp at hk; omega
        by_cases hc : c = '/'
        · subst hc
          by_cases hp : prev m n
          · exact h_skip p1 m n hL hp (ih p1 m n hk1)
          · exact h_slash p1 m n hL hp (ih p1 _ _ hk1)
        · by_cases hs : prev m n ∧ special (c :: p1) m
          · obtain ⟨hp, hs⟩ := hs
            rcases hs with h1 | h1 | ⟨h1, hg⟩
            · match p1, hk1, h1 with
              | d :: p2, hk1, h1 =>
                have hk2 : p2.length ≤ k := by simp at hk1; omega
                simp at h1
                obtain ⟨rfl, rfl⟩ := h1
                exact h_dotslash p2 m n hL hp (ih p2 m n hk2)
            · simp at h1
              obtain ⟨rfl, rfl⟩ := h1
              exact h_dot m n hL hp
            · rcases h1 with h1 | h1
              · match p1, hk1, h1 with
                | d :: e :: p3, hk1, h1 =>
                  have hk2 : ('/' :: p3).length ≤ k := by simp at hk1 ⊢; omega
                  simp at h1
                  obtain ⟨rfl, rfl, rfl⟩ := h1
                  exact h_ddslash p3 m n hL hp hg (ih _ m _ hk2)
              · simp at h1
                obtain ⟨rfl, rfl⟩ := h1
                exact h_ddend m n hL hp hg
          · exact h_copy c p1 m n hL hc hs (ih p1 _ _ hk1)
  intro p m n
  exact key p.length p m n (Nat.le_refl _)

/-- After a text that ends with a slash the cursor rests on a slash, unless the
loop ran out of room. -/
theorem loop_prev_of_ends_slash (L : Nat) :
    ∀ (p m : List Char) (n : Nat), (p = [] → prev m n) → (p ≠ [] → p.getLast? = some '/') →
      (canonicalize_loop L p m n).2 < L →
      prev (canonicalize_loop L p m n).1 (canonicalize_loop L p m n).2 := by
  intro p m n
  induction p, m, n using loop_induction L with
  | h_nil m n => intro h _ _; simpa [loop_nil] using h rfl
  | h_stop p m n hL => intro _ _ h; rw [loop_stop L p m n hL] at h; exact absurd h hL
  | h_dotslash p2 m n hL hp ih =>
    intro _ h2 h3
    rw [loop_dotslash L p2 m n hL hp] at h3 ⊢
    refine ih (fun _ => hp) (fun hne => ?_) h3
    have := h2 (by simp)
    cases p2 with
    | nil => exact absurd rfl hne
    | cons x xs => simpa using this
  | h_dot m n hL hp => intro _ h2 _; simpa using h2 (by simp)
  | h_ddslash p3 m n hL hp hg ih =>
    intro _ h2 h3
    rw [loop_dd_slash L p3 m n hL hp hg] at h3 ⊢
    refine ih (fun h => by simp at h) (fun _ => ?_) h3
    simpa using h2 (by simp)
  | h_ddend m n hL hp hg => intro _ h2 _; simpa using h2 (by simp)
  | h_skip p1 m n hL hp ih =>
    intro _ h2 h3
    rw [loop_slash_skip L p1 m n hL hp] at h3 ⊢
    refine ih (fun _ => hp) (fun hne => ?_) h3
    have := h2 (by simp)
    cases p1 with
    | nil => exact absurd rfl hne
    | cons x xs => simpa using this
  | h_slash p1 m n hL hp ih =>
    intro _ h2 h3
    rw [loop_slash_write L p1 m n hL hp] at h3 ⊢
    refine ih (fun _ => ⟨by omega, by simp [rd_wr_same]⟩) (fun hne => ?_) h3
    have := h2 (by simp)
    cases p1 with
    | nil => exact absurd rfl hne
    | cons x xs => simpa using this
  | h_copy c p1 m n hL hc hs ih =>
    intro _ h2 h3
    rw [loop_copy_gen L c p1 m n hL hc hs] at h3 ⊢
    have h2b := h2 (by simp)
    cases p1 with
    | nil => simp at h2b; exact absurd h2b hc
    | cons x xs =>
      refine ih (fun h => by simp at h) (fun _ => ?_) h3
      simpa using h2b

/-! ## Texts and their terminator -/

theorem c_str_append_of_mem (a x : List Char) (h : NUL ∈ a) : c_str (a ++ x) = c_str a := by
  induction a with
  | nil => simp at h
  | cons c a ih =>
    by_cases hc : c = NUL
    · subst hc; simp [c_str, List.takeWhile]
    · have : NUL ∈ a := by
        rcases List.mem_cons.mp h with h | h
        · exact absurd h.symm hc
        · exact h
      have ih2 := ih this
      simp only [c_str] at ih2 ⊢
      simp [List.takeWhile, hc, ih2]

theorem c_str_append_of_not_mem (a x : List Char) (h : NUL ∉ a) :
    c_str (a ++ x) = a ++ c_str x := by
  induction a with
  | nil => simp
  | cons c a ih =>
    have hc : c ≠ NUL := fun e => h (by simp [e])
    have ha : NUL ∉ a := fun e => h (by simp [e])
    have ih2 := ih ha
    have hb : (c != NUL) = true := by simpa using hc
    simp only [c_str] at ih2 ⊢
    simp only [List.cons_append, List.takeWhile_cons, hb, if_true, ih2]

theorem c_str_of_not_mem (a : List Char) (h : NUL ∉ a) : c_str a = a := by
  have := c_str_append_of_not_mem a [] h
  simpa [c_str] using this

theorem not_mem_c_str (a : List Char) : NUL ∉ c_str a := by
  intro h
  have := List.mem_takeWhile_imp h
  simp at this


theorem canonicalize_path_congr (d1 d2 buf : List Char) (before : Char) (buf_size : Nat)
    (h : canonicalize_loop (size_sub buf_size 1) (c_str d1) (wr buf 0 NUL) 0
      = canonicalize_loop (size_sub buf_size 1) (c_str d2) (wr buf 0 NUL) 0) :
    canonicalize_path d1 buf before buf_size = canonicalize_path d2 buf before buf_size := by
  unfold canonicalize_path
  simp only [h]

theorem rd_zero_of_c_str (m : List Char) (c : Char) (l : List Char) (h : c_str m = c :: l) :
    rd m 0 = c := by
  cases m with
  | nil => simp [c_str] at h
  | cons d m =>
    by_cases hd : (d != NUL) = true
    · simp only [c_str, List.takeWhile_cons, hd, if_true] at h
      simp only [List.cons.injEq] at h
      simp [rd, h.1]
    · simp [c_str, List.takeWhile_cons, hd] at h

theorem not_prev_zero (m : List Char) : ¬ prev m 0 := fun h => h.1 rfl

/-! ## The text below the cursor -/

theorem txt_length (m : List Char) (k : Nat) : (txt m k).length = k := by
  induction k with
  | zero => rfl
  | succ k ih => simp [txt, ih]

theorem txt_wr (m : List Char) (i : Nat) (c : Char) (k : Nat) (h : k ≤ i) :
    txt (wr m i c) k = txt m k := by
  induction k with
  | zero => rfl
  | succ k ih =>
    simp only [txt]
    rw [ih (by omega), rd_wr_ne m i c k (by omega)]

theorem txt_wr_succ (m : List Char) (n : Nat) (c : Char) :
    txt (wr m n c) (n + 1) = txt m n ++ [c] := by
  simp only [txt]
  rw [txt_wr m n c n (Nat.le_refl _), rd_wr_same]

theorem txt_getLast (m : List Char) (n : Nat) (h : n ≠ 0) :
    (txt m n).getLast? = some (rd m (n - 1)) := by
  cases n with
  | zero => exact absurd rfl h
  | succ k => simp [txt]

theorem prev_iff (m : List Char) (n : Nat) : prev m n ↔ (txt m n).getLast? = some '/' := by
  unfold prev
  cases n with
  | zero => simp [txt]
  | succ k => simp [txt]

theorem txt_congr (m1 m2 : List Char) (k : Nat) (h : ∀ i, i < k → rd m1 i = rd m2 i) :
    txt m1 k = txt m2 k := by
  induction k with
  | zero => rfl
  | succ k ih =>
    simp only [txt]
    rw [ih (fun i hi => h i (by omega)), h k (by omega)]

theorem rd_of_txt_eq (m1 m2 : List Char) (k : Nat) (h : txt m1 k = txt m2 k) :
    ∀ i, i < k → rd m1 i = rd m2 i := by
  induction k with
  | zero => intro i hi; omega
  | succ k ih =>
    simp only [txt] at h
    have hl : (txt m1 k).length = (txt m2 k).length := by simp [txt_length]
    have h2 := List.append_inj h hl
    intro i hi
    by_cases e : i = k
    · subst e; simpa using h2.2
    · exact ih h2.1 i (by omega)

theorem txt_initial (m : List Char) (j k : Nat) (h : j ≤ k) : txt m j <+: txt m k := by
  induction k with
  | zero =>
    have : j = 0 := by omega
    subst this
    exact List.prefix_refl _
  | succ k ih =>
    by_cases e : j = k + 1
    · subst e; exact List.prefix_refl _
    · exact (ih (by omega)).trans (by simp [txt])

theorem txt_cons (c : Char) (m : List Char) (k : Nat) :
    txt (c :: m) (k + 1) = c :: txt m k := by
  induction k with
  | zero => simp [txt, rd]
  | succ k ih =>
    have e : txt (c :: m) (k + 1 + 1) = txt (c :: m) (k + 1) ++ [rd (c :: m) (k + 1)] := rfl
    rw [e, ih]
    simp [txt, rd]


/-- The text at `buf` is the run of bytes in front of the first NUL. -/
theorem c_str_eq_txt (k : Nat) : ∀ (m : List Char), (∀ i, i < k → rd m i ≠ NUL) →
    rd m k = NUL → c_str m = txt m k := by
  induction k with
  | zero =>
    intro m _ h0
    cases m with
    | nil => simp [c_str, txt]
    | cons c m =>
      have : c = NUL := by simpa [rd] using h0
      subst this
      simp [c_str, txt, List.takeWhile_cons]
  | succ k ih =>
    intro m hlt hk
    cases m with
    | nil =>
      have := hlt 0 (by omega)
      simp [rd] at this
    | cons c m =>
      have hc : c ≠ NUL := by simpa [rd] using hlt 0 (by omega)
      have hb : (c != NUL) = true := by simpa using hc
      rw [txt_cons]
      have ih2 := ih m (fun i hi => by simpa [rd] using hlt (i + 1) (by omega))
        (by simpa [rd] using hk)
      simp only [c_str] at ih2 ⊢
      simp only [List.takeWhile_cons, hb, if_true, ih2]

theorem scan_back_le (m : List Char) (k : Nat) : scan_back m k ≤ k := by
  induction k with
  | zero => simp [scan_back]
  | succ k ih =>
    simp only [scan_back]
    split
    · exact Nat.le_refl _
    · omega

theorem scan_back_spec (m : List Char) (k : Nat) :
    scan_back m k = 0 ∨ (scan_back m k ≠ 0 ∧ rd m (scan_back m k - 1) = '/') := by
  induction k with
  | zero => left; rfl
  | succ k ih =>
    simp only [scan_back]
    split
    · right; exact ⟨by omega, by simpa using ‹rd m k = '/'›⟩
    · exact ih

theorem scan_back_eq (m : List Char) (n0 k : Nat) (h0 : n0 = 0 ∨ rd m (n0 - 1) = '/')
    (hle : n0 ≤ k) (hno : ∀ i, n0 ≤ i → i < k → rd m i ≠ '/') : scan_back m k = n0 := by
  induction k with
  | zero =>
    have : n0 = 0 := by omega
    subst this; rfl
  | succ k ih =>
    by_cases e : n0 = k + 1
    · subst e
      rcases h0 with h0 | h0
      · omega
      · simp only [scan_back]
        rw [if_pos (by simpa using h0)]
    · simp only [scan_back]
      rw [if_neg (hno k (by omega) (by omega))]
      exact ih (by omega) (fun i h1 h2 => hno i h1 (by omega))

/-! ## The text `canonicalize_path` leaves -/

theorem loop_nonul (L : Nat) : ∀ (p m : List Char) (n : Nat), NUL ∉ p →
    (∀ i, i < n → rd m i ≠ NUL) →
    ∀ i, i < (canonicalize_loop L p m n).2 → rd (canonicalize_loop L p m n).1 i ≠ NUL := by
  intro p m n
  induction p, m, n using loop_induction L with
  | h_nil m n => intro _ h; simpa [loop_nil] using h
  | h_stop p m n hL => intro _ h; rw [loop_stop L p m n hL]; exact h
  | h_dotslash p2 m n hL hp ih =>
    intro hn h
    rw [loop_dotslash L p2 m n hL hp]
    exact ih (fun e => hn (by simp [e])) h
  | h_dot m n hL hp => intro _ h; rw [loop_dot L m n hp]; exact h
  | h_ddslash p3 m n hL hp hg ih =>
    intro hn h
    rw [loop_dd_slash L p3 m n hL hp hg]
    refine ih (fun e => hn ?_) (fun i hi => h i ?_)
    · simp only [List.mem_cons] at e ⊢
      tauto
    · have := scan_back_le m (n - 1); omega
  | h_ddend m n hL hp hg =>
    intro _ h
    rw [loop_dd_end L m n hL hp hg]
    intro i hi
    have := scan_back_le m (n - 1)
    exact h i (by simp at hi; omega)
  | h_skip p1 m n hL hp ih =>
    intro hn h
    rw [loop_slash_skip L p1 m n hL hp]
    exact ih (fun e => hn (by simp [e])) h
  | h_slash p1 m n hL hp ih =>
    intro hn h
    rw [loop_slash_write L p1 m n hL hp]
    refine ih (fun e => hn (by simp [e])) (fun i hi => ?_)
    rw [rd_wr]
    split
    · decide
    · exact h i (by omega)
  | h_copy c p1 m n hL hc hs ih =>
    intro hn h
    rw [loop_copy_gen L c p1 m n hL hc hs]
    refine ih (fun e => hn (by simp [e])) (fun i hi => ?_)
    rw [rd_wr]
    split
    · exact fun e => hn (by simp [e])
    · exact h i (by omega)

theorem c_str_canonicalize_path (d buf : List Char) (before : Char) (buf_size : Nat) :
    c_str (canonicalize_path d buf before buf_size)
      = finish before
          (txt (canonicalize_loop (size_sub buf_size 1) (c_str d) (wr buf 0 NUL) 0).1
            (canonicalize_loop (size_sub buf_size 1) (c_str d) (wr buf 0 NUL) 0).2) := by
  have hnn := loop_nonul (size_sub buf_size 1) (c_str d) (wr buf 0 NUL) 0 (not_mem_c_str d)
    (fun i hi => absurd hi (Nat.not_lt_zero i))
  simp only [canonicalize_path, finish]
  generalize canonicalize_loop (size_sub buf_size 1) (c_str d) (wr buf 0 NUL) 0 = r at hnn
  obtain ⟨m, n⟩ := r
  simp only at hnn ⊢
  have hlast : (txt m n).getLast?.getD before = if n = 0 then before else rd m (n - 1) := by
    cases n with
    | zero => simp [txt]
    | succ k => simp [txt]
  rw [hlast]
  by_cases hq : (if n = 0 then before else rd m (n - 1)) = '/'
  · have hb : ((if n = 0 then before else rd m (n - 1)) != '/') = false := by simp [hq]
    rw [hb]
    simp only [Bool.false_eq_true, if_false, hq, if_true]
    rw [c_str_eq_txt n _ (fun i hi => by rw [rd_wr_ne _ _ _ _ (by omega)]; exact hnn i hi)
      (rd_wr_same _ _ _)]
    exact txt_wr _ _ _ _ (Nat.le_refl _)
  · have hb : ((if n = 0 then before else rd m (n - 1)) != '/') = true := by simp [hq]
    rw [hb]
    simp only [if_true, hq, if_false]
    rw [c_str_eq_txt (n + 1) _ ?_ (rd_wr_same _ _ _)]
    · rw [txt_wr _ _ _ _ (Nat.le_refl _), txt_wr_succ]
    · intro i hi
      rw [rd_wr_ne _ _ _ _ (by omega), rd_wr]
      split
      · decide
      · exact hnn i (by omega)

/-! ## The form of the produced text -/

theorem suffix_snoc (l out : List Char) (x c : Char) :
    (l ++ [x]) <:+ (out ++ [c]) ↔ x = c ∧ l <:+ out := by
  constructor
  · rintro ⟨t, ht⟩
    rw [← List.append_assoc] at ht
    have h := List.append_inj' ht rfl
    exact ⟨by simpa using h.2, ⟨t, h.1⟩⟩
  · rintro ⟨rfl, ⟨t, rfl⟩⟩
    exact ⟨t, by simp⟩

theorem suffix_of_getLast (out : List Char) (c : Char) (h : out.getLast? = some c) :
    ∃ u, out = u ++ [c] := by
  rcases List.eq_nil_or_concat out with h0 | ⟨u, d, rfl⟩
  · subst h0; simp at h
  · simp at h; subst h; exact ⟨u, by simp⟩

theorem not_suffix_of_last (l out : List Char) (x c : Char) (hx : x ≠ c)
    (h : out = [] ∨ out.getLast? = some c) : ¬ (l ++ [x]) <:+ out := by
  rcases h with h | h
  · subst h
    intro hs
    have := List.eq_nil_of_suffix_nil hs
    simp at this
  · obtain ⟨u, rfl⟩ := suffix_of_getLast out c h
    rw [suffix_snoc]
    exact fun e => hx e.1

theorem CanonForm_initial (out t : List Char) (h : CanonForm out) (hp : t <+: out) :
    CanonForm t := by
  obtain ⟨w, rfl⟩ := hp
  refine ⟨fun hi => h.noSS ?_, fun hi => h.noSDS ?_, fun u v e => h.dd u (v ++ w) ?_⟩
  · exact hi.trans (List.infix_append' [] t w |>.trans (by simp))
  · exact hi.trans (List.infix_append' [] t w |>.trans (by simp))
  · rw [e]; simp

theorem Jinv_of_last (out p : List Char) (h : CanonForm out)
    (hl : out = [] ∨ out.getLast? = some '/') : Jinv out p := by
  refine ⟨h, fun hs => ?_, fun hs => ?_⟩
  · exact absurd hs (not_suffix_of_last ['/'] out '.' '/' (by decide) hl)
  · exact absurd hs (not_suffix_of_last ['/', '.'] out '.' '/' (by decide) hl)

theorem CanonForm_nil : CanonForm [] := by
  refine ⟨fun h => ?_, fun h => ?_, fun u v e => ?_⟩
  · have := List.eq_nil_of_infix_nil h; simp at this
  · have := List.eq_nil_of_infix_nil h; simp at this
  · have := congrArg List.length e; simp at this; omega

/-- Form after a stored slash. -/
theorem Jinv_slash (out p1 : List Char) (h : Jinv out ('/' :: p1))
    (hl : out.getLast? ≠ some '/') : Jinv (out ++ ['/']) p1 := by
  apply Jinv_of_last _ _ _ (Or.inr (by simp))
  refine ⟨fun hi => ?_, fun hi => ?_, fun u v e => ?_⟩
  · rcases List.infix_concat_iff.mp hi with hs | hs
    · have := (suffix_snoc ['/'] out '/' '/').mp hs
      obtain ⟨t, ht⟩ := this.2
      exact hl (by rw [← ht]; simp)
    · exact h.form.noSS hs
  · rcases List.infix_concat_iff.mp hi with hs | hs
    · have := (suffix_snoc ['/', '.'] out '/' '/').mp hs
      obtain ⟨c, q, hq, hc, _⟩ := h.d1 this.2
      simp at hq
      exact hc hq.1.symm
    · exact h.form.noSDS hs
  · rcases List.eq_nil_or_concat v with hv | ⟨v1, x, rfl⟩
    · subst hv
      have e2 : out ++ ['/'] = (u ++ ['/', '.', '.']) ++ ['/'] := by simpa using e
      have e3 := (List.append_inj' e2 rfl).1
      rcases h.d2 ⟨u, e3.symm⟩ with ⟨c, q, hq, hc⟩ | ho
      · simp at hq
        exact absurd hq.1.symm hc
      · rw [ho] at e3
        have : (['.', '.'] ++ ['/', '.', '.'] : List Char) = u ++ ['/', '.', '.'] := e3
        exact ((List.append_inj' this rfl).1).symm
    · have e2 : out ++ ['/'] = (u ++ ['/', '.', '.', '/'] ++ v1) ++ [x] := by
        rw [e]; simp
      exact h.form.dd u v1 (List.append_inj' e2 rfl).1

/-- Form after a copied character. -/
theorem Jinv_copy (out : List Char) (c : Char) (p1 : List Char) (h : Jinv out (c :: p1))
    (hc : c ≠ '/') (hs : out.getLast? = some '/' → ¬ specialA (c :: p1) out) :
    Jinv (out ++ [c]) p1 := by
  refine ⟨⟨fun hi => ?_, fun hi => ?_, fun u v e => ?_⟩, fun hsuf => ?_, fun hsuf => ?_⟩
  · rcases List.infix_concat_iff.mp hi with hs2 | hs2
    · exact hc ((suffix_snoc ['/'] out '/' c).mp hs2).1.symm
    · exact h.form.noSS hs2
  · rcases List.infix_concat_iff.mp hi with hs2 | hs2
    · exact hc ((suffix_snoc ['/', '.'] out '/' c).mp hs2).1.symm
    · exact h.form.noSDS hs2
  · rcases List.eq_nil_or_concat v with hv | ⟨v1, x, rfl⟩
    · subst hv
      have e2 : out ++ [c] = (u ++ ['/', '.', '.']) ++ ['/'] := by simpa using e
      have := (List.append_inj' e2 rfl).2
      simp at this
      exact absurd this hc
    · have e2 : out ++ [c] = (u ++ ['/', '.', '.', '/'] ++ v1) ++ [x] := by
        rw [e]; simp
      exact h.form.dd u v1 (List.append_inj' e2 rfl).1
  · -- out ++ [c] ends with "/.": c = '.', out ends with '/'
    have h1 := (suffix_snoc ['/'] out '.' c).mp hsuf
    obtain ⟨hcd, t, ht⟩ := h1
    subst hcd
    have hl : out.getLast? = some '/' := by rw [← ht]; simp
    have hsp := hs hl
    unfold specialA at hsp
    push_neg at hsp
    obtain ⟨s1, s2, s3⟩ := hsp
    match p1, s1, s2, s3 with
    | [], _, s2, _ => exact absurd rfl s2
    | d :: p2, s1, _, s3 =>
      have hd : d ≠ '/' := by
        intro e; subst e; exact s1 rfl
      refine ⟨d, p2, rfl, hd, fun hdd => ?_⟩
      subst hdd
      match p2, s3 with
      | [], s3 =>
        right
        rw [s3 (Or.inr rfl)]
        rfl
      | e :: p3, s3 =>
        by_cases he : e = '/'
        · subst he
          right
          rw [s3 (Or.inl rfl)]
          rfl
        · left; exact ⟨e, p3, rfl, he⟩
  · -- out ++ [c] ends with "/..": c = '.', out ends with "/."
    have h1 := (suffix_snoc ['/', '.'] out '.' c).mp hsuf
    obtain ⟨hcd, hsuf2⟩ := h1
    subst hcd
    obtain ⟨c2, q, hq, _, hq3⟩ := h.d1 hsuf2
    simp only [List.cons.injEq] at hq
    obtain ⟨hq1, hq2⟩ := hq
    subst hq2
    rcases hq3 hq1.symm with ⟨d, p2, hp, hd⟩ | ho
    · left; exact ⟨d, p2, hp, hd⟩
    · right; rw [ho]; rfl

theorem Zmem_wr (m : List Char) (n H : Nat) (c : Char) (h : Zmem m n H) (hc : c ≠ NUL) :
    Zmem (wr m n c) (n + 1) (max H (n + 1)) := by
  obtain ⟨h1, h2, h3⟩ := h
  refine ⟨by omega, fun i hi => ?_, fun i hi => ?_⟩
  · rw [rd_wr]
    split
    · exact hc
    · exact h2 i (by omega)
  · rw [rd_wr_ne _ _ _ _ (by omega)]
    exact h3 i (by omega)

theorem Zmem_le (m : List Char) (n H k : Nat) (h : Zmem m n H) (hk : k ≤ n) : Zmem m k H :=
  ⟨by have := h.1; omega, h.2.1, h.2.2⟩

theorem txt_three (m : List Char) : txt m 3 = [rd m 0, rd m 1, rd m 2] := by
  simp [txt]

/-- In a buffer that started all NUL, the text at `buf` equals "../" at a
cursor that rests on a slash only when the text below the cursor is "../". -/
theorem guard_txt (m : List Char) (n H : Nat) (h : Zmem m n H) (hp : prev m n)
    (hg : c_str m = ['.', '.', '/']) : txt m n = ['.', '.', '/'] := by
  obtain ⟨h1, h2, h3⟩ := h
  have e := c_str_eq_txt H m h2 (h3 H (Nat.le_refl _))
  rw [hg] at e
  have hH : H = 3 := by
    have := congrArg List.length e
    simpa [txt_length] using this.symm
  subst hH
  rw [txt_three] at e
  simp only [List.cons.injEq, and_true] at e
  obtain ⟨e0, e1, e2⟩ := e
  obtain ⟨p0, p1⟩ := hp
  have hn : n = 3 := by
    by_contra hne
    have hcase : n - 1 = 0 ∨ n - 1 = 1 := by omega
    rcases hcase with hh | hh
    · rw [hh, ← e0] at p1; exact absurd p1 (by decide)
    · rw [hh, ← e1] at p1; exact absurd p1 (by decide)
  subst hn
  rw [txt_three, ← e0, ← e1, ← e2]

theorem not_specialA_of_not_special (p m : List Char) (n H : Nat) (h : Zmem m n H)
    (hs : ¬ (prev m n ∧ special p m)) :
    (txt m n).getLast? = some '/' → ¬ specialA p (txt m n) := by
  intro hl hsa
  have hp : prev m n := (prev_iff m n).mpr hl
  apply hs
  refine ⟨hp, ?_⟩
  rcases hsa with h1 | h1 | ⟨h1, h2⟩
  · exact Or.inl h1
  · exact Or.inr (Or.inl h1)
  · exact Or.inr (Or.inr ⟨h1, fun hg => h2 (guard_txt m n H h hp hg)⟩)

theorem scan_back_last (m : List Char) (k : Nat) :
    txt m (scan_back m k) = [] ∨ (txt m (scan_back m k)).getLast? = some '/' := by
  rcases scan_back_spec m k with h | ⟨h1, h2⟩
  · left; rw [h]; rfl
  · right; rw [txt_getLast m _ h1, h2]

/-- With room for the whole input, the loop of `canonicalize_path` run on a
buffer that started all NUL leaves a text of the canonical form that does not
end with a "." or ".." segment, except for the kept "../..". -/
theorem loop_Jinv (L : Nat) : ∀ (p m : List Char) (n : Nat), NUL ∉ p → n + p.length ≤ L →
    (∃ H, Zmem m n H) → Jinv (txt m n) p →
    Jinv (txt (canonicalize_loop L p m n).1 (canonicalize_loop L p m n).2) [] := by
  intro p m n
  induction p, m, n using loop_induction L with
  | h_nil m n => intro _ _ _ h; simpa [loop_nil] using h
  | h_stop p m n hL =>
    intro _ hcap _ h
    have : p = [] := List.length_eq_zero.mp (by omega)
    subst this
    simpa [loop_nil] using h
  | h_dotslash p2 m n hL hp ih =>
    intro hn hcap hz h
    rw [loop_dotslash L p2 m n hL hp]
    refine ih (fun e => hn (by simp [e])) (by simp at hcap; omega) hz ?_
    exact Jinv_of_last _ _ h.form (Or.inr ((prev_iff m n).mp hp))
  | h_dot m n hL hp =>
    intro _ _ _ h
    rw [loop_dot L m n hp]
    exact Jinv_of_last _ _ h.form (Or.inr ((prev_iff m n).mp hp))
  | h_ddslash p3 m n hL hp hg ih =>
    intro hn hcap hz h
    rw [loop_dd_slash L p3 m n hL hp hg]
    have hle : scan_back m (n - 1) ≤ n := by have := scan_back_le m (n - 1); omega
    obtain ⟨H, hH⟩ := hz
    refine ih (fun e => hn ?_) (by simp at hcap ⊢; omega) ⟨H, Zmem_le m n H _ hH hle⟩ ?_
    · simp only [List.mem_cons] at e ⊢
      tauto
    · exact Jinv_of_last _ _ (CanonForm_initial _ _ h.form (txt_initial m _ _ hle))
        (scan_back_last m (n - 1))
  | h_ddend m n hL hp hg =>
    intro _ _ _ h
    rw [loop_dd_end L m n hL hp hg]
    have hle : scan_back m (n - 1) ≤ n := by have := scan_back_le m (n - 1); omega
    exact Jinv_of_last _ _ (CanonForm_initial _ _ h.form (txt_initial m _ _ hle))
      (scan_back_last m (n - 1))
  | h_skip p1 m n hL hp ih =>
    intro hn hcap hz h
    rw [loop_slash_skip L p1 m n hL hp]
    refine ih (fun e => hn (by simp [e])) (by simp at hcap; omega) hz ?_
    exact Jinv_of_last _ _ h.form (Or.inr ((prev_iff m n).mp hp))
  | h_slash p1 m n hL hp ih =>
    intro hn hcap hz h
    rw [loop_slash_write L p1 m n hL hp]
    obtain ⟨H, hH⟩ := hz
    refine ih (fun e => hn (by simp [e])) (by simp at hcap; omega)
      ⟨_, Zmem_wr m n H '/' hH (by decide)⟩ ?_
    rw [txt_wr_succ]
    exact Jinv_slash _ _ h (fun e => hp ((prev_iff m n).mpr e))
  | h_copy c p1 m n hL hc hs ih =>
    intro hn hcap hz h
    rw [loop_copy_gen L c p1 m n hL hc hs]
    obtain ⟨H, hH⟩ := hz
    have hcn : c ≠ NUL := fun e => hn (by simp [e])
    refine ih (fun e => hn (by simp [e])) (by simp at hcap; omega)
      ⟨_, Zmem_wr m n H c hH hcn⟩ ?_
    rw [txt_wr_succ]
    exact Jinv_copy _ c p1 h hc (not_specialA_of_not_special _ m n H hH hs)

theorem Jinv_nil_any (out p : List Char) (h : Jinv out []) : Jinv out p := by
  refine ⟨h.form, fun hs => ?_, fun hs => ?_⟩
  · obtain ⟨c, q, hq, _⟩ := h.d1 hs
    simp at hq
  · rcases h.d2 hs with ⟨c, q, hq, _⟩ | ho
    · simp at hq
    · exact Or.inr ho

theorem finish_last (before : Char) (out : List Char) :
    finish before out = [] ∨ (finish before out).getLast? = some '/' := by
  unfold finish
  split
  · rename_i h
    cases hl : out.getLast? with
    | none =>
      left
      exact List.getLast?_eq_none_iff.mp hl
    | some c =>
      right
      rw [hl] at h
      simpa using h
  · right; simp

theorem finish_finish (before : Char) (out : List Char) :
    finish before (finish before out) = finish before out := by
  rcases finish_last before out with h | h
  · by_cases hb : out.getLast?.getD before = '/'
    · have e : finish before out = out := by simp [finish, hb]
      rw [e]; exact e
    · have e : finish before out = out ++ ['/'] := by simp [finish, hb]
      rw [e] at h; simp at h
  · unfold finish at h ⊢
    split
    · rename_i h1
      simp [h1]
    · simp

theorem CanonForm_finish (before : Char) (out : List Char) (h : Jinv out []) :
    CanonForm (finish before out) := by
  unfold finish
  split
  · exact h.form
  · rename_i hb
    refine (Jinv_slash out [] (Jinv_nil_any out _ h) ?_).form
    intro e
    rw [e] at hb
    simp at hb

theorem rd_replicate (k i : Nat) : rd (List.replicate k NUL) i = NUL := by
  rw [rd_eq, List.getElem?_replicate]
  split <;> rfl

theorem Zmem_zero (k : Nat) : Zmem (wr (List.replicate k NUL) 0 NUL) 0 0 := by
  refine ⟨Nat.le_refl _, fun i hi => absurd hi (Nat.not_lt_zero i), fun i _ => ?_⟩
  rw [rd_wr]
  split
  · rfl
  · exact rd_replicate k i

theorem size_sub_one (s : Nat) (h1 : 1 ≤ s) (h2 : s < 2 ^ 64) : size_sub s 1 = s - 1 := by
  unfold size_sub
  rw [Nat.mod_eq_of_lt h2]
  have e : (1 : Nat) % 2 ^ 64 = 1 := by norm_num
  rw [e]
  have e2 : s + 2 ^ 64 - 1 = (s - 1) + 2 ^ 64 := by omega
  rw [e2, Nat.add_mod_right, Nat.mod_eq_of_lt (by omega)]

theorem c_str_length_le (s : List Char) : (c_str s).length ≤ s.length := by
  unfold c_str
  exact (List.takeWhile_sublist _).length_le

theorem txt_zero (m : List Char) : txt m 0 = [] := rfl

/-- The text `canon` produces, as the finished text of the loop. -/
theorem canon_eq (raw : List Char) (before : Char) (buf_size : Nat) :
    canon raw before buf_size
      = finish before
          (txt (canonicalize_loop (size_sub buf_size 1) (c_str raw)
              (wr (List.replicate buf_size NUL) 0 NUL) 0).1
            (canonicalize_loop (size_sub buf_size 1) (c_str raw)
              (wr (List.replicate buf_size NUL) 0 NUL) 0).2) := by
  unfold canon
  exact c_str_canonicalize_path raw _ before buf_size

theorem canon_Jinv (raw : List Char) (buf_size : Nat) (hcap : raw.length + 2 ≤ buf_size)
    (hsz : buf_size < 2 ^ 64) :
    Jinv (txt (canonicalize_loop (size_sub buf_size 1) (c_str raw)
              (wr (List.replicate buf_size NUL) 0 NUL) 0).1
            (canonicalize_loop (size_sub buf_size 1) (c_str raw)
              (wr (List.replicate buf_size NUL) 0 NUL) 0).2) [] := by
  apply loop_Jinv _ _ _ _ (not_mem_c_str raw)
  · rw [size_sub_one buf_size (by omega) hsz]
    have := c_str_length_le raw
    omega
  · exact ⟨0, Zmem_zero buf_size⟩
  · rw [txt_zero]
    exact Jinv_of_last _ _ CanonForm_nil (Or.inl rfl)

theorem canon_form (raw : List Char) (before : Char) (buf_size : Nat)
    (hcap : raw.length + 2 ≤ buf_size) (hsz : buf_size < 2 ^ 64) :
    CanonForm (canon raw before buf_size) := by
  rw [canon_eq]
  exact CanonForm_finish before _ (canon_Jinv raw buf_size hcap hsz)

/-! ## Texts the loop copies unchanged -/

theorem loop_count_le (L : Nat) : ∀ (p m : List Char) (n : Nat),
    (canonicalize_loop L p m n).2 ≤ n + p.length := by
  intro p m n
  induction p, m, n using loop_induction L with
  | h_nil m n => simp [loop_nil]
  | h_stop p m n hL => rw [loop_stop L p m n hL]; simp
  | h_dotslash p2 m n hL hp ih => rw [loop_dotslash L p2 m n hL hp]; simp; omega
  | h_dot m n hL hp => rw [loop_dot L m n hp]; simp
  | h_ddslash p3 m n hL hp hg ih =>
    rw [loop_dd_slash L p3 m n hL hp hg]
    have := scan_back_le m (n - 1)
    simp at ih ⊢; omega
  | h_ddend m n hL hp hg =>
    rw [loop_dd_end L m n hL hp hg]
    have := scan_back_le m (n - 1)
    simp; omega
  | h_skip p1 m n hL hp ih => rw [loop_slash_skip L p1 m n hL hp]; simp; omega
  | h_slash p1 m n hL hp ih => rw [loop_slash_write L p1 m n hL hp]; simp; omega
  | h_copy c p1 m n hL hc hs ih => rw [loop_copy_gen L c p1 m n hL hc hs]; simp; omega

theorem c_str_of_txt_three (m : List Char) (h : txt m 3 = ['.', '.', '/']) (hz : rd m 3 = NUL) :
    c_str m = ['.', '.', '/'] := by
  rw [← h]
  apply c_str_eq_txt 3 m _ hz
  rw [txt_three] at h
  simp only [List.cons.injEq, and_true] at h
  obtain ⟨e0, e1, e2⟩ := h
  intro i hi
  have hcase : i = 0 ∨ i = 1 ∨ i = 2 := by omega
  rcases hcase with rfl | rfl | rfl
  · rw [e0]; decide
  · rw [e1]; decide
  · rw [e2]; decide

/-- With room for the text `t`, the loop copies `t` unchanged behind the text
below the cursor when every position of `t` that follows a slash is in the
situation `okAt`. -/
theorem loop_verbatim (L : Nat) : ∀ (t m : List Char) (n : Nat), n + t.length ≤ L →
    (∀ u c v, t = u ++ c :: v → okAt (txt m n ++ u) (c :: v) (rd m 3 = NUL)) →
    (canonicalize_loop L t m n).2 = n + t.length
      ∧ txt (canonicalize_loop L t m n).1 (n + t.length) = txt m n ++ t := by
  intro t
  induction t with
  | nil => intro m n _ _; simp [loop_nil]
  | cons c t1 ih =>
    intro m n hcap hok
    have hL : n < L := by simp at hcap; omega
    have h0 := hok [] c t1 rfl
    simp only [List.append_nil] at h0
    have hstep : canonicalize_loop L (c :: t1) m n
        = canonicalize_loop L t1 (wr m n c) (n + 1) := by
      by_cases hc : c = '/'
      · subst hc
        apply loop_slash_write L t1 m n hL
        intro hp
        have := (h0 ((prev_iff m n).mp hp)).1
        simp at this
      · apply loop_copy_gen L c t1 m n hL hc
        rintro ⟨hp, hs⟩
        have hl := (prev_iff m n).mp hp
        obtain ⟨_, o2, o3, o4⟩ := h0 hl
        rcases hs with s | s | ⟨s, hg⟩
        · exact o2 s
        · exact o3 s
        · obtain ⟨e, hz⟩ := o4 s
          have hn : n = 3 := by
            have := congrArg List.length e
            simpa [txt_length] using this
          subst hn
          exact hg (c_str_of_txt_three m e hz)
    rw [hstep]
    have hih := ih (wr m n c) (n + 1) (by simp at hcap ⊢; omega) (by
      intro u c2 v e
      have hk := hok (c :: u) c2 v (by rw [e]; rfl)
      rw [txt_wr_succ]
      have e2 : txt m n ++ [c] ++ u = txt m n ++ c :: u := by simp
      rw [e2]
      intro hl
      obtain ⟨o1, o2, o3, o4⟩ := hk hl
      refine ⟨o1, o2, o3, fun hd => ?_⟩
      obtain ⟨e3, hz⟩ := o4 hd
      refine ⟨e3, ?_⟩
      have hlen := congrArg List.length e3
      simp [txt_length] at hlen
      rw [rd_wr_ne _ _ _ _ (by omega)]
      exact hz)
    obtain ⟨h1, h2⟩ := hih
    refine ⟨by rw [h1]; simp; omega, ?_⟩
    have e : n + (c :: t1).length = n + 1 + t1.length := by simp; omega
    rw [e, h2, txt_wr_succ]
    simp

/-- A text of the canonical form that ends with a slash is, read from an empty
output, everywhere in the situation `okAt`. -/
theorem okAt_of_CanonForm (t : List Char) (z : Prop) (hz : z) (h : CanonForm t)
    (hl : t.getLast? = some '/') :
    ∀ u c v, t = u ++ c :: v → okAt ([] ++ u) (c :: v) z := by
  intro u c v e
  simp only [List.nil_append]
  intro hu
  obtain ⟨u1, rfl⟩ := suffix_of_getLast u '/' hu
  have hne : ∀ w : List Char, t ≠ w ++ ['.'] := by
    intro w hw
    rw [hw] at hl
    simp at hl
  refine ⟨fun hh => ?_, fun hh => ?_, fun hh => ?_, fun hh => ?_⟩
  · simp at hh
    subst hh
    apply h.noSS
    exact ⟨u1, v, by rw [e]; simp⟩
  · match v, hh with
    | d :: v2, hh =>
      simp at hh
      obtain ⟨rfl, rfl⟩ := hh
      apply h.noSDS
      exact ⟨u1, v2, by rw [e]; simp⟩
  · simp at hh
    obtain ⟨rfl, rfl⟩ := hh
    exact hne (u1 ++ ['/']) e
  · rcases hh with hh | hh
    · match v, hh with
      | d :: f :: v3, hh =>
        simp at hh
        obtain ⟨rfl, rfl, rfl⟩ := hh
        have := h.dd u1 v3 (by rw [e]; simp)
        subst this
        exact ⟨rfl, hz⟩
    · simp at hh
      obtain ⟨rfl, rfl⟩ := hh
      exact absurd (by rw [e]; simp) (hne (u1 ++ ['/', '.']))

theorem finish_length_le (before : Char) (out : List Char) :
    (finish before out).length ≤ out.length + 1 := by
  unfold finish
  split <;> simp

theorem canon_length_le (raw : List Char) (before : Char) (buf_size : Nat) :
    (canon raw before buf_size).length ≤ raw.length + 1 := by
  rw [canon_eq]
  have h1 := finish_length_le before
    (txt (canonicalize_loop (size_sub buf_size 1) (c_str raw)
        (wr (List.replicate buf_size NUL) 0 NUL) 0).1
      (canonicalize_loop (size_sub buf_size 1) (c_str raw)
        (wr (List.replicate buf_size NUL) 0 NUL) 0).2)
  rw [txt_length] at h1
  have h2 := loop_count_le (size_sub buf_size 1) (c_str raw)
    (wr (List.replicate buf_size NUL) 0 NUL) 0
  have h3 := c_str_length_le raw
  omega

/-- A text of the canonical form that is empty or ends with a slash is
reproduced by `canonicalize_path` in a zero-initialised buffer with room. -/
theorem canon_of_CanonForm (t : List Char) (before : Char) (buf_size : Nat)
    (hn : NUL ∉ t) (h : CanonForm t) (hl : t = [] ∨ t.getLast? = some '/')
    (hcap : t.length + 1 ≤ buf_size) (hsz : buf_size < 2 ^ 64) :
    canon t before buf_size = finish before t := by
  rw [canon_eq, c_str_of_not_mem t hn]
  rcases hl with hl | hl
  · subst hl
    rw [loop_nil]
    rfl
  · have hz : rd (wr (List.replicate buf_size NUL) 0 NUL) 3 = NUL := by
      rw [rd_wr_ne _ _ _ _ (by omega)]
      exact rd_replicate _ _
    have hv := loop_verbatim (size_sub buf_size 1) t (wr (List.replicate buf_size NUL) 0 NUL) 0
      (by rw [size_sub_one buf_size (by omega) hsz]; omega)
      (by
        rw [txt_zero]
        exact okAt_of_CanonForm t _ hz h hl)
    obtain ⟨h1, h2⟩ := hv
    rw [h1, h2, txt_zero]
    rfl

/-! ## Absolute paths: the bytes above the cursor do not matter -/

theorem scan_back_congr (m1 m2 : List Char) (k : Nat) (h : ∀ i, i < k → rd m1 i = rd m2 i) :
    scan_back m1 k = scan_back m2 k := by
  induction k with
  | zero => rfl
  | succ k ih =>
    simp only [scan_back]
    rw [h k (by omega), ih (fun i hi => h i (by omega))]

theorem guard_of_abs (m : List Char) (h : rd m 0 = '/') : c_str m ≠ ['.', '.', '/'] := by
  intro e
  have := rd_zero_of_c_str _ _ _ e
  rw [h] at this
  exact absurd this (by decide)

theorem prev_congr (m1 m2 : List Char) (n : Nat) (h : txt m2 n = txt m1 n) :
    prev m1 n ↔ prev m2 n := by
  rw [prev_iff, prev_iff, h]

/-- For an absolute path, two runs of the loop from buffers that agree below
the cursor end with the same cursor and the same text below it. -/
theorem loop_abs_sim (L : Nat) : ∀ (p m1 : List Char) (n : Nat) (m2 : List Char),
    txt m2 n = txt m1 n → AbsState m1 n p →
    (canonicalize_loop L p m2 n).2 = (canonicalize_loop L p m1 n).2
      ∧ txt (canonicalize_loop L p m2 n).1 (canonicalize_loop L p m2 n).2
          = txt (canonicalize_loop L p m1 n).1 (canonicalize_loop L p m1 n).2
      ∧ ((canonicalize_loop L p m1 n).2 ≠ 0 → rd (canonicalize_loop L p m1 n).1 0 = '/') := by
  intro p m1 n
  induction p, m1, n using loop_induction L with
  | h_nil m n => intro m2 ht ha; rw [loop_nil, loop_nil]; exact ⟨rfl, ht, ha.2⟩
  | h_stop p m n hL =>
    intro m2 ht ha
    rw [loop_stop L p m n hL, loop_stop L p m2 n hL]
    exact ⟨rfl, ht, ha.2⟩
  | h_dotslash p2 m n hL hp ih =>
    intro m2 ht ha
    rw [loop_dotslash L p2 m n hL hp, loop_dotslash L p2 m2 n hL ((prev_congr m m2 n ht).mp hp)]
    exact ih m2 ht ⟨fun e => absurd e hp.1, ha.2⟩
  | h_dot m n hL hp =>
    intro m2 ht ha
    rw [loop_dot L m n hp, loop_dot L m2 n ((prev_congr m m2 n ht).mp hp)]
    exact ⟨rfl, ht, ha.2⟩
  | h_ddslash p3 m n hL hp hg ih =>
    intro m2 ht ha
    have hp2 := (prev_congr m m2 n ht).mp hp
    have hrd := rd_of_txt_eq m2 m n ht
    have h0 : rd m2 0 = '/' := by rw [hrd 0 (Nat.pos_of_ne_zero hp.1)]; exact ha.2 hp.1
    have hsb : scan_back m2 (n - 1) = scan_back m (n - 1) :=
      scan_back_congr m2 m (n - 1) (fun i hi => hrd i (by omega))
    have hle := scan_back_le m (n - 1)
    rw [loop_dd_slash L p3 m n hL hp hg, loop_dd_slash L p3 m2 n hL hp2 (guard_of_abs m2 h0), hsb]
    exact ih m2 (txt_congr m2 m _ (fun i hi => hrd i (by omega)))
      ⟨fun _ => Or.inr rfl, fun _ => ha.2 hp.1⟩
  | h_ddend m n hL hp hg =>
    intro m2 ht ha
    have hp2 := (prev_congr m m2 n ht).mp hp
    have hrd := rd_of_txt_eq m2 m n ht
    have h0 : rd m2 0 = '/' := by rw [hrd 0 (Nat.pos_of_ne_zero hp.1)]; exact ha.2 hp.1
    have hsb : scan_back m2 (n - 1) = scan_back m (n - 1) :=
      scan_back_congr m2 m (n - 1) (fun i hi => hrd i (by omega))
    have hle := scan_back_le m (n - 1)
    rw [loop_dd_end L m n hL hp hg, loop_dd_end L m2 n hL hp2 (guard_of_abs m2 h0), hsb]
    exact ⟨rfl, txt_congr m2 m _ (fun i hi => hrd i (by omega)), fun _ => ha.2 hp.1⟩
  | h_skip p1 m n hL hp ih =>
    intro m2 ht ha
    rw [loop_slash_skip L p1 m n hL hp,
      loop_slash_skip L p1 m2 n hL ((prev_congr m m2 n ht).mp hp)]
    exact ih m2 ht ⟨fun e => absurd e hp.1, ha.2⟩
  | h_slash p1 m n hL hp ih =>
    intro m2 ht ha
    rw [loop_slash_write L p1 m n hL hp,
      loop_slash_write L p1 m2 n hL (fun h => hp ((prev_congr m m2 n ht).mpr h))]
    refine ih (wr m2 n '/') (by rw [txt_wr_succ, txt_wr_succ, ht])
      ⟨fun e => absurd e (by omega), fun _ => ?_⟩
    rw [rd_wr]
    split
    · rfl
    · exact ha.2 (by omega)
  | h_copy c p1 m n hL hc hs ih =>
    intro m2 ht ha
    have hn0 : n ≠ 0 := by
      intro e
      rcases ha.1 e with h | h
      · simp at h
      · simp at h; exact hc h
    have hs2 : ¬ (prev m2 n ∧ special (c :: p1) m2) := by
      rintro ⟨hp2, hsp⟩
      have hp := (prev_congr m m2 n ht).mpr hp2
      apply hs
      refine ⟨hp, ?_⟩
      rcases hsp with h | h | ⟨h, _⟩
      · exact Or.inl h
      · exact Or.inr (Or.inl h)
      · exact Or.inr (Or.inr ⟨h, guard_of_abs m (ha.2 hn0)⟩)
    rw [loop_copy_gen L c p1 m n hL hc hs, loop_copy_gen L c p1 m2 n hL hc hs2]
    refine ih (wr m2 n c) (by rw [txt_wr_succ, txt_wr_succ, ht])
      ⟨fun e => absurd e (by omega), fun _ => ?_⟩
    rw [rd_wr_ne _ _ _ _ (Ne.symm hn0)]
    exact ha.2 hn0

theorem txt_getElem (m : List Char) (k i : Nat) (h : i < k) : (txt m k)[i]? = some (rd m i) := by
  induction k with
  | zero => omega
  | succ k ih =>
    simp only [txt]
    by_cases e : i = k
    · subst e
      rw [List.getElem?_append_right (by simp [txt_length])]
      simp [txt_length]
    · rw [List.getElem?_append_left (by simp [txt_length]; omega)]
      exact ih (by omega)

theorem rd_of_txt (m : List Char) (k : Nat) (l : List Char) (h : txt m k = l) (i : Nat)
    (hi : i < k) : l[i]? = some (rd m i) := by
  rw [← h]; exact txt_getElem m k i hi

theorem snoc_cases (l : List Char) : l = [] ∨ ∃ u x, l = u ++ [x] := by
  rcases List.eq_nil_or_concat l with h | ⟨u, x, h⟩
  · exact Or.inl h
  · exact Or.inr ⟨u, x, by simpa using h⟩

theorem txt_head (m : List Char) (k : Nat) (l : List Char) (h : txt m k = l) (hk : k ≠ 0) :
    l.head? = some (rd m 0) := by
  have := rd_of_txt m k l h 0 (Nat.pos_of_ne_zero hk)
  cases l with
  | nil => simp at this
  | cons c l => simpa using this

/-- A segment `s` (no slash, neither "." nor "..") with its slash is in the
situation `okAt` behind any text. -/
theorem okAt_segment (out s : List Char) (z : Prop) (hs0 : s ≠ []) (hs1 : '/' ∉ s)
    (hs2 : s ≠ ['.']) (hs3 : s ≠ ['.', '.']) :
    ∀ u c v, s ++ ['/'] = u ++ c :: v → okAt (out ++ u) (c :: v) z := by
  intro u c v e hl
  have hu : u = [] := by
    rcases snoc_cases u with h | ⟨u1, x, rfl⟩
    · exact h
    · exfalso
      have hx : x = '/' := by simpa using hl
      subst hx
      obtain ⟨w, y, hw⟩ : ∃ w y, c :: v = w ++ [y] := by
        rcases snoc_cases (c :: v) with h | h
        · simp at h
        · exact h
      have e2 : s ++ ['/'] = (u1 ++ ['/'] ++ w) ++ [y] := by
        rw [e, hw]; simp
      have e3 := (List.append_inj' e2 rfl).1
      exact hs1 (by rw [e3]; simp)
  subst hu
  simp only [List.nil_append] at e
  rw [← e]
  match s, hs0, hs1, hs2, hs3 with
  | [x], _, hs1, hs2, _ =>
    have hx : x ≠ '/' := fun h => hs1 (by simp [h])
    have hx2 : x ≠ '.' := fun h => hs2 (by simp [h])
    refine ⟨by simpa using hx, by simp [hx2], by simp, ?_⟩
    rintro (h | h)
    · simp at h
    · simp at h
  | [x, y], _, hs1, _, hs3 =>
    have hx : x ≠ '/' := fun h => hs1 (by simp [h])
    have hy : y ≠ '/' := fun h => hs1 (by simp [h])
    refine ⟨by simpa using hx, by simp [hy], by simp, ?_⟩
    rintro (h | h)
    · simp at h
      exact absurd (by rw [h.1, h.2]) hs3
    · simp at h
  | x :: y :: w :: s3, _, hs1, _, _ =>
    have hx : x ≠ '/' := fun h => hs1 (by simp [h])
    have hy : y ≠ '/' := fun h => hs1 (by simp [h])
    have hw : w ≠ '/' := fun h => hs1 (by simp [h])
    refine ⟨by simpa using hx, by simp [hy], by simp, ?_⟩
    rintro (h | h)
    · simp at h
      exact absurd h.2.2 hw
    · simp at h

/-! ## The segment-matching loop of `make_rel_path` -/

theorem rd_append_right (x y : List Char) (j : Nat) : rd (x ++ y) (x.length + j) = rd y j := by
  rw [rd_eq, rd_eq, List.getElem?_append_right (by omega)]
  simp

theorem rd_cons_zero (c : Char) (l : List Char) : rd (c :: l) 0 = c := by
  simp [rd]

theorem rd_cons_succ (c : Char) (l : List Char) (j : Nat) : rd (c :: l) (j + 1) = rd l j := by
  simp [rd]

theorem rd_nil (j : Nat) : rd [] j = NUL := by
  simp [rd]

theorem rooted_append (l1 l2 : List (List Char)) : rooted (l1 ++ l2) = rooted l1 ++ rooted l2 := by
  induction l1 with
  | nil => rfl
  | cons s l ih => simp [rooted, ih]

theorem rooted_head (l : List (List Char)) : rooted l = [] ∨ (rooted l).head? = some '/' := by
  cases l with
  | nil => left; rfl
  | cons s l => right; rfl

theorem findIdx_segment (s y : List Char) (hs : '/' ∉ s) (hy : y = [] ∨ y.head? = some '/') :
    (s ++ y).findIdx (fun c => c == '/') = s.length := by
  induction s with
  | nil =>
    rcases hy with h | h
    · subst h; rfl
    · cases y with
      | nil => simp at h
      | cons c y =>
        simp at h; subst h
        simp [List.findIdx_cons]
  | cons c s ih =>
    have hc : c ≠ '/' := fun e => hs (by simp [e])
    have hs2 : '/' ∉ s := fun e => hs (by simp [e])
    have hb : (c == '/') = false := by simpa using hc
    simp [List.findIdx_cons, hb, ih hs2]

theorem next_slash_segment (x s y : List Char) (hs : '/' ∉ s)
    (hy : y = [] ∨ y.head? = some '/') :
    next_slash (x ++ '/' :: (s ++ y)) x.length = x.length + 1 + s.length := by
  unfold next_slash
  have e : (x ++ '/' :: (s ++ y)).drop (x.length + 1) = s ++ y := by
    have : x ++ '/' :: (s ++ y) = (x ++ ['/']) ++ (s ++ y) := by simp
    rw [this, List.drop_left' (by simp)]
  rw [e, findIdx_segment s y hs hy]

theorem take_segment (x s y : List Char) :
    (x ++ '/' :: (s ++ y)).take (x.length + 1 + s.length) = x ++ '/' :: s := by
  have : x ++ '/' :: (s ++ y) = (x ++ '/' :: s) ++ y := by simp
  rw [this, List.take_left' (by simp; omega)]

theorem Seg_head (s : List Char) (h : Seg s) : ∃ c t, s = c :: t ∧ c ≠ '/' ∧ c ≠ NUL := by
  obtain ⟨h0, h1, h2, _, _⟩ := h
  cases s with
  | nil => exact absurd rfl h0
  | cons c t => exact ⟨c, t, rfl, fun e => h1 (by simp [e]), fun e => h2 (by simp [e])⟩

theorem common_len_le (ps bs : List (List Char)) :
    common_len ps bs ≤ ps.length ∧ common_len ps bs ≤ bs.length := by
  induction ps generalizing bs with
  | nil => simp [common_len]
  | cons a as ih =>
    cases bs with
    | nil => simp [common_len]
    | cons b bs =>
      simp only [common_len]
      split
      · have := ih bs; simp; omega
      · simp

theorem common_len_take (ps bs : List (List Char)) :
    ps.take (common_len ps bs) = bs.take (common_len ps bs) := by
  induction ps generalizing bs with
  | nil => simp [common_len]
  | cons a as ih =>
    cases bs with
    | nil => simp [common_len]
    | cons b bs =>
      simp only [common_len]
      split
      · rename_i h
        subst h
        simp [ih bs]
      · simp

/-- The loop of lines 817-830 stops behind the longest common prefix of whole
segments. -/
theorem rel_loop_common : ∀ (fuel : Nat) (cs ps bs : List (List Char)),
    (∀ s ∈ ps, Seg s) → (∀ s ∈ bs, Seg s) → ps.length ≤ fuel →
    rel_loop (rooted cs ++ rooted ps) (rooted cs ++ rooted bs) fuel
        (rooted cs).length (rooted cs).length
      = ((rooted cs).length + (rooted (ps.take (common_len ps bs))).length,
         (rooted cs).length + (rooted (ps.take (common_len ps bs))).length) := by
  intro fuel
  induction fuel with
  | zero =>
    intro cs ps bs _ _ hf
    have : ps = [] := List.length_eq_zero.mp (Nat.le_zero.mp hf)
    subst this
    simp [rel_loop, common_len, rooted]
  | succ fuel ih =>
    intro cs ps bs hps hbs hf
    match ps, bs, hps, hbs, hf with
    | [], bs, _, _, _ =>
      have h0 : rd (rooted cs ++ rooted []) (rooted cs).length = NUL := by
        have := rd_append_right (rooted cs) (rooted []) 0
        rw [Nat.add_zero] at this
        rw [this]
        rfl
      rw [rel_loop]
      simp only [h0]
      simp [common_len, rooted]
    | s :: ps1, [], _, _, _ =>
      have h0 : rd (rooted cs ++ rooted []) (rooted cs).length = NUL := by
        have := rd_append_right (rooted cs) (rooted []) 0
        rw [Nat.add_zero] at this
        rw [this]
        rfl
      rw [rel_loop]
      simp only [h0]
      simp [common_len, rooted]
    | s :: ps1, t :: bs1, hps, hbs, hf =>
      have hs := hps s (by simp)
      have ht := hbs t (by simp)
      obtain ⟨c, s1, hsc, hc1, hc2⟩ := Seg_head s hs
      obtain ⟨d, t1, htd, hd1, hd2⟩ := Seg_head t ht
      have p0 : rd (rooted cs ++ rooted (s :: ps1)) (rooted cs).length = '/' := by
        have := rd_append_right (rooted cs) (rooted (s :: ps1)) 0
        simpa [rooted, rd_cons_zero] using this
      have p1 : rd (rooted cs ++ rooted (s :: ps1)) ((rooted cs).length + 1) = c := by
        have := rd_append_right (rooted cs) (rooted (s :: ps1)) 1
        rw [this, hsc]
        simp [rooted, rd_cons_succ, rd_cons_zero]
      have b0 : rd (rooted cs ++ rooted (t :: bs1)) (rooted cs).length = '/' := by
        have := rd_append_right (rooted cs) (rooted (t :: bs1)) 0
        simpa [rooted, rd_cons_zero] using this
      have b1 : rd (rooted cs ++ rooted (t :: bs1)) ((rooted cs).length + 1) = d := by
        have := rd_append_right (rooted cs) (rooted (t :: bs1)) 1
        rw [this, htd]
        simp [rooted, rd_cons_succ, rd_cons_zero]
      have np : next_slash (rooted cs ++ rooted (s :: ps1)) (rooted cs).length
          = (rooted cs).length + 1 + s.length :=
        next_slash_segment (rooted cs) s (rooted ps1) hs.2.1 (rooted_head ps1)
      have nb : next_slash (rooted cs ++ rooted (t :: bs1)) (rooted cs).length
          = (rooted cs).length + 1 + t.length :=
        next_slash_segment (rooted cs) t (rooted bs1) ht.2.1 (rooted_head bs1)
      have tp : (rooted cs ++ rooted (s :: ps1)).take ((rooted cs).length + 1 + s.length)
          = rooted cs ++ '/' :: s := take_segment (rooted cs) s (rooted ps1)
      have tb : (rooted cs ++ rooted (t :: bs1)).take ((rooted cs).length + 1 + t.length)
          = rooted cs ++ '/' :: t := take_segment (rooted cs) t (rooted bs1)
      have hnul : ('/' : Char) ≠ NUL := by decide
      rw [rel_loop]
      simp only [p0, p1, b0, b1, np, nb]
      have hcond : (('/' : Char) != NUL && c != NUL && '/' != NUL && d != NUL) = true := by
        simp [hnul, hc2, hd2]
      rw [if_pos hcond]
      by_cases hst : s = t
      · subst hst
        rw [tp]
        have tb2 : (rooted cs ++ rooted (s :: bs1)).take ((rooted cs).length + 1 + s.length)
            = rooted cs ++ '/' :: s := take_segment (rooted cs) s (rooted bs1)
        rw [tb2]
        simp only [bne_self_eq_false, Bool.or_self, Bool.false_eq_true, if_false]
        have e1 : rooted cs ++ rooted (s :: ps1) = rooted (cs ++ [s]) ++ rooted ps1 := by
          simp [rooted_append, rooted]
        have e2 : rooted cs ++ rooted (s :: bs1) = rooted (cs ++ [s]) ++ rooted bs1 := by
          simp [rooted_append, rooted]
        have e3 : (rooted cs).length + 1 + s.length = (rooted (cs ++ [s])).length := by
          simp [rooted_append, rooted]; omega
        rw [e1, e2, e3, ih (cs ++ [s]) ps1 bs1 (fun x hx => hps x (by simp [hx]))
          (fun x hx => hbs x (by simp [hx])) (by simp at hf; omega)]
        simp [common_len, rooted_append, rooted]
        omega
      · have hne : ((rooted cs).length + 1 + s.length != (rooted cs).length + 1 + t.length
            || (rooted cs ++ rooted (s :: ps1)).take ((rooted cs).length + 1 + s.length)
              != (rooted cs ++ rooted (t :: bs1)).take ((rooted cs).length + 1 + s.length))
            = true := by
          by_cases hl : s.length = t.length
          · rw [tp, hl, tb]
            simp [hst]
          · simp [hl]
        rw [if_pos hne]
        simp [common_len, hst, rooted]

/-! ## `chosp`, `strcat` and the text in a buffer -/

theorem c_str_spec (m : List Char) :
    (∀ i, i < strlen m → rd m i ≠ NUL) ∧ rd m (strlen m) = NUL ∧ txt m (strlen m) = c_str m := by
  induction m with
  | nil => simp [strlen, c_str, rd_nil, txt]
  | cons c m ih =>
    by_cases hc : c = NUL
    · subst hc
      have e : c_str (NUL :: m) = [] := by simp [c_str, List.takeWhile_cons]
      simp [strlen, e, rd_cons_zero, txt]
    · have hb : (c != NUL) = true := by simpa using hc
      have e : c_str (c :: m) = c :: c_str m := by
        simp only [c_str, List.takeWhile_cons, hb, if_true]
      have el : strlen (c :: m) = strlen m + 1 := by simp [strlen, e]
      obtain ⟨h1, h2, h3⟩ := ih
      rw [el, e]
      refine ⟨fun i hi => ?_, by rw [rd_cons_succ]; exact h2, by rw [txt_cons, h3]⟩
      cases i with
      | zero => rw [rd_cons_zero]; exact hc
      | succ j => rw [rd_cons_succ]; exact h1 j (by omega)

theorem c_str_nil_iff (m : List Char) : c_str m = [] ↔ rd m 0 = NUL := by
  obtain ⟨h1, h2, _⟩ := c_str_spec m
  constructor
  · intro h
    have : strlen m = 0 := by simp [strlen, h]
    rw [this] at h2
    exact h2
  · intro h
    by_contra hne
    have : 0 < strlen m := by
      unfold strlen
      exact List.length_pos.mpr hne
    exact h1 0 this h

theorem take_strlen (m : List Char) : m.take (strlen m) = c_str m := by
  induction m with
  | nil => simp [strlen, c_str]
  | cons c m ih =>
    by_cases hc : c = NUL
    · subst hc
      simp [strlen, c_str, List.takeWhile_cons]
    · have hb : (c != NUL) = true := by simpa using hc
      have e : c_str (c :: m) = c :: c_str m := by
        simp only [c_str, List.takeWhile_cons, hb, if_true]
      have el : strlen (c :: m) = strlen m + 1 := by simp [strlen, e]
      rw [el, e, List.take_succ_cons, ih]

theorem c_str_wr_nul (m : List Char) (k : Nat) (h : ∀ i, i < k → rd m i ≠ NUL) :
    c_str (wr m k NUL) = txt m k := by
  rw [c_str_eq_txt k _ (fun i hi => by rw [rd_wr_ne _ _ _ _ (by omega)]; exact h i hi)
    (rd_wr_same _ _ _)]
  exact txt_wr _ _ _ _ (Nat.le_refl _)

/-- The text `chosp` leaves: the text without one trailing slash. -/
theorem c_str_chosp (m : List Char) :
    c_str (chosp m)
      = if (c_str m).getLast? = some '/' then (c_str m).dropLast else c_str m := by
  obtain ⟨h1, h2, h3⟩ := c_str_spec m
  unfold chosp
  by_cases h0 : rd m 0 = NUL
  · rw [if_pos h0]
    have := (c_str_nil_iff m).mpr h0
    simp [this]
  · rw [if_neg h0]
    have hlen : strlen m ≠ 0 := by
      intro e
      rw [e] at h2
      exact h0 h2
    have hlast : (c_str m).getLast? = some (rd m (strlen m - 1)) := by
      rw [← h3]; exact txt_getLast m _ hlen
    simp only
    by_cases hs : rd m (strlen m - 1) = '/'
    · rw [if_pos hs, hlast, hs, if_pos rfl]
      rw [c_str_wr_nul m _ (fun i hi => h1 i (by omega))]
      rw [← h3]
      have : strlen m = (strlen m - 1) + 1 := by omega
      conv_rhs => rw [this]
      simp [txt]
    · rw [if_neg hs, hlast]
      rw [if_neg (by simpa using hs)]

theorem c_str_store_text (s : List Char) : ∀ (m : List Char) (k : Nat),
    (∀ i, i < k → rd m i ≠ NUL) → NUL ∉ s → c_str (store_text m k s) = txt m k ++ s := by
  induction s with
  | nil =>
    intro m k h _
    simp only [store_text, List.append_nil]
    exact c_str_wr_nul m k h
  | cons c s ih =>
    intro m k h hn
    have hc : c ≠ NUL := fun e => hn (by simp [e])
    simp only [store_text]
    rw [ih (wr m k c) (k + 1) ?_ (fun e => hn (by simp [e])), txt_wr_succ]
    · simp
    · intro i hi
      rw [rd_wr]
      split
      · exact hc
      · exact h i (by omega)

theorem c_str_strcat (m lit : List Char) (h : NUL ∉ lit) :
    c_str (strcat m lit) = c_str m ++ lit := by
  obtain ⟨h1, _, h3⟩ := c_str_spec m
  unfold strcat
  rw [c_str_of_not_mem lit h, c_str_store_text lit m _ h1 h, h3]

theorem c_str_iterate_strcat (N : Nat) (m : List Char) :
    c_str ((fun b => strcat b ['.', '.', '/'])^[N] m) = c_str m ++ dots N := by
  induction N with
  | zero => simp [dots]
  | succ N ih =>
    rw [Function.iterate_succ_apply', c_str_strcat _ _ (by decide), ih]
    simp [dots]

theorem dots_length (N : Nat) : (dots N).length = 3 * N := by
  induction N with
  | zero => rfl
  | succ N ih => simp [dots, ih]; omega

theorem dots_last (N : Nat) (h : N ≠ 0) : (dots N).getLast? = some '/' := by
  cases N with
  | zero => exact absurd rfl h
  | succ N => simp [dots]

theorem not_mem_dots (N : Nat) : NUL ∉ dots N := by
  induction N with
  | zero => simp [dots]
  | succ N ih =>
    simp only [dots, List.mem_append, not_or]
    exact ⟨ih, by decide⟩

/-! ## Plain texts -/

theorem plainAt_segment (s rest : List Char) (hs : Seg s)
    (hr : rest = [] ∨ rest.head? = some '/') : plainAt (s ++ rest) := by
  obtain ⟨hs0, hs1, _, hs2, hs3⟩ := hs
  match s, hs0, hs1, hs2, hs3 with
  | [x], _, hs1, hs2, _ =>
    have hx : x ≠ '/' := fun h => hs1 (by simp [h])
    have hx2 : x ≠ '.' := fun h => hs2 (by simp [h])
    refine ⟨by simpa using hx, ?_, ?_, ?_, ?_⟩
    · intro h
      have := congrArg List.head? h
      simp at this
      exact hx2 this
    · simp [hx2]
    · intro h
      have := congrArg List.head? h
      simp at this
      exact hx2 this
    · simp [hx2]
  | [x, y], _, hs1, _, hs3 =>
    have hx : x ≠ '/' := fun h => hs1 (by simp [h])
    have hy : y ≠ '/' := fun h => hs1 (by simp [h])
    refine ⟨by simpa using hx, by simp [hy], by simp, ?_, ?_⟩
    · intro h
      rcases hr with hr | hr
      · subst hr; simp at h
      · cases rest with
        | nil => simp at hr
        | cons z rest =>
          simp at h
          exact hs3 (by rw [h.1, h.2.1])
    · intro h
      rcases hr with hr | hr
      · subst hr
        simp at h
        exact hs3 (by rw [h.1, h.2])
      · cases rest with
        | nil => simp at hr
        | cons z rest => simp at h
  | x :: y :: w :: s3, _, hs1, _, _ =>
    have hx : x ≠ '/' := fun h => hs1 (by simp [h])
    have hy : y ≠ '/' := fun h => hs1 (by simp [h])
    have hw : w ≠ '/' := fun h => hs1 (by simp [h])
    refine ⟨by simpa using hx, by simp [hy], by simp, by simp [hw], by simp⟩

/-- A text without slash followed by rooted segments, with or without a
final slash, is plain. -/
theorem PlainText_rooted (l : List (List Char)) : ∀ (w e : List Char), '/' ∉ w →
    (∀ s ∈ l, Seg s) → (e = [] ∨ e = ['/']) → PlainText (w ++ rooted l ++ e) := by
  induction l with
  | nil =>
    intro w e hw _ he u c v heq hu
    exfalso
    obtain ⟨u1, rfl⟩ := suffix_of_getLast u '/' hu
    simp only [rooted, List.append_nil] at heq
    obtain ⟨v1, y, hv⟩ : ∃ v1 y, c :: v = v1 ++ [y] := by
      rcases snoc_cases (c :: v) with h | h
      · simp at h
      · exact h
    rcases he with he | he
    · subst he
      apply hw
      rw [List.append_nil] at heq
      rw [heq]; simp
    · subst he
      have e2 : w ++ ['/'] = (u1 ++ ['/'] ++ v1) ++ [y] := by rw [heq, hv]; simp
      apply hw
      rw [(List.append_inj' e2 rfl).1]; simp
  | cons s l ih =>
    intro w e hw hl he u c v heq hu
    obtain ⟨u1, rfl⟩ := suffix_of_getLast u '/' hu
    have heq2 : w ++ '/' :: (s ++ rooted l ++ e) = u1 ++ '/' :: (c :: v) := by
      have : w ++ rooted (s :: l) ++ e = w ++ '/' :: (s ++ rooted l ++ e) := by simp [rooted]
      rw [← this, heq]; simp
    rcases List.append_eq_append_iff.mp heq2 with ⟨a, ha1, ha2⟩ | ⟨a, ha1, ha2⟩
    · cases a with
      | nil =>
        simp only [List.nil_append, List.cons.injEq, true_and] at ha2
        rw [← ha2, List.append_assoc]
        apply plainAt_segment s _ (hl s (by simp))
        rcases rooted_head l with h | h
        · rw [h]
          rcases he with he | he
          · left; rw [he]; rfl
          · right; rw [he]; rfl
        · right
          cases hr : rooted l with
          | nil => rw [hr] at h; simp at h
          | cons z zs => rw [hr] at h; simpa using h
      | cons d a =>
        simp only [List.cons_append, List.cons.injEq] at ha2
        obtain ⟨_, ha3⟩ := ha2
        exact ih s e (hl s (by simp)).2.1 (fun x hx => hl x (by simp [hx])) he
          (a ++ ['/']) c v (by rw [ha3]; simp) (by simp)
    · cases a with
      | nil =>
        simp only [List.nil_append, List.cons.injEq, true_and] at ha2
        rw [ha2, List.append_assoc]
        apply plainAt_segment s _ (hl s (by simp))
        rcases rooted_head l with h | h
        · rw [h]
          rcases he with he | he
          · left; rw [he]; rfl
          · right; rw [he]; rfl
        · right
          cases hr : rooted l with
          | nil => rw [hr] at h; simp at h
          | cons z zs => rw [hr] at h; simpa using h
      | cons d a =>
        exfalso
        simp only [List.cons_append, List.cons.injEq] at ha2
        apply hw
        rw [ha1, ← ha2.1]
        simp

/-- With room for it, a plain text is copied: the text `canonicalize_path`
leaves is the finished input. -/
theorem c_str_canonicalize_path_plain (t buf : List Char) (before : Char) (buf_size : Nat)
    (hn : NUL ∉ t) (hp : PlainText t) (hcap : t.length + 1 ≤ buf_size)
    (hsz : buf_size < 2 ^ 64) :
    c_str (canonicalize_path t buf before buf_size) = finish before t := by
  rw [c_str_canonicalize_path, c_str_of_not_mem t hn]
  have hv := loop_verbatim (size_sub buf_size 1) t (wr buf 0 NUL) 0
    (by rw [size_sub_one buf_size (by omega) hsz]; omega)
    (by
      intro u c v e hl
      rw [txt_zero, List.nil_append] at hl
      obtain ⟨o1, o2, o3, o4, o5⟩ := hp u c v e hl
      exact ⟨o1, o2, o3, fun h => (h.elim (fun h => absurd h o4) (fun h => absurd h o5))⟩)
  obtain ⟨h1, h2⟩ := hv
  rw [h1, h2, txt_zero]
  rfl

theorem size_sub_eq (a b : Nat) (h1 : b ≤ a) (h2 : a < 2 ^ 64) : size_sub a b = a - b := by
  unfold size_sub
  have hb : b < 2 ^ 64 := by omega
  rw [Nat.mod_eq_of_lt h2, Nat.mod_eq_of_lt hb]
  have e2 : a + 2 ^ 64 - b = (a - b) + 2 ^ 64 := by omega
  rw [e2, Nat.add_mod_right, Nat.mod_eq_of_lt (by omega)]

theorem join_slash_cons (s : List Char) (l : List (List Char)) :
    join_slash (s :: l) = s ++ rooted l := by
  induction l generalizing s with
  | nil => simp [join_slash, rooted]
  | cons t l ih => simp [join_slash, rooted, ih t]

theorem rooted_eq_join (s : List Char) (l : List (List Char)) :
    rooted (s :: l) = '/' :: join_slash (s :: l) := by
  rw [join_slash_cons]; rfl

theorem dots_succ (N : Nat) : dots (N + 1) = ['.', '.', '/'] ++ dots N := by
  induction N with
  | zero => rfl
  | succ N ih =>
    have e : dots (N + 1 + 1) = dots (N + 1) ++ ['.', '.', '/'] := rfl
    have e3 : dots (N + 1) = dots N ++ ['.', '.', '/'] := rfl
    rw [e, ih, List.append_assoc, ← e3, ih]

theorem join_dots (N : Nat) (l : List (List Char)) (hl : l ≠ []) :
    join_slash (List.replicate N ['.', '.'] ++ l) = dots N ++ join_slash l := by
  induction N with
  | zero => simp [dots]
  | succ N ih =>
    rw [List.replicate_succ, List.cons_append, join_slash_cons, dots_succ]
    cases hr : List.replicate N ['.', '.'] ++ l with
    | nil => simp at hr; exact absurd hr.2 hl
    | cons t r =>
      rw [rooted_eq_join, ← hr, ih]
      simp

theorem join_dots_only (N : Nat) : join_slash (List.replicate (N + 1) ['.', '.']) ++ ['/']
    = dots (N + 1) := by
  induction N with
  | zero => rfl
  | succ N ih =>
    rw [List.replicate_succ, join_slash_cons, dots_succ (N + 1)]
    have e : rooted (List.replicate (N + 1) ['.', '.'])
        = '/' :: join_slash (List.replicate (N + 1) ['.', '.']) := by
      rw [List.replicate_succ, rooted_eq_join]
    rw [e, ← ih]
    simp

theorem not_mem_rooted (l : List (List Char)) (c : Char) (hc : c ≠ '/')
    (h : ∀ s ∈ l, c ∉ s) : c ∉ rooted l := by
  induction l with
  | nil => simp [rooted]
  | cons s l ih =>
    simp only [rooted, List.mem_cons, List.mem_append, not_or]
    exact ⟨⟨hc, h s (by simp)⟩, ih (fun x hx => h x (by simp [hx]))⟩


theorem count_rooted (l : List (List Char)) (h : ∀ s ∈ l, '/' ∉ s) :
    (rooted l).count '/' = l.length := by
  induction l with
  | nil => rfl
  | cons s l ih =>
    simp only [rooted, List.count_cons_self, List.count_append, List.length_cons]
    rw [List.count_eq_zero_of_not_mem (h s (by simp)), ih (fun x hx => h x (by simp [hx]))]
    omega

theorem rooted_last (l : List (List Char)) (h : ∀ s ∈ l, Seg s) :
    (rooted l).getLast? ≠ some '/' := by
  induction l with
  | nil => simp [rooted]
  | cons s l ih =>
    cases l with
    | nil =>
      obtain ⟨h0, h1, _⟩ := h s (by simp)
      simp only [rooted, List.append_nil]
      rcases snoc_cases s with e | ⟨u, x, e⟩
      · exact absurd e h0
      · rw [e]
        have : '/' :: (u ++ [x]) = ('/' :: u) ++ [x] := by simp
        rw [this, List.getLast?_concat]
        intro hx
        apply h1
        rw [e]
        simp at hx
        simp [hx]
    | cons t l =>
      have ih2 := ih (fun x hx => h x (by simp [hx]))
      have e : rooted (s :: t :: l) = ('/' :: s) ++ rooted (t :: l) := by simp [rooted]
      rw [e, List.getLast?_append]
      have hne : rooted (t :: l) ≠ [] := by simp [rooted]
      cases hr : (rooted (t :: l)).getLast? with
      | none => exact absurd (List.getLast?_eq_none_iff.mp hr) hne
      | some c =>
        rw [hr] at ih2
        simpa using ih2

theorem rooted_ne_nil (s : List Char) (l : List (List Char)) : rooted (s :: l) ≠ [] := by
  simp [rooted]

theorem finish_of_last_ne (before : Char) (t : List Char) (hne : t ≠ [])
    (h : t.getLast? ≠ some '/') : finish before t = t ++ ['/'] := by
  unfold finish
  rw [if_neg]
  cases hl : t.getLast? with
  | none => exact absurd (List.getLast?_eq_none_iff.mp hl) hne
  | some c =>
    rw [hl] at h
    simpa using h

theorem join_last (s : List Char) (l : List (List Char)) (h : ∀ x ∈ s :: l, Seg x) :
    join_slash (s :: l) ≠ [] ∧ (join_slash (s :: l)).getLast? ≠ some '/' := by
  have h1 := rooted_last (s :: l) h
  rw [rooted_eq_join] at h1
  have hne : join_slash (s :: l) ≠ [] := by
    rw [join_slash_cons]
    have := (h s (by simp)).1
    simp [this]
  refine ⟨hne, ?_⟩
  cases hj : join_slash (s :: l) with
  | nil => exact absurd hj hne
  | cons c r =>
    rw [hj] at h1
    simpa using h1

/-! ## `make_rel_path` on canonical absolute paths -/

theorem PlainText_slash : PlainText ['/'] := by
  have := PlainText_rooted [] [] ['/'] (by simp) (by simp) (Or.inr rfl)
  simpa [rooted] using this

theorem PlainText_of_rooted (l : List (List Char)) (h : ∀ s ∈ l, Seg s) :
    PlainText (rooted l) := by
  have := PlainText_rooted l [] [] (by simp) h (Or.inl rfl)
  simpa using this

theorem PlainText_join (l : List (List Char)) (h : ∀ s ∈ l, Seg s) :
    PlainText (join_slash l) := by
  cases l with
  | nil =>
    intro u c v e _
    simp [join_slash] at e
  | cons s l =>
    rw [join_slash_cons]
    have := PlainText_rooted l s [] (h s (by simp)).2.1 (fun x hx => h x (by simp [hx]))
      (Or.inl rfl)
    simpa using this

theorem not_mem_join (l : List (List Char)) (h : ∀ s ∈ l, Seg s) : NUL ∉ join_slash l := by
  cases l with
  | nil => simp [join_slash]
  | cons s l =>
    have := not_mem_rooted (s :: l) NUL (by decide) (fun x hx => (h x hx).2.2.1)
    rw [rooted_eq_join] at this
    exact fun e => this (by simp [e])

/-- The text of the unmatched rest of `base` after lines 832-833. -/
theorem first_call_text (PATH_MAX : Nat) (b buf : List Char) (before : Char)
    (lb : List (List Char)) (hlb : ∀ s ∈ lb, Seg s) (hb : b = rooted lb ∨ b = abs_path lb)
    (hcap : b.length + 1 ≤ PATH_MAX) (hsz : PATH_MAX < 2 ^ 64) :
    c_str (chosp (canonicalize_path b buf before PATH_MAX)) = rooted lb := by
  rw [c_str_chosp]
  cases lb with
  | nil =>
    rcases hb with hb | hb
    · subst hb
      rw [c_str_canonicalize_path_plain _ buf before PATH_MAX (by simp [rooted])
        (PlainText_of_rooted [] (by simp)) hcap hsz]
      unfold finish
      by_cases hbf : before = '/'
      · simp [rooted, hbf]
      · simp [rooted, hbf]
    · subst hb
      have e : abs_path [] = ['/'] := rfl
      rw [e] at hcap ⊢
      rw [c_str_canonicalize_path_plain _ buf before PATH_MAX (by decide)
        PlainText_slash hcap hsz]
      simp [finish, rooted]
  | cons s l =>
    have hb2 : b = rooted (s :: l) := by
      rcases hb with hb | hb
      · exact hb
      · exact hb
    subst hb2
    rw [c_str_canonicalize_path_plain _ buf before PATH_MAX
      (not_mem_rooted _ NUL (by decide) (fun x hx => (hlb x hx).2.2.1))
      (PlainText_of_rooted _ hlb) hcap hsz]
    rw [finish_of_last_ne before _ (rooted_ne_nil s l) (rooted_last _ hlb)]
    simp

theorem strip_slash (p : List Char) (lp : List (List Char))
    (hp : p = rooted lp ∨ p = abs_path lp) :
    (if rd p 0 == '/' then p.drop 1 else p) = join_slash lp := by
  cases lp with
  | nil =>
    rcases hp with hp | hp
    · subst hp; simp [rooted, rd_nil, join_slash, NUL]
    · subst hp; simp [abs_path, rd_cons_zero, join_slash]
  | cons s l =>
    have hp2 : p = rooted (s :: l) := by
      rcases hp with hp | hp
      · exact hp
      · exact hp
    subst hp2
    rw [rooted_eq_join]
    simp [rd_cons_zero]

theorem c_str_wr_zero (m : List Char) : c_str (wr m 0 NUL) = [] := by
  rw [c_str_nil_iff, rd_wr_same]

theorem size_sub_lt (a b : Nat) : size_sub a b < 2 ^ 64 := by
  unfold size_sub
  exact Nat.mod_lt _ (by norm_num)

/-- For the empty text the loop of `canonicalize_path` is not entered,
whatever the capacity is. -/
theorem c_str_canonicalize_path_nil (buf : List Char) (before : Char) (buf_size : Nat) :
    c_str (canonicalize_path [] buf before buf_size) = finish before [] := by
  rw [c_str_canonicalize_path]
  have e : c_str ([] : List Char) = [] := rfl
  rw [e, loop_nil]
  rfl

/-- Lines 832-851 of `make_rel_path` on the unmatched rests of a canonical
absolute `path` and `base`, when nothing is left of `path` or the capacity
line 845 passes on (the `size_t` difference `sizeof(buf) - strlen(buf)`) has
room for the rest of `path`. -/
theorem make_rel_tail_text_gen (PATH_MAX : Nat) (p b buf : List Char) (before : Char)
    (lp lb : List (List Char)) (hlp : ∀ s ∈ lp, Seg s) (hlb : ∀ s ∈ lb, Seg s)
    (hp : p = rooted lp ∨ p = abs_path lp) (hb : b = rooted lb ∨ b = abs_path lb)
    (hcapb : b.length + 1 ≤ PATH_MAX)
    (hcap2 : lp = [] ∨ (join_slash lp).length + 1 ≤ size_sub PATH_MAX (3 * lb.length))
    (hsz : PATH_MAX < 2 ^ 64) :
    c_str (make_rel_tail PATH_MAX p b buf before)
      = if List.replicate lb.length ['.', '.'] ++ lp = [] then ['.']
        else join_slash (List.replicate lb.length ['.', '.'] ++ lp) := by
  unfold make_rel_tail
  simp only
  rw [first_call_text PATH_MAX b buf before lb hlb hb hcapb hsz]
  rw [count_rooted lb (fun s hs => (hlb s hs).2.1), strip_slash p lp hp]
  generalize chosp (canonicalize_path b buf before PATH_MAX) = buf1
  have hc2 : c_str ((fun m => strcat m ['.', '.', '/'])^[lb.length] (wr buf1 0 NUL))
      = dots lb.length := by
    rw [c_str_iterate_strcat, c_str_wr_zero]; rfl
  generalize (fun m => strcat m ['.', '.', '/'])^[lb.length] (wr buf1 0 NUL) = buf2 at hc2 ⊢
  have hlen : strlen buf2 = 3 * lb.length := by
    unfold strlen; rw [hc2, dots_length]
  rw [hlen]
  have htext : c_str (buf2.take (3 * lb.length)
        ++ canonicalize_path (join_slash lp) (buf2.drop (3 * lb.length))
          (if 3 * lb.length = 0 then before else rd buf2 (3 * lb.length - 1))
          (size_sub PATH_MAX (3 * lb.length)))
      = dots lb.length
        ++ finish (if 3 * lb.length = 0 then before else rd buf2 (3 * lb.length - 1))
            (join_slash lp) := by
    rw [← hlen, take_strlen, hc2, c_str_append_of_not_mem _ _ (not_mem_dots _), hlen]
    rcases hcap2 with hnil | hcap2
    · subst hnil
      have e : join_slash [] = [] := rfl
      rw [e, c_str_canonicalize_path_nil]
    · rw [c_str_canonicalize_path_plain _ _ _ _ (not_mem_join lp hlp) (PlainText_join lp hlp)
        hcap2 (size_sub_lt _ _)]
  generalize hbuf3 : chosp (buf2.take (3 * lb.length)
        ++ canonicalize_path (join_slash lp) (buf2.drop (3 * lb.length))
          (if 3 * lb.length = 0 then before else rd buf2 (3 * lb.length - 1))
          (size_sub PATH_MAX (3 * lb.length))) = buf3
  have h3 : c_str buf3
      = if (dots lb.length
            ++ finish (if 3 * lb.length = 0 then before else rd buf2 (3 * lb.length - 1))
              (join_slash lp)).getLast? = some '/'
        then (dots lb.length
            ++ finish (if 3 * lb.length = 0 then before else rd buf2 (3 * lb.length - 1))
              (join_slash lp)).dropLast
        else dots lb.length
            ++ finish (if 3 * lb.length = 0 then before else rd buf2 (3 * lb.length - 1))
              (join_slash lp) := by
    rw [← hbuf3, c_str_chosp, htext]
  have hfin : ∀ r : List Char, c_str buf3 = r →
      c_str (if (rd buf3 0 == NUL) = true then wr (wr buf3 0 '.') 1 NUL else buf3)
        = if r = [] then ['.'] else r := by
    intro r hr
    by_cases h0 : rd buf3 0 = NUL
    · have : r = [] := by rw [← hr]; exact (c_str_nil_iff buf3).mpr h0
      rw [if_pos (by simpa using h0), if_pos this]
      have e := c_str_store_text ['.'] buf3 0 (fun i hi => absurd hi (Nat.not_lt_zero i))
        (by decide)
      simpa [store_text, txt] using e
    · have : r ≠ [] := by
        rw [← hr]
        exact fun e => h0 ((c_str_nil_iff buf3).mp e)
      rw [if_neg (by simpa using h0), if_neg this, hr]
  cases lp with
  | cons s l =>
    obtain ⟨hj1, hj2⟩ := join_last s l hlp
    rw [finish_of_last_ne _ _ hj1 hj2] at h3
    have e1 : (dots lb.length ++ (join_slash (s :: l) ++ ['/'])).getLast? = some '/' := by
      rw [← List.append_assoc]; simp
    have e2 : (dots lb.length ++ (join_slash (s :: l) ++ ['/'])).dropLast
        = dots lb.length ++ join_slash (s :: l) := by
      rw [← List.append_assoc]; simp
    rw [if_pos e1, e2] at h3
    rw [hfin _ h3, join_dots _ _ (by simp)]
    have n1 : dots lb.length ++ join_slash (s :: l) ≠ [] := by simp [hj1]
    rw [if_neg n1, if_neg (by simp)]
  | nil =>
    cases hN : lb.length with
    | zero =>
      rw [hN] at h3
      have h3b : c_str buf3 = [] := by
        rw [h3]
        by_cases hbf : before = '/'
        · simp [finish, join_slash, dots, hbf]
        · simp [finish, join_slash, dots, hbf]
      rw [hfin _ h3b]
      simp
    | succ N =>
      rw [hN] at h3 hc2 hlen
      have hb2 : rd buf2 (3 * (N + 1) - 1) = '/' := by
        obtain ⟨_, _, g3⟩ := c_str_spec buf2
        rw [hlen, hc2] at g3
        have := txt_getLast buf2 (3 * (N + 1)) (by omega)
        rw [g3, dots_last (N + 1) (by omega)] at this
        exact (Option.some.inj this).symm
      have hne : 3 * (N + 1) ≠ 0 := by omega
      rw [if_neg hne, hb2] at h3
      have hf : finish '/' (join_slash []) = [] := by simp [finish, join_slash]
      rw [hf, List.append_nil, dots_last (N + 1) (by omega), if_pos rfl,
        ← join_dots_only N, List.dropLast_concat] at h3
      rw [hfin _ h3]
      simp [List.replicate_succ, join_slash_cons]

/-- Lines 832-851 of `make_rel_path` on the unmatched rests of a canonical
absolute `path` and `base`. -/
theorem make_rel_tail_text (PATH_MAX : Nat) (p b buf : List Char) (before : Char)
    (lp lb : List (List Char)) (hlp : ∀ s ∈ lp, Seg s) (hlb : ∀ s ∈ lb, Seg s)
    (hp : p = rooted lp ∨ p = abs_path lp) (hb : b = rooted lb ∨ b = abs_path lb)
    (hcapb : b.length + 1 ≤ PATH_MAX) (hcapp : 3 * lb.length + p.length + 1 ≤ PATH_MAX)
    (hsz : PATH_MAX < 2 ^ 64) :
    c_str (make_rel_tail PATH_MAX p b buf before)
      = if List.replicate lb.length ['.', '.'] ++ lp = [] then ['.']
        else join_slash (List.replicate lb.length ['.', '.'] ++ lp) := by
  have hjl : (join_slash lp).length ≤ p.length := by
    rw [← strip_slash p lp hp]
    split
    · simp
    · exact Nat.le_refl _
  exact make_rel_tail_text_gen PATH_MAX p b buf before lp lb hlp hlb hp hb hcapb
    (Or.inr (by rw [size_sub_eq _ _ (by omega) hsz]; omega)) hsz

theorem length_le_rooted (l : List (List Char)) : l.length ≤ (rooted l).length := by
  induction l with
  | nil => simp
  | cons s l ih => simp [rooted]; omega

theorem not_mem_abs_path (l : List (List Char)) (h : ∀ s ∈ l, Seg s) : NUL ∉ abs_path l := by
  cases l with
  | nil => decide
  | cons s l => exact not_mem_rooted _ NUL (by decide) (fun x hx => (h x hx).2.2.1)

theorem common_len_nil_right (ps : List (List Char)) : common_len ps [] = 0 := by
  cases ps <;> rfl

theorem rel_reference_eq (ps bs : List (List Char)) :
    rel_reference ps bs
      = if List.replicate (bs.drop (common_len ps bs)).length ['.', '.']
            ++ ps.drop (common_len ps bs) = [] then ['.']
        else join_slash (List.replicate (bs.drop (common_len ps bs)).length ['.', '.']
            ++ ps.drop (common_len ps bs)) := by
  unfold rel_reference
  simp only [List.length_drop]

/-- `make_rel_path` on canonical absolute paths that fit the buffer computes
the segment-wise reference. -/
theorem make_rel_path_spec (PATH_MAX : Nat) (ps bs : List (List Char)) (buf : List Char)
    (before : Char) (hps : ∀ s ∈ ps, Seg s) (hbs : ∀ s ∈ bs, Seg s)
    (hcapb : (abs_path bs).length + 1 ≤ PATH_MAX)
    (hcapp : 3 * bs.length + (abs_path ps).length + 1 ≤ PATH_MAX)
    (hsz : PATH_MAX < 2 ^ 64) :
    make_rel_path PATH_MAX (abs_path ps) (abs_path bs) buf before = rel_reference ps bs := by
  unfold make_rel_path make_rel_path_buf
  simp only
  rw [c_str_of_not_mem _ (not_mem_abs_path ps hps), c_str_of_not_mem _ (not_mem_abs_path bs hbs),
    rel_reference_eq]
  match ps, bs, hps, hbs, hcapb, hcapp with
  | [], bs, hps, hbs, hcapb, hcapp =>
    have hl : rel_loop (abs_path []) (abs_path bs) (abs_path ([] : List (List Char))).length 0 0
        = (0, 0) := by
      simp [abs_path, rel_loop, rd, NUL]
    rw [hl]
    simp only [List.drop_zero]
    have hk : common_len [] bs = 0 := rfl
    rw [hk]
    simp only [List.drop_zero]
    exact make_rel_tail_text PATH_MAX _ _ buf before [] bs hps hbs (Or.inr rfl) (Or.inr rfl)
      hcapb (by simpa using hcapp) hsz
  | s :: l, [], hps, hbs, hcapb, hcapp =>
    have hl : rel_loop (abs_path (s :: l)) (abs_path []) (abs_path (s :: l)).length 0 0
        = (0, 0) := by
      have : (abs_path (s :: l)).length = ((abs_path (s :: l)).length - 1) + 1 := by
        simp [abs_path, rooted]
      rw [this, rel_loop]
      simp [abs_path, rd, NUL]
    rw [hl]
    simp only [List.drop_zero]
    rw [common_len_nil_right]
    simp only [List.drop_zero]
    exact make_rel_tail_text PATH_MAX _ _ buf before (s :: l) [] hps hbs (Or.inr rfl)
      (Or.inr rfl) hcapb (by simpa using hcapp) hsz
  | s :: l, t :: r, hps, hbs, hcapb, hcapp =>
    have hl := rel_loop_common (rooted (s :: l)).length [] (s :: l) (t :: r) hps hbs
      (length_le_rooted _)
    simp only [rooted, List.nil_append, List.length_nil] at hl
    have ea : abs_path (s :: l) = '/' :: s ++ rooted l := rfl
    have eb : abs_path (t :: r) = '/' :: t ++ rooted r := rfl
    rw [ea, eb, hl]
    simp only [Nat.zero_add]
    generalize hk : common_len (s :: l) (t :: r) = k
    have hkle := common_len_le (s :: l) (t :: r)
    rw [hk] at hkle
    have htake := common_len_take (s :: l) (t :: r)
    rw [hk] at htake
    have ep : ('/' :: s ++ rooted l).drop (rooted ((s :: l).take k)).length
        = rooted ((s :: l).drop k) := by
      have : '/' :: s ++ rooted l = rooted ((s :: l).take k) ++ rooted ((s :: l).drop k) := by
        rw [← rooted_append, List.take_append_drop]; rfl
      rw [this, List.drop_left]
    have ebb : ('/' :: t ++ rooted r).drop (rooted ((s :: l).take k)).length
        = rooted ((t :: r).drop k) := by
      have : '/' :: t ++ rooted r = rooted ((t :: r).take k) ++ rooted ((t :: r).drop k) := by
        rw [← rooted_append, List.take_append_drop]; rfl
      rw [this, htake, List.drop_left]
    rw [ep, ebb]
    have hlenb : (rooted ((t :: r).drop k)).length ≤ (abs_path (t :: r)).length := by
      rw [← ebb, eb]; simp
    have hlenp : (rooted ((s :: l).drop k)).length ≤ (abs_path (s :: l)).length := by
      rw [← ep, ea]; simp
    exact make_rel_tail_text PATH_MAX _ _ buf before _ _
      (fun x hx => hps x (List.mem_of_mem_drop hx)) (fun x hx => hbs x (List.mem_of_mem_drop hx))
      (Or.inl rfl) (Or.inl rfl) (by omega)
      (by simp only [List.length_drop] at hlenp ⊢; simp only [List.length_cons] at hcapp ⊢; omega)
      hsz

/-! ## Resolving the relative path against `base` -/

theorem txt_take (m : List Char) (j k : Nat) (h : j ≤ k) : txt m j = (txt m k).take j := by
  have hp := txt_initial m j k h
  have := List.prefix_iff_eq_take.mp hp
  rw [txt_length] at this
  exact this

/-- The scan of lines 776-778 from a cursor behind "…/s/" stops behind the
slash in front of the segment `s`. -/
theorem scan_back_segment (m : List Char) (n : Nat) (a s : List Char)
    (ht : txt m n = a ++ s ++ ['/']) (ha : a.getLast? = some '/') (hs : '/' ∉ s) :
    scan_back m (n - 1) = a.length ∧ txt m a.length = a := by
  have hn : n = a.length + s.length + 1 := by
    have := congrArg List.length ht
    simpa [txt_length] using this
  have hcell : ∀ i, i < n → (a ++ s ++ ['/'])[i]? = some (rd m i) := rd_of_txt m n _ ht
  have ha0 : a.length ≠ 0 := by
    intro e
    have := List.length_eq_zero.mp e
    rw [this] at ha
    simp at ha
  have hta : txt m a.length = a := by
    rw [txt_take m a.length n (by omega), ht, List.append_assoc, List.take_left]
  refine ⟨?_, hta⟩
  apply scan_back_eq m a.length (n - 1) (Or.inr ?_) (by omega)
  · intro i hi1 hi2 e
    have h1 := hcell i (by omega)
    rw [List.getElem?_append_left (by simp; omega),
      List.getElem?_append_right (by omega)] at h1
    have hmem : rd m i ∈ s := List.mem_iff_getElem?.mpr ⟨_, h1⟩
    rw [e] at hmem
    exact hs hmem
  · have := txt_getLast m a.length ha0
    rw [hta, ha] at this
    exact (Option.some.inj this).symm

theorem rooted_snoc (l : List (List Char)) (s : List Char) :
    rooted (l ++ [s]) ++ ['/'] = (rooted l ++ ['/']) ++ s ++ ['/'] := by
  rw [rooted_append]
  simp [rooted]

/-- From a cursor behind "/c1/…/b1/…/bN/" the text of `N` copies of "../"
moves the cursor back behind "/c1/…/", without touching the buffer. -/
theorem loop_dots_erase (L : Nat) (m : List Char) (cs : List (List Char)) :
    ∀ (N : Nat) (lb : List (List Char)) (rest : List Char) (n : Nat), lb.length = N →
      (∀ s ∈ lb, '/' ∉ s) → txt m n = rooted (cs ++ lb) ++ ['/'] → n < L →
      canonicalize_loop L (dots N ++ rest) m n
          = canonicalize_loop L rest m ((rooted cs).length + 1)
        ∧ txt m ((rooted cs).length + 1) = rooted cs ++ ['/'] := by
  intro N
  induction N with
  | zero =>
    intro lb rest n hN _ ht _
    have : lb = [] := List.length_eq_zero.mp hN
    subst this
    simp only [List.append_nil] at ht
    have hn : n = (rooted cs).length + 1 := by
      have := congrArg List.length ht
      simpa [txt_length] using this
    subst hn
    exact ⟨by simp [dots], ht⟩
  | succ N ih =>
    intro lb rest n hN hlb ht hL
    rcases List.eq_nil_or_concat lb with h | ⟨lb1, s, h⟩
    · subst h; simp at hN
    · have hlb' : lb = lb1 ++ [s] := by simpa using h
      subst hlb'
      have hN1 : lb1.length = N := by simp at hN; omega
      have hs : '/' ∉ s := hlb s (by simp)
      have ht2 : txt m n = (rooted (cs ++ lb1) ++ ['/']) ++ s ++ ['/'] := by
        rw [ht, ← List.append_assoc, rooted_snoc]
      have hsb := scan_back_segment m n _ s ht2 (by simp) hs
      have hn : n = (rooted (cs ++ lb1) ++ ['/']).length + s.length + 1 := by
        have := congrArg List.length ht2
        simp [txt_length] at this
        simp
        omega
      have hp : prev m n := by rw [prev_iff, ht]; simp
      have hn0 : n ≠ 0 := hp.1
      have h0 : rd m 0 = '/' := by
        have := txt_head m n _ ht2 hn0
        cases hr : rooted (cs ++ lb1) with
        | nil => rw [hr] at this; simpa using this.symm
        | cons c r =>
          have hc := rooted_head (cs ++ lb1)
          rw [hr] at hc this
          simp at hc this
          rw [← this, hc]
      rw [dots_succ, List.append_assoc]
      have e1 : ['.', '.', '/'] ++ (dots N ++ rest) = '.' :: '.' :: '/' :: (dots N ++ rest) := rfl
      rw [e1, loop_dd_slash L _ m n hL hp (guard_of_abs m h0), hsb.1]
      have hp2 : prev m (rooted (cs ++ lb1) ++ ['/']).length := by
        rw [prev_iff, hsb.2]; simp
      rw [loop_slash_skip L _ m _ (by omega) hp2]
      have hlen : (rooted (cs ++ lb1) ++ ['/']).length = (rooted (cs ++ lb1)).length + 1 := by
        simp
      rw [hlen] at hsb ⊢
      exact ih lb1 rest _ hN1 (fun x hx => hlb x (by simp [hx])) hsb.2 (by omega)

theorem abs_path_length (l : List (List Char)) :
    (rooted l).length ≤ (abs_path l).length ∧ (abs_path l).length ≤ (rooted l).length + 1 := by
  cases l with
  | nil => simp [abs_path, rooted]
  | cons s l => simp [abs_path]

/-- The loop on "base/" leaves the text "/b1/…/bn/" (just "/" for the root). -/
theorem loop_base_slash (L : Nat) (bs : List (List Char)) (m : List Char)
    (hbs : ∀ s ∈ bs, Seg s) (hcap : (rooted bs).length + 2 ≤ L) :
    (canonicalize_loop L (abs_path bs ++ ['/']) m 0).2 = (rooted bs).length + 1
      ∧ txt (canonicalize_loop L (abs_path bs ++ ['/']) m 0).1 ((rooted bs).length + 1)
          = rooted bs ++ ['/'] := by
  cases bs with
  | nil =>
    have e : abs_path [] ++ ['/'] = ['/', '/'] := rfl
    rw [e, loop_slash_write L _ m 0 (by omega) (not_prev_zero m)]
    have hp : prev (wr m 0 '/') (0 + 1) := ⟨by omega, by simp [rd_wr_same]⟩
    rw [loop_slash_skip L _ _ _ (by omega) hp, loop_nil]
    refine ⟨by simp [rooted], ?_⟩
    simp only [rooted, List.length_nil, Nat.zero_add, List.nil_append]
    rw [txt_wr_succ]
    rfl
  | cons s l =>
    have e : abs_path (s :: l) = rooted (s :: l) := rfl
    rw [e]
    have hplain := PlainText_rooted (s :: l) [] ['/'] (by simp) hbs (Or.inr rfl)
    simp only [List.nil_append] at hplain
    have hv := loop_verbatim L (rooted (s :: l) ++ ['/']) m 0 (by simp; omega)
      (by
        intro u c v e hl
        rw [txt_zero, List.nil_append] at hl
        obtain ⟨o1, o2, o3, o4, o5⟩ := hplain u c v e hl
        exact ⟨o1, o2, o3, fun h => (h.elim (fun h => absurd h o4) (fun h => absurd h o5))⟩)
    obtain ⟨h1, h2⟩ := hv
    simp only [Nat.zero_add, List.length_append, List.length_singleton, txt_zero,
      List.nil_append] at h1 h2
    exact ⟨h1, h2⟩

theorem finish_of_last (before : Char) (t : List Char) (h : t.getLast? = some '/') :
    finish before t = t := by
  unfold finish
  rw [h]
  simp

/-- The "." of an empty relative path changes nothing. -/
theorem resolve_dot (L : Nat) (m : List Char) (n : Nat) (before : Char) (t : List Char)
    (ht : txt m n = t ++ ['/']) :
    finish before (txt (canonicalize_loop L ['.'] m n).1 (canonicalize_loop L ['.'] m n).2)
      = t ++ ['/'] := by
  have hp : prev m n := by rw [prev_iff, ht]; simp
  rw [loop_dot L m n hp, ht]
  exact finish_of_last before _ (by simp)

/-- Climbing with "../" and descending into the remaining segments. -/
theorem resolve_descend (L : Nat) (m : List Char) (n : Nat) (before : Char)
    (cs lb : List (List Char)) (s : List Char) (l : List (List Char))
    (hlb : ∀ x ∈ lb, '/' ∉ x) (hlp : ∀ x ∈ s :: l, Seg x)
    (ht : txt m n = rooted (cs ++ lb) ++ ['/']) (hL : n < L)
    (hcap : (rooted cs).length + 1 + (join_slash (s :: l)).length ≤ L) :
    finish before
        (txt (canonicalize_loop L (dots lb.length ++ join_slash (s :: l)) m n).1
          (canonicalize_loop L (dots lb.length ++ join_slash (s :: l)) m n).2)
      = rooted (cs ++ s :: l) ++ ['/'] := by
  obtain ⟨he1, he2⟩ := loop_dots_erase L m cs lb.length lb (join_slash (s :: l)) n rfl hlb ht hL
  rw [he1]
  have hplain := PlainText_join (s :: l) hlp
  have hv := loop_verbatim L (join_slash (s :: l)) m ((rooted cs).length + 1) hcap
    (by
      intro u c v e hl
      have hpa : plainAt (c :: v) := by
        rcases snoc_cases u with hu | ⟨u1, x, hu⟩
        · subst hu
          simp only [List.nil_append] at e
          rw [← e, join_slash_cons]
          exact plainAt_segment s _ (hlp s (by simp)) (rooted_head l)
        · subst hu
          apply hplain _ c v e
          rw [← List.append_assoc] at hl
          simpa using hl
      obtain ⟨o1, o2, o3, o4, o5⟩ := hpa
      exact ⟨o1, o2, o3, fun h => (h.elim (fun h => absurd h o4) (fun h => absurd h o5))⟩)
  obtain ⟨h1, h2⟩ := hv
  rw [h1, h2, he2]
  have e : rooted cs ++ ['/'] ++ join_slash (s :: l) = rooted (cs ++ s :: l) := by
    rw [rooted_append, rooted_eq_join]; simp
  rw [e]
  apply finish_of_last_ne
  · rw [rooted_append, rooted_eq_join]; simp
  · have := rooted_last (s :: l) hlp
    rw [rooted_append, List.getLast?_append]
    cases hr : (rooted (s :: l)).getLast? with
    | none => exact absurd (List.getLast?_eq_none_iff.mp hr) (rooted_ne_nil s l)
    | some c =>
      rw [hr] at this
      simpa using this

/-- Climbing with "../" up to a final "..". -/
theorem resolve_climb (L : Nat) (m : List Char) (n : Nat) (before : Char)
    (cs : List (List Char)) (b1 : List Char) (lb : List (List Char))
    (hb1 : '/' ∉ b1) (hlb : ∀ x ∈ lb, '/' ∉ x)
    (ht : txt m n = rooted (cs ++ b1 :: lb) ++ ['/']) (hL : n < L) :
    finish before
        (txt (canonicalize_loop L (dots lb.length ++ ['.', '.']) m n).1
          (canonicalize_loop L (dots lb.length ++ ['.', '.']) m n).2)
      = rooted cs ++ ['/'] := by
  have ht0 : txt m n = rooted ((cs ++ [b1]) ++ lb) ++ ['/'] := by
    rw [ht]; simp
  obtain ⟨he1, he2⟩ := loop_dots_erase L m (cs ++ [b1]) lb.length lb ['.', '.'] n rfl hlb ht0 hL
  rw [he1]
  have hlen : (rooted (cs ++ [b1])).length + 1 ≤ n := by
    have := congrArg List.length ht0
    simp [txt_length, rooted_append, rooted] at this
    simp [rooted_append, rooted]
    omega
  have ht2 : txt m ((rooted (cs ++ [b1])).length + 1) = (rooted cs ++ ['/']) ++ b1 ++ ['/'] := by
    rw [he2, rooted_snoc]
  have hsb := scan_back_segment m _ _ b1 ht2 (by simp) hb1
  have hp : prev m ((rooted (cs ++ [b1])).length + 1) := by rw [prev_iff, he2]; simp
  have h0 : rd m 0 = '/' := by
    have := txt_head m _ _ ht2 (by omega)
    cases hr : rooted cs with
    | nil => rw [hr] at this; simpa using this.symm
    | cons c r =>
      have hc := rooted_head cs
      rw [hr] at hc this
      simp at hc this
      rw [← this, hc]
  rw [loop_dd_end L m _ (by omega) hp (guard_of_abs m h0), hsb.1, hsb.2]
  exact finish_of_last before _ (by simp)

theorem join_dots_last (N : Nat) :
    join_slash (List.replicate (N + 1) ['.', '.']) = dots N ++ ['.', '.'] := by
  have h := join_dots_only N
  have e : dots (N + 1) = (dots N ++ ['.', '.']) ++ ['/'] := by
    simp [dots]
  rw [e] at h
  exact (List.append_inj' h rfl).1

/-- The three shapes of the reference relative path: "." (same place), a run
of "../" followed by the remaining segments of the path, or a run of "../"
closed by "..". -/
theorem rel_reference_cases (ps bs : List (List Char)) :
    ∃ cs lp lb, ps = cs ++ lp ∧ bs = cs ++ lb
      ∧ ((lp = [] ∧ lb = [] ∧ rel_reference ps bs = ['.'])
        ∨ (∃ s l, lp = s :: l ∧ rel_reference ps bs = dots lb.length ++ join_slash (s :: l))
        ∨ (∃ b1 l, lp = [] ∧ lb = b1 :: l
            ∧ rel_reference ps bs = dots l.length ++ ['.', '.'])) := by
  refine ⟨ps.take (common_len ps bs), ps.drop (common_len ps bs),
    bs.drop (common_len ps bs), (List.take_append_drop _ _).symm, ?_, ?_⟩
  · rw [common_len_take]; exact (List.take_append_drop _ _).symm
  · rw [rel_reference_eq]
    cases hlp : ps.drop (common_len ps bs) with
    | cons s l =>
      right; left
      refine ⟨s, l, rfl, ?_⟩
      rw [if_neg (by simp), join_dots _ _ (by simp)]
    | nil =>
      cases hlb : bs.drop (common_len ps bs) with
      | nil => left; exact ⟨rfl, rfl, by simp⟩
      | cons b1 l =>
        right; right
        refine ⟨b1, l, rfl, rfl, ?_⟩
        simp only [List.length_cons, List.append_nil]
        rw [if_neg (by simp [List.replicate_succ]), join_dots_last]

/-- Joining the reference relative path onto `base` and canonicalizing gives
the text of `path` with its trailing slash. -/
theorem resolve_reference (ps bs : List (List Char)) (buf : List Char) (before : Char)
    (buf_size : Nat) (hps : ∀ s ∈ ps, Seg s) (hbs : ∀ s ∈ bs, Seg s)
    (hcap : (abs_path bs ++ ['/'] ++ rel_reference ps bs).length + 2 ≤ buf_size)
    (hsz : buf_size < 2 ^ 64) :
    c_str (canonicalize_path (abs_path bs ++ ['/'] ++ rel_reference ps bs) buf before buf_size)
      = rooted ps ++ ['/'] := by
  rw [c_str_canonicalize_path]
  have hL : size_sub buf_size 1 = buf_size - 1 := size_sub_one buf_size (by omega) hsz
  simp only [List.length_append, List.length_singleton] at hcap
  have hlenb := abs_path_length bs
  generalize size_sub buf_size 1 = L at hL
  generalize wr buf 0 NUL = m0
  obtain ⟨cs, lp, lb, hpe, hbe, hcases⟩ := rel_reference_cases ps bs
  have hnb : NUL ∉ abs_path bs ++ ['/'] := by
    simp only [List.mem_append, not_or]
    exact ⟨not_mem_abs_path bs hbs, by decide⟩
  obtain ⟨h1, h2⟩ := loop_base_slash L bs m0 hbs (by omega)
  have hor : abs_path bs ++ ['/'] = [] ∨ (abs_path bs ++ ['/']).getLast? = some '/' :=
    Or.inr (by simp)
  have hlbs : ∀ x ∈ lb, '/' ∉ x := fun x hx => (hbs x (by rw [hbe]; simp [hx])).2.1
  rcases hcases with ⟨hlp, hlb, hrel⟩ | ⟨s, l, hlp, hrel⟩ | ⟨b1, l, hlp, hlb, hrel⟩
  · rw [hrel, c_str_append_of_not_mem _ _ hnb]
    have e : c_str ['.'] = ['.'] := by decide
    rw [e, loop_append L _ _ m0 0 hor]
    generalize canonicalize_loop L (abs_path bs ++ ['/']) m0 0 = S1 at h1 h2
    obtain ⟨m1, n1⟩ := S1
    simp only at h1 h2 ⊢
    subst h1
    have hpb : ps = bs := by rw [hpe, hbe, hlp, hlb]
    rw [hpb]
    exact resolve_dot L m1 _ before _ h2
  · rw [hrel] at hcap ⊢
    have hnr : NUL ∉ dots lb.length ++ join_slash (s :: l) := by
      simp only [List.mem_append, not_or]
      exact ⟨not_mem_dots _, not_mem_join _ (fun x hx => hps x (by rw [hpe, hlp]; simp [hx]))⟩
    rw [c_str_append_of_not_mem _ _ hnb, c_str_of_not_mem _ hnr, loop_append L _ _ m0 0 hor]
    generalize canonicalize_loop L (abs_path bs ++ ['/']) m0 0 = S1 at h1 h2
    obtain ⟨m1, n1⟩ := S1
    simp only at h1 h2 ⊢
    subst h1
    have hcs : (rooted cs).length ≤ (rooted bs).length := by
      rw [hbe, rooted_append]; simp
    simp only [List.length_append] at hcap
    have hres := resolve_descend L m1 ((rooted bs).length + 1) before cs lb s l hlbs
      (fun x hx => hps x (by rw [hpe, hlp]; simp [hx])) (by rw [h2, hbe]) (by omega) (by omega)
    rw [hpe, hlp]
    exact hres
  · rw [hrel] at hcap ⊢
    have hnr : NUL ∉ dots l.length ++ ['.', '.'] := by
      simp only [List.mem_append, not_or]
      exact ⟨not_mem_dots _, by decide⟩
    rw [c_str_append_of_not_mem _ _ hnb, c_str_of_not_mem _ hnr, loop_append L _ _ m0 0 hor]
    generalize canonicalize_loop L (abs_path bs ++ ['/']) m0 0 = S1 at h1 h2
    obtain ⟨m1, n1⟩ := S1
    simp only at h1 h2 ⊢
    subst h1
    have hpc : ps = cs := by rw [hpe, hlp]; simp
    rw [hpc]
    exact resolve_climb L m1 ((rooted bs).length + 1) before cs b1 l (hlbs b1 (by rw [hlb]; simp))
      (fun x hx => hlbs x (by rw [hlb]; simp [hx])) (by rw [h2, hbe, hlb]) (by omega)

/-- Whenever the byte in front of the buffer is not a slash, the text
`canonicalize_path` leaves is non-empty and ends with a slash, for every
input, destination content and capacity. -/
theorem canonicalize_path_ends_slash (raw buf : List Char) (before : Char) (buf_size : Nat)
    (hb : before ≠ '/') :
    (c_str (canonicalize_path raw buf before buf_size)).getLast? = some '/' := by
  rw [c_str_canonicalize_path]
  generalize txt _ _ = out
  unfold finish
  split
  · rename_i h
    cases hl : out.getLast? with
    | none => rw [hl] at h; exact absurd h hb
    | some c => rw [hl] at h; simpa using h
  · simp

/-! ## The iteration count of the segment-matching loop -/


/-- The count `strlen(path)` that `make_rel_path_buf` gives `rel_loop` never
runs out: any larger count gives the same offsets. -/
theorem rel_loop_count_enough (path base : List Char) :
    ∀ (fuel extra i j : Nat), path.length - i ≤ fuel →
      rel_loop path base (fuel + extra) i j = rel_loop path base fuel i j := by
  intro fuel
  induction fuel with
  | zero =>
    intro extra i j h
    have hi : rd path i = NUL := by
      rw [rd_eq, List.getElem?_eq_none (by omega)]
      rfl
    cases extra with
    | zero => rfl
    | succ e =>
      have e1 : 0 + (e + 1) = e + 1 := by omega
      rw [e1, rel_loop, rel_loop]
      simp [hi]
  | succ fuel ih =>
    intro extra i j h
    have e1 : fuel + 1 + extra = (fuel + extra) + 1 := by omega
    rw [e1, rel_loop, rel_loop]
    by_cases hc : (rd path i != NUL && rd path (i + 1) != NUL
        && rd base j != NUL && rd base (j + 1) != NUL) = true
    · rw [if_pos hc, if_pos hc]
      have hlt : i < next_slash path i := by unfold next_slash; omega
      simp only
      split
      · rfl
      · exact ih extra _ _ (by omega)
    · rw [if_neg hc, if_neg hc]

/-- For a canonical absolute path that fits the buffer, `make_rel_path(base,
base)` is ".". -/
theorem make_rel_path_self_abs (PATH_MAX : Nat) (bs : List (List Char)) (buf : List Char)
    (before : Char) (hbs : ∀ s ∈ bs, Seg s)
    (hcap : 3 * bs.length + (abs_path bs).length + 1 ≤ PATH_MAX) (hsz : PATH_MAX < 2 ^ 64) :
    make_rel_path PATH_MAX (abs_path bs) (abs_path bs) buf before = ['.'] := by
  rw [make_rel_path_spec PATH_MAX bs bs buf before hbs hbs (by omega) hcap hsz]
  have hk : ∀ l : List (List Char), common_len l l = l.length := by
    intro l
    induction l with
    | nil => rfl
    | cons a l ih => simp [common_len, ih]
  unfold rel_reference
  simp [hk]

theorem strchr_none (s : List Char) (h : '/' ∉ c_str s) : strchr s '/' = none := by
  have e : (c_str s).findIdx (fun x => x == '/') = (c_str s).length := by
    rw [List.findIdx_eq_length]
    intro x hx
    have : x ≠ '/' := fun hh => h (hh ▸ hx)
    simpa using this
  simp [strchr, e]

theorem findIdx_slash (a x : List Char) (h1 : '/' ∉ a) :
    (a ++ '/' :: x).findIdx (fun c => c == '/') = a.length := by
  induction a with
  | nil => simp [List.findIdx_cons]
  | cons c a ih =>
    have hc : c ≠ '/' := fun hh => h1 (by simp [hh])
    have hb : (c == '/') = false := by simpa using hc
    have ha1 : '/' ∉ a := fun hh => h1 (List.mem_cons_of_mem _ hh)
    simp only [List.cons_append, List.findIdx_cons, hb, cond_false]
    rw [ih ha1]
    rfl

theorem c_str_append_slash (a b : List Char) (h2 : NUL ∉ a) :
    c_str (a ++ '/' :: b) = a ++ '/' :: c_str b := by
  have hs : ('/' : Char) ≠ NUL := by decide
  rw [c_str_append_of_not_mem a _ h2]
  simp [c_str, List.takeWhile_cons, hs]

theorem strchr_append (a b : List Char) (h1 : '/' ∉ a) (h2 : NUL ∉ a) :
    strchr (a ++ '/' :: b) '/' = some a.length := by
  simp [strchr, c_str_append_slash a b h2, findIdx_slash a _ h1]

theorem rd_two_slashes (x : List Char) (j : Nat) : rd ('/' :: '/' :: x) (j + 2) = rd x j := by
  simp [rd]

theorem wr_length (m : List Char) (i : Nat) (c : Char) :
    (wr m i c).length = max m.length (i + 1) := by
  unfold wr
  by_cases h : i < m.length
  · simp [h]; omega
  · simp [h]; omega

theorem take_eq_txt (m : List Char) : ∀ (k : Nat), k ≤ m.length → m.take k = txt m k := by
  intro k
  induction k with
  | zero => intro _; simp [txt]
  | succ k ih =>
    intro h
    have hk : k < m.length := by omega
    rw [txt, ← ih (by omega), rd_eq, List.getElem?_eq_getElem hk, List.take_succ,
      List.getElem?_eq_getElem hk]
    simp

theorem unc_copy_cons (c : Char) (p buf : List Char) (n : Nat) (h : c ≠ '/') :
    unc_copy (c :: p) buf n = unc_copy p (wr buf n c) (n + 1) := by
  have hb : (c != '/') = true := by simpa using h
  simp [unc_copy, hb]

theorem unc_copy_spec (s : List Char) (hs : '/' ∉ s) (r : List Char)
    (hr : r = [] ∨ r.head? = some '/') : ∀ (buf : List Char) (n : Nat),
    (unc_copy (s ++ r) buf n).2.1 = n + s.length
      ∧ (unc_copy (s ++ r) buf n).2.2 = r
      ∧ txt (unc_copy (s ++ r) buf n).1 (n + s.length) = txt buf n ++ s
      ∧ (n ≤ buf.length → n + s.length ≤ (unc_copy (s ++ r) buf n).1.length) := by
  induction s with
  | nil =>
    intro buf n
    rcases hr with rfl | hr
    · simp [unc_copy]
    · cases r with
      | nil => simp at hr
      | cons c t =>
        have hc : c = '/' := by simpa using hr
        subst hc
        simp [unc_copy]
  | cons c s ih =>
    intro buf n
    have hc : c ≠ '/' := fun hh => hs (by simp [hh])
    have hs2 : '/' ∉ s := fun hh => hs (List.mem_cons_of_mem _ hh)
    obtain ⟨h1, h2, h3, h4⟩ := ih hs2 (wr buf n c) (n + 1)
    rw [List.cons_append, unc_copy_cons c _ buf n hc, List.length_cons]
    refine ⟨by rw [h1]; omega, h2, ?_, ?_⟩
    · have e : n + (s.length + 1) = n + 1 + s.length := by omega
      rw [e, h3, txt_wr_succ]
      simp
    · intro hle
      have := h4 (by rw [wr_length]; omega)
      omega

theorem txt_store_two (m : List Char) (a b : Char) :
    txt (store_text m 0 [a, b]) 2 = [a, b] ∧ 2 ≤ (store_text m 0 [a, b]).length := by
  constructor
  · simp [store_text, txt, rd_wr]
  · simp only [store_text, wr_length]
    omega

theorem c_str_drop (m : List Char) : ∀ (k : Nat), k ≤ (c_str m).length →
    c_str (m.drop k) = (c_str m).drop k := by
  induction m with
  | nil => intro k _; simp [c_str]
  | cons c m ih =>
    intro k hk
    cases k with
    | zero => rfl
    | succ k =>
      by_cases hc : c = NUL
      · subst hc
        simp [c_str, List.takeWhile_cons] at hk
      · have hb : (c != NUL) = true := by simpa using hc
        have e : c_str (c :: m) = c :: c_str m := by simp [c_str, List.takeWhile_cons, hb]
        rw [e] at hk ⊢
        simp only [List.drop_succ_cons]
        exact ih k (by simpa using hk)

theorem take_findIdx_slash (t : List Char) :
    t.take (t.findIdx (fun x => x == '/')) = t.takeWhile (fun c => c != '/')
      ∧ t.drop (t.findIdx (fun x => x == '/')) = t.dropWhile (fun c => c != '/') := by
  induction t with
  | nil => simp
  | cons c t ih =>
    by_cases hc : c = '/'
    · subst hc
      simp [List.findIdx_cons, List.takeWhile_cons, List.dropWhile_cons]
    · have hb : (c == '/') = false := by simpa using hc
      have hb2 : (c != '/') = true := by simpa using hc
      simp only [List.findIdx_cons, hb, cond_false, List.takeWhile_cons, hb2, if_true,
        List.dropWhile_cons]
      constructor
      · show (c :: t).take (t.findIdx (fun x => x == '/') + 1) = _
        rw [List.take_succ_cons, ih.1]
      · show (c :: t).drop (t.findIdx (fun x => x == '/') + 1) = _
        rw [List.drop_succ_cons, ih.2]

theorem c_str_cons_of_rd (path : List Char) (h : rd path 0 ≠ NUL) :
    c_str path = rd path 0 :: c_str (path.drop 1) := by
  cases path with
  | nil => simp [rd] at h
  | cons c m =>
    have hc : c ≠ NUL := by simpa [rd] using h
    have hb : (c != NUL) = true := by simpa using hc
    simp [c_str, List.takeWhile_cons, hb, rd]

/-- The named-user part of `expand_tilde` (lines 896-917) in terms of the text
after the tilde: the name is what precedes its first slash, it has to fit the
array `name` with its terminator, and the text appended to the directory is
what follows that slash. -/
theorem expand_tilde_named (NAME_MAX : Nat) (home_dir : List Char)
    (getpwnam : List Char → Option (List Char))
    (malloc_ok : Bool) (path : List Char) (h0 : rd path 0 = '~') (h1 : rd path 1 ≠ NUL)
    (h2 : rd path 1 ≠ '/') :
    expand_tilde false NAME_MAX home_dir getpwnam malloc_ok path
      = if NAME_MAX < (((c_str path).drop 1).takeWhile (fun c => c != '/')).length + 1 then none
        else match getpwnam (((c_str path).drop 1).takeWhile (fun c => c != '/')) with
        | none => some (some path, [((c_str path).drop 1).takeWhile (fun c => c != '/')])
        | some pw_dir =>
          if !malloc_ok then
            some (none, [((c_str path).drop 1).takeWhile (fun c => c != '/')])
          else some (some (c_str (chosp pw_dir) ++ ['/']
                  ++ (((c_str path).drop 1).dropWhile (fun c => c != '/')).drop 1),
                [((c_str path).drop 1).takeWhile (fun c => c != '/')]) := by
  have ht : ('~' : Char) ≠ NUL := by decide
  have e1 : c_str path = '~' :: c_str (path.drop 1) := by
    have := c_str_cons_of_rd path (by rw [h0]; exact ht)
    rwa [h0] at this
  have e2 : (c_str path).drop 1 = c_str (path.drop 1) := by rw [e1]; rfl
  obtain ⟨t1, t2⟩ := take_findIdx_slash (c_str (path.drop 1))
  have hlen : (c_str (path.drop 1)).findIdx (fun x => x == '/') ≤ (c_str (path.drop 1)).length :=
    List.findIdx_le_length _
  have key : (match strchr path '/' with
      | none => (c_str (path.drop 1), ([] : List Char))
      | some i => ((c_str (path.drop 1)).take ((i - 1 + 1) - 1), c_str (path.drop (i + 1))))
      = ((c_str (path.drop 1)).takeWhile (fun c => c != '/'),
         ((c_str (path.drop 1)).dropWhile (fun c => c != '/')).drop 1) := by
    have hf : (c_str path).findIdx (fun x => x == '/')
        = (c_str (path.drop 1)).findIdx (fun x => x == '/') + 1 := by
      rw [e1]
      simp [List.findIdx_cons]
    unfold strchr
    simp only [hf]
    by_cases hlt : (c_str (path.drop 1)).findIdx (fun x => x == '/') < (c_str (path.drop 1)).length
    · have hl2 : (c_str (path.drop 1)).findIdx (fun x => x == '/') + 1 < (c_str path).length := by
        rw [e1]; simpa using hlt
      simp only [hl2, if_true]
      have e3 : c_str (path.drop ((c_str (path.drop 1)).findIdx (fun x => x == '/') + 1 + 1))
          = (c_str path).drop ((c_str (path.drop 1)).findIdx (fun x => x == '/') + 1 + 1) :=
        c_str_drop path _ (by omega)
      rw [e3, e1, List.drop_succ_cons, ← t2, List.drop_drop]
      simp only [Nat.add_sub_cancel]
      rw [t1]
    · have hl2 : ¬ (c_str (path.drop 1)).findIdx (fun x => x == '/') + 1 < (c_str path).length := by
        rw [e1]; simpa using hlt
      have heq : (c_str (path.drop 1)).findIdx (fun x => x == '/') = (c_str (path.drop 1)).length := by
        omega
      simp only [hl2, if_false]
      rw [← t1, ← t2, heq]
      simp
  have hg0 : (rd path 0 != '~') = false := by simp [h0]
  have hg1 : (rd path 1 == NUL || rd path 1 == '/') = false := by simp [h1, h2]
  unfold expand_tilde
  simp only [Bool.false_eq_true, if_false, hg0, hg1, key, e2]

theorem takeWhile_name (name rest : List Char) (hs : '/' ∉ name)
    (hr : rest = [] ∨ rest.head? = some '/') :
    (name ++ rest).takeWhile (fun c => c != '/') = name
      ∧ (name ++ rest).dropWhile (fun c => c != '/') = rest := by
  induction name with
  | nil =>
    rcases hr with rfl | hr
    · simp
    · cases rest with
      | nil => simp at hr
      | cons c t =>
        have hc : c = '/' := by simpa using hr
        subst hc
        simp [List.takeWhile_cons, List.dropWhile_cons]
  | cons c name ih =>
    have hc : c ≠ '/' := fun hh => hs (by simp [hh])
    have hb2 : (c != '/') = true := by simpa using hc
    have hs2 : '/' ∉ name := fun hh => hs (List.mem_cons_of_mem _ hh)
    obtain ⟨i1, i2⟩ := ih hs2
    simp only [List.cons_append, List.takeWhile_cons, hb2, if_true, List.dropWhile_cons]
    exact ⟨by rw [i1], i2⟩

theorem size_sub_wrap (a b : Nat) (h1 : a < b) (h2 : b < 2 ^ 64) :
    size_sub a b = a + 2 ^ 64 - b := by
  unfold size_sub
  have ha : a < 2 ^ 64 := by omega
  rw [Nat.mod_eq_of_lt ha, Nat.mod_eq_of_lt h2]
  exact Nat.mod_eq_of_lt (by omega)

theorem rooted_replicate_length (N : Nat) (s : List Char) :
    (rooted (List.replicate N s)).length = N * (s.length + 1) := by
  induction N with
  | zero => simp [rooted]
  | succ N ih =>
    rw [List.replicate_succ, rooted]
    simp only [List.length_append, List.length_cons, ih]
    ring

/-- The text `make_rel_path` builds for the path "/" and a canonical absolute
base of `N + 1` segments, when the base fits the buffer: `N + 1` parent
references, whether or not they fit. -/
theorem make_rel_path_root (PATH_MAX : Nat) (bs : List (List Char)) (buf : List Char)
    (before : Char) (hbs : ∀ s ∈ bs, Seg s) (hne : bs ≠ [])
    (hcapb : (abs_path bs).length + 1 ≤ PATH_MAX)
    (hcap2 : 1 ≤ size_sub PATH_MAX (3 * bs.length)) (hsz : PATH_MAX < 2 ^ 64) :
    make_rel_path PATH_MAX (abs_path []) (abs_path bs) buf before
      = join_slash (List.replicate bs.length ['.', '.']) := by
  unfold make_rel_path make_rel_path_buf
  simp only
  rw [c_str_of_not_mem _ (not_mem_abs_path [] (by simp)),
    c_str_of_not_mem _ (not_mem_abs_path bs hbs)]
  have hl : rel_loop (abs_path []) (abs_path bs) (abs_path ([] : List (List Char))).length 0 0
      = (0, 0) := by
    simp [abs_path, rel_loop, rd, NUL]
  rw [hl]
  simp only [List.drop_zero]
  rw [make_rel_tail_text_gen PATH_MAX _ _ buf before [] bs (by simp) hbs (Or.inr rfl)
    (Or.inr rfl) hcapb (Or.inr (by simpa [join_slash] using hcap2)) hsz]
  have hlen : bs.length ≠ 0 := by
    intro h
    exact hne (List.length_eq_zero.mp h)
  have : List.replicate bs.length ['.', '.'] ++ ([] : List (List Char)) ≠ [] := by
    simp [hlen]
  rw [if_neg this, List.append_nil]

theorem join_dots_length (N : Nat) :
    (join_slash (List.replicate (N + 1) ['.', '.'])).length = 3 * N + 2 := by
  have h := congrArg List.length (join_dots_only N)
  rw [List.length_append, dots_length] at h
  simp at h
  omega

theorem c_str_strncat (m src : List Char) (n : Nat) :
    c_str (strncat m src n) = c_str m ++ (c_str src).take n := by
  obtain ⟨h1, _, h3⟩ := c_str_spec m
  have hn : NUL ∉ (c_str src).take n := fun e => not_mem_c_str src (List.mem_of_mem_take e)
  unfold strncat
  rw [c_str_store_text _ m _ h1 hn, h3]

/-- Line 891 of `expand_tilde` for a path that begins with "~/": the home
directory, then the text after the slash. -/
theorem expand_tilde_slash (NAME_MAX : Nat) (home_dir t : List Char)
    (getpwnam : List Char → Option (List Char)) (hh : NUL ∉ home_dir) (ht : NUL ∉ t) :
    expand_tilde false NAME_MAX home_dir getpwnam true ('~' :: '/' :: t)
      = some (some (home_dir ++ t), []) := by
  have hs : ('/' : Char) ≠ NUL := by decide
  simp [expand_tilde, rd, c_str_of_not_mem _ hh, c_str_of_not_mem _ ht, hs]

/-- Lines 887-889 of `expand_tilde`: when `malloc` fails, a path that begins
with "~/" gives `NULL`. -/
theorem expand_tilde_slash_null (NAME_MAX : Nat) (home_dir t : List Char)
    (getpwnam : List Char → Option (List Char)) :
    expand_tilde false NAME_MAX home_dir getpwnam false ('~' :: '/' :: t) = some (none, []) := by
  simp [expand_tilde, rd]

/-- What `replace_home_part` leaves in its buffer for a directory below the
home directory: "~", then the directory from the last slash of the home
directory on. -/
theorem replace_home_part_text (PATH_MAX : Nat) (h rest buf : List Char) (dir_before : Char)
    (hh : NUL ∉ h) (hr : NUL ∉ rest) (hne : rest ≠ []) (hl : rest.getLast? ≠ some '/')
    (hd : (h ++ '/' :: rest).length < PATH_MAX) (hsz : PATH_MAX < 2 ^ 64) :
    c_str (replace_home_part false PATH_MAX (h ++ ['/']) (h ++ '/' :: rest) dir_before buf)
      = '~' :: '/' :: rest := by
  have hs : ('/' : Char) ≠ NUL := by decide
  have hnr : NUL ∉ '/' :: rest := by
    intro e
    rcases List.mem_cons.mp e with e | e
    · exact hs e.symm
    · exact hr e
  have hc1 : c_str (h ++ ['/']) = h ++ ['/'] :=
    c_str_of_not_mem _ (by
      intro e
      rcases List.mem_append.mp e with e | e
      · exact hh e
      · exact hs (by simpa using Eq.symm (List.mem_singleton.mp e)))
  have hc2 : c_str (h ++ '/' :: rest) = h ++ '/' :: rest :=
    c_str_of_not_mem _ (by
      intro e
      rcases List.mem_append.mp e with e | e
      · exact hh e
      · exact hnr e)
  have hlen : size_sub (strlen (h ++ ['/'])) 1 = h.length := by
    unfold strlen
    rw [hc1, size_sub_one _ (by simp) (by simp at hd ⊢; omega)]
    simp
  have hcmp : strncmp_eq (h ++ '/' :: rest) (h ++ ['/']) h.length = true := by
    unfold strncmp_eq
    rw [hc1, hc2]
    simp
  have hrd : rd (h ++ '/' :: rest) h.length = '/' := by
    have := rd_append_right h ('/' :: rest) 0
    simpa [rd_cons_zero] using this
  have hdrop : (h ++ '/' :: rest).drop h.length = '/' :: rest := by simp
  have h1 : c_str (store_text buf 0 ['~']) = ['~'] := by
    have := c_str_store_text ['~'] buf 0 (fun i hi => absurd hi (Nat.not_lt_zero i)) (by decide)
    simpa [txt] using this
  have hb1 : c_str (strncat (store_text buf 0 ['~']) ('/' :: rest) PATH_MAX)
      = '~' :: '/' :: rest := by
    rw [c_str_strncat, h1, c_str_of_not_mem _ hnr, List.take_of_length_le
      (by simp at hd ⊢; omega)]
    rfl
  have hroot : is_root_dir false (strncat (store_text buf 0 ['~']) ('/' :: rest) PATH_MAX)
      = false := by
    have := rd_zero_of_c_str _ _ _ hb1
    simp [is_root_dir, this]
  have hwrap : ¬ h.length = 2 ^ 64 - 1 := by
    simp only [List.length_append, List.length_cons] at hd
    omega
  unfold replace_home_part
  simp only [hlen, hwrap, if_false, hcmp, hrd, hdrop, hroot]
  simp only [beq_self_eq_true, Bool.or_true, Bool.and_self, if_true, Bool.not_false]
  rw [hroot]
  simp only [Bool.not_false, if_true]
  rw [c_str_chosp, hb1]
  have hl2 : ('~' :: '/' :: rest).getLast? ≠ some '/' := by
    obtain ⟨c, t, rfl⟩ := List.exists_cons_of_ne_nil hne
    simpa [List.getLast?_cons_cons] using hl
  rw [if_neg hl2]

/-! ## The UTF-8 scans -/

theorem cont_byte_ne_nul (c : Char) (h : ((c.toNat &&& 0xc0) == 0x80) = true) : c ≠ NUL := by
  intro e
  subst e
  revert h
  decide

theorem rd_drop (s : List Char) (i j : Nat) : rd (s.drop i) j = rd s (i + j) := by
  rw [rd_eq, rd_eq, List.getElem?_drop]

/-- Inside the loops, where `string[0]` is not the terminator,
`get_char_width` returns a width from 1 to 4 and every byte of that width is
in front of the terminator. -/
theorem get_char_width_spec (s : List Char) (h0 : rd s 0 ≠ NUL) :
    1 ≤ get_char_width s ∧ get_char_width s ≤ 4
      ∧ ∀ j, j < get_char_width s → rd s j ≠ NUL := by
  have hb : (rd s 0 == NUL) = false := by simpa using h0
  unfold get_char_width
  split_ifs with h2 h3 h4
  · simp only [Bool.and_eq_true] at h2
    refine ⟨by omega, by omega, ?_⟩
    intro j hj
    have : j = 0 ∨ j = 1 := by omega
    rcases this with rfl | rfl
    · exact h0
    · exact cont_byte_ne_nul _ h2.2
  · simp only [Bool.and_eq_true] at h3
    refine ⟨by omega, by omega, ?_⟩
    intro j hj
    have : j = 0 ∨ j = 1 ∨ j = 2 := by omega
    rcases this with rfl | rfl | rfl
    · exact h0
    · exact cont_byte_ne_nul _ h3.1.2
    · exact cont_byte_ne_nul _ h3.2
  · simp only [Bool.and_eq_true] at h4
    refine ⟨by omega, by omega, ?_⟩
    intro j hj
    have : j = 0 ∨ j = 1 ∨ j = 2 ∨ j = 3 := by omega
    rcases this with rfl | rfl | rfl | rfl
    · exact h0
    · exact cont_byte_ne_nul _ h4.1.1.2
    · exact cont_byte_ne_nul _ h4.1.2
    · exact cont_byte_ne_nul _ h4.2
  · simp [hb] at *
  · refine ⟨by omega, by omega, ?_⟩
    intro j hj
    have : j = 0 := by omega
    subst this
    exact h0

theorem le_strlen_of_rd (s : List Char) (w : Nat) (h : ∀ j, j < w → rd s j ≠ NUL) :
    w ≤ strlen s := by
  by_contra hlt
  exact h (strlen s) (by omega) (c_str_spec s).2.1

theorem strlen_drop (s : List Char) (w : Nat) (h : w ≤ strlen s) :
    strlen (s.drop w) = strlen s - w := by
  unfold strlen at h ⊢
  rw [c_str_drop s w h, List.length_drop]

theorem strlen_eq_zero (s : List Char) (h : rd s 0 = NUL) : strlen s = 0 := by
  unfold strlen
  rw [(c_str_nil_iff s).mpr h]
  rfl

/-- One iteration of either scan: the width read at offset `i` keeps the
pointer in front of the terminator of the text that starts there. -/
theorem scan_step (s : List Char) (i : Nat) (h : rd s i ≠ NUL) :
    1 ≤ get_char_width (s.drop i) ∧ get_char_width (s.drop i) ≤ strlen (s.drop i)
      ∧ strlen (s.drop (i + get_char_width (s.drop i)))
          = strlen (s.drop i) - get_char_width (s.drop i) := by
  have h0 : rd (s.drop i) 0 ≠ NUL := by rw [rd_drop]; exact h
  obtain ⟨h1, _, h3⟩ := get_char_width_spec (s.drop i) h0
  have hle := le_strlen_of_rd (s.drop i) _ h3
  refine ⟨h1, hle, ?_⟩
  rw [← strlen_drop (s.drop i) _ hle, List.drop_drop]

theorem length_loop_succ (s : List Char) (fuel i length : Nat) (h : rd s i ≠ NUL) :
    get_utf8_string_length_loop s (fuel + 1) i length
      = get_utf8_string_length_loop s fuel (i + get_char_width (s.drop i))
          ((length + 1) % 2 ^ 64) := by
  have hb : (rd s i != NUL) = true := by simpa using h
  rw [get_utf8_string_length_loop]
  simp only [hb, if_true]

theorem overhead_loop_succ (s : List Char) (fuel i overhead : Nat) (h : rd s i ≠ NUL) :
    get_utf8_overhead_loop s (fuel + 1) i overhead
      = get_utf8_overhead_loop s fuel (i + get_char_width (s.drop i))
          ((overhead + size_sub (get_char_width (s.drop i)) 1) % 2 ^ 64) := by
  have hb : (rd s i != NUL) = true := by simpa using h
  rw [get_utf8_overhead_loop]
  simp only [hb, if_true]

theorem length_loop_stop (s : List Char) (fuel i length : Nat) (h : rd s i = NUL) :
    get_utf8_string_length_loop s (fuel + 1) i length = some (i, length) := by
  rw [get_utf8_string_length_loop]
  simp [h]

theorem overhead_loop_stop (s : List Char) (fuel i overhead : Nat) (h : rd s i = NUL) :
    get_utf8_overhead_loop s (fuel + 1) i overhead = some (i, overhead) := by
  rw [get_utf8_overhead_loop]
  simp [h]

/-- Both scans of a text stop at its terminator; `get_utf8_string_length`
counts some `n` characters, at most one for each byte, and
`get_utf8_overhead` counts the other bytes. -/
theorem utf8_loops (s : List Char) : ∀ (fuel i : Nat), strlen (s.drop i) < fuel →
    ∃ n, n ≤ strlen (s.drop i)
      ∧ (∀ length, length + strlen (s.drop i) < 2 ^ 64 →
          get_utf8_string_length_loop s fuel i length
            = some (i + strlen (s.drop i), length + n))
      ∧ (∀ overhead, overhead + strlen (s.drop i) < 2 ^ 64 →
          get_utf8_overhead_loop s fuel i overhead
            = some (i + strlen (s.drop i), overhead + (strlen (s.drop i) - n))) := by
  intro fuel
  induction fuel with
  | zero => intro i h; omega
  | succ fuel ih =>
    intro i hf
    by_cases h : rd s i = NUL
    · have hz : strlen (s.drop i) = 0 := strlen_eq_zero _ (by rw [rd_drop]; exact h)
      refine ⟨0, by omega, ?_, ?_⟩
      · intro length _
        rw [length_loop_stop s fuel i length h, hz]
        rfl
      · intro overhead _
        rw [overhead_loop_stop s fuel i overhead h, hz]
        rfl
    · obtain ⟨w1, w2, w3⟩ := scan_step s i h
      obtain ⟨n, hn, hl, ho⟩ := ih (i + get_char_width (s.drop i)) (by rw [w3]; omega)
      rw [w3] at hn hl ho
      refine ⟨n + 1, by omega, ?_, ?_⟩
      · intro length hlen
        have hm : (length + 1) % 2 ^ 64 = length + 1 := Nat.mod_eq_of_lt (by omega)
        rw [length_loop_succ s fuel i length h, hm, hl (length + 1) (by omega)]
        rw [Option.some.injEq, Prod.mk.injEq]
        constructor <;> omega
      · intro overhead hov
        have hs : size_sub (get_char_width (s.drop i)) 1 = get_char_width (s.drop i) - 1 :=
          size_sub_one _ w1 (by omega)
        have hm : (overhead + (get_char_width (s.drop i) - 1)) % 2 ^ 64
            = overhead + (get_char_width (s.drop i) - 1) := Nat.mod_eq_of_lt (by omega)
        rw [overhead_loop_succ s fuel i overhead h, hs, hm,
          ho (overhead + (get_char_width (s.drop i) - 1)) (by omega)]
        rw [Option.some.injEq, Prod.mk.injEq]
        constructor <;> omega

/-! ## `make_rel_path` when its results fit the buffer -/

/-- Idempotence of `canonicalize_path` when both calls find the same byte in
front of their buffer: for every input text `p`, in zero-initialised buffers
with room for `p`, a slash and the terminator, applying `canonicalize_path` to
the text it produced for `p` returns that text unchanged. -/
theorem canon_idempotent (p : List Char) (before : Char) (buf_size : Nat)
    (hcap : p.length + 2 ≤ buf_size) (hsz : buf_size < 2 ^ 64) :
    canon (canon p before buf_size) before buf_size = canon p before buf_size := by
  have hform := canon_form p before buf_size hcap hsz
  have hlen := canon_length_le p before buf_size
  have hn : NUL ∉ canon p before buf_size := not_mem_c_str _
  have hlast : canon p before buf_size = [] ∨ (canon p before buf_size).getLast? = some '/' := by
    rw [canon_eq]
    exact finish_last before _
  rw [canon_of_CanonForm _ before buf_size hn hform hlast (by omega) hsz]
  rw [canon_eq]
  exact finish_finish before _

/-- Idempotence with the same byte in front of both buffers, at
"../../a/./b/.." in a buffer of 32 bytes: the text produced is "../../a/", and
canonicalizing it again returns it. -/
theorem canon_idempotent_witness :
    (['.', '.', '/', '.', '.', '/', 'a', '/', '.', '/', 'b', '/', '.', '.'].length + 2
          ≤ 32 ∧ 32 < 2 ^ 64)
      ∧ canon ['.', '.', '/', '.', '.', '/', 'a', '/', '.', '/', 'b', '/', '.', '.']
          'x' 32 = ['.', '.', '/', '.', '.', '/', 'a', '/']
      ∧ canon (canon
          ['.', '.', '/', '.', '.', '/', 'a', '/', '.', '/', 'b', '/', '.', '.']
          'x' 32) 'x' 32
        = canon ['.', '.', '/', '.', '.', '/', 'a', '/', '.', '/', 'b', '/', '.', '.']
          'x' 32 :=
  ⟨⟨by decide, by decide⟩, by decide,
   canon_idempotent
     ['.', '.', '/', '.', '.', '/', 'a', '/', '.', '/', 'b', '/', '.', '.'] 'x' 32
     (by decide) (by decide)⟩

/-- C1 (idempotence), evaluated where the first call ends with its cursor at
`buf - 1` and finds a slash in front of its buffer: for the empty text, and
for "a/..", line 794 then stores no separator and the output is the empty
text; a second call on that output, in a zero-initialised buffer of 16 bytes
behind any other byte, returns "/" and not the output of the first. -/
theorem canon_second_call_differs :
    canon [] '/' 16 = [] ∧ canon (canon [] '/' 16) 'x' 16 = ['/']
      ∧ canon ['a', '/', '.', '.'] '/' 16 = []
      ∧ canon (canon ['a', '/', '.', '.'] '/' 16) 'x' 16 = ['/'] := by
  decide

/-- C4 as stated fails: for the relative text "../.." the output is "../../",
which contains "/../" (line 769 keeps a ".." segment behind a buffer that is
exactly "../"). -/
theorem canon_keeps_second_dotdot :
    canon ['.', '.', '/', '.', '.'] 'x' 16 = ['.', '.', '/', '.', '.', '/']
      ∧ canon ['.', '.', '/', '.', '.'] 'x' 16 = ['.', '.'] ++ ['/', '.', '.', '/'] ++ [] := by
  decide

/-- C4, amended (canonical-form invariant).  For every input text `raw`, in a
zero-initialised buffer with room for `raw`, a slash and the terminator, the
text `canonicalize_path` produces contains neither "//" nor "/./", and every
occurrence of "/../" in it is the second half of a leading "../../". -/
theorem canon_canonical_form (raw : List Char) (before : Char) (buf_size : Nat)
    (hcap : raw.length + 2 ≤ buf_size) (hsz : buf_size < 2 ^ 64) :
    ¬ ['/', '/'] <:+: canon raw before buf_size
      ∧ ¬ ['/', '.', '/'] <:+: canon raw before buf_size
      ∧ ∀ u v, canon raw before buf_size = u ++ ['/', '.', '.', '/'] ++ v → u = ['.', '.'] :=
  ⟨(canon_form raw before buf_size hcap hsz).noSS,
   (canon_form raw before buf_size hcap hsz).noSDS,
   (canon_form raw before buf_size hcap hsz).dd⟩

/-- C4 amended, at "/a/./b//../c" in a buffer of 16 bytes. -/
theorem canon_canonical_form_witness :
    (['/', 'a', '/', '.', '/', 'b', '/', '/', '.', '.', '/', 'c'].length + 2 ≤ 16 ∧ 16 < 2 ^ 64)
      ∧ (¬ ['/', '/'] <:+: canon ['/', 'a', '/', '.', '/', 'b', '/', '/', '.', '.', '/', 'c'] 'x' 16
      ∧ ¬ ['/', '.', '/'] <:+:
          canon ['/', 'a', '/', '.', '/', 'b', '/', '/', '.', '.', '/', 'c'] 'x' 16
      ∧ ∀ u v, canon ['/', 'a', '/', '.', '/', 'b', '/', '/', '.', '.', '/', 'c'] 'x' 16
          = u ++ ['/', '.', '.', '/'] ++ v → u = ['.', '.']) :=
  ⟨⟨by decide, by decide⟩,
   canon_canonical_form ['/', 'a', '/', '.', '/', 'b', '/', '/', '.', '.', '/', 'c'] 'x' 16
     (by decide) (by decide)⟩

/-- C5 (truncation bound), evaluated at `raw = "ab"` and `buf_size = 3`: the
loop stops after two characters, and the slash and the terminator are then
stored without a capacity test.  The text written is "ab/", of length
`3 > buf_size - 1`, and the terminator lands in `buf[3]`, one byte past the
three bytes the caller announced. -/
theorem canonicalize_path_writes_past_capacity :
    canonicalize_path ['a', 'b'] [NUL, NUL, NUL] 'x' 3 = ['a', 'b', '/', NUL]
      ∧ (c_str (canonicalize_path ['a', 'b'] [NUL, NUL, NUL] 'x' 3)).length = 3
      ∧ ¬ (c_str (canonicalize_path ['a', 'b'] [NUL, NUL, NUL] 'x' 3)).length ≤ 3 - 1 := by
  decide

/-- C6 (root clamp).  For every text `r` that begins with a slash,
`canonicalize_path` leaves the same bytes for `"/.." ++ r` as for `r`: the
".." directly under the root is discarded.  This holds for every destination
content, every byte in front of it and every capacity. -/
theorem canonicalize_path_root_clamp (r buf : List Char) (before : Char) (buf_size : Nat)
    (hr : r.head? = some '/') :
    canonicalize_path (['/', '.', '.'] ++ r) buf before buf_size
      = canonicalize_path r buf before buf_size := by
  apply canonicalize_path_congr
  match r, hr with
  | c :: r1, hr =>
    have hc : c = '/' := by simpa using hr
    subst hc
    have e1 : c_str (['/', '.', '.'] ++ '/' :: r1) = '/' :: '.' :: '.' :: '/' :: c_str r1 := by
      simp [c_str, List.takeWhile_cons, NUL]
    have e2 : c_str ('/' :: r1) = '/' :: c_str r1 := by
      simp [c_str, List.takeWhile_cons, NUL]
    rw [e1, e2]
    generalize size_sub buf_size 1 = L
    generalize wr buf 0 NUL = m0
    by_cases h0 : 0 < L
    swap
    · rw [loop_stop L _ m0 0 h0, loop_stop L _ m0 0 h0]
    rw [loop_slash_write L _ m0 0 h0 (not_prev_zero m0),
      loop_slash_write L _ m0 0 h0 (not_prev_zero m0)]
    by_cases h1 : 0 + 1 < L
    swap
    · rw [loop_stop L _ _ _ h1, loop_stop L _ _ _ h1]
    have hp : prev (wr m0 0 '/') (0 + 1) := ⟨by omega, by simp [rd_wr_same]⟩
    have hg : c_str (wr m0 0 '/') ≠ ['.', '.', '/'] := by
      intro h
      have := rd_zero_of_c_str _ _ _ h
      rw [rd_wr_same] at this
      exact absurd this (by decide)
    rw [loop_dd_slash L _ _ _ h1 hp hg]
    have hs : scan_back (wr m0 0 '/') (0 + 1 - 1) = 0 := rfl
    rw [hs, loop_slash_write L _ _ 0 h0 (not_prev_zero _), wr_wr]

/-- C6, at the instances of the specification: "/../../etc" becomes "/etc/"
and "/../" becomes "/". -/
theorem canonicalize_path_root_clamp_witness :
    ['/', '.', '.', '/', 'e', 't', 'c'].head? = some '/'
      ∧ c_str (canonicalize_path (['/', '.', '.'] ++ ['/', '.', '.', '/', 'e', 't', 'c']) [] 'x' 16)
          = ['/', 'e', 't', 'c', '/']
      ∧ c_str (canonicalize_path (['/', '.', '.'] ++ ['/']) [] 'x' 16) = ['/'] :=
  ⟨by decide,
   (congrArg c_str
      (canonicalize_path_root_clamp ['/', '.', '.', '/', 'e', 't', 'c'] [] 'x' 16
        (by decide))).trans (by decide),
   (congrArg c_str (canonicalize_path_root_clamp ['/'] [] 'x' 16 (by decide))).trans
     (by decide)⟩

/-- C7 (dotdot collapse).  For every text `a` that begins and ends with a
slash, every segment `s` (non-empty, without slash, neither "." nor "..") and
every text `r`, `canonicalize_path` produces the same text for
`a ++ s ++ "/../" ++ r` as for `a ++ r`, whatever the destination held before
and whatever byte precedes it, when the buffer has room for the longer input,
a slash and the terminator. -/
theorem canonicalize_path_dotdot_collapse (a s r buf : List Char) (before : Char)
    (buf_size : Nat) (ha0 : a.head? = some '/') (ha1 : a.getLast? = some '/')
    (hs0 : s ≠ []) (hs1 : '/' ∉ s) (hs2 : s ≠ ['.']) (hs3 : s ≠ ['.', '.']) (hsn : NUL ∉ s)
    (hcap : (a ++ s ++ ['/', '.', '.', '/'] ++ r).length + 2 ≤ buf_size)
    (hsz : buf_size < 2 ^ 64) :
    c_str (canonicalize_path (a ++ s ++ ['/', '.', '.', '/'] ++ r) buf before buf_size)
      = c_str (canonicalize_path (a ++ r) buf before buf_size) := by
  have eassoc : a ++ s ++ ['/', '.', '.', '/'] ++ r = a ++ (s ++ (['/', '.', '.', '/'] ++ r)) := by
    simp
  by_cases hna : NUL ∈ a
  · apply congrArg c_str
    apply canonicalize_path_congr
    rw [eassoc, c_str_append_of_mem a _ hna, c_str_append_of_mem a _ hna]
  rw [c_str_canonicalize_path, c_str_canonicalize_path]
  have e1 : c_str (a ++ s ++ ['/', '.', '.', '/'] ++ r)
      = a ++ ((s ++ ['/']) ++ ('.' :: '.' :: '/' :: c_str r)) := by
    rw [eassoc, c_str_append_of_not_mem a _ hna, c_str_append_of_not_mem s _ hsn,
      c_str_append_of_not_mem _ r (by decide)]
    simp
  rw [e1, c_str_append_of_not_mem a _ hna]
  have hL : size_sub buf_size 1 = buf_size - 1 := size_sub_one buf_size (by omega) hsz
  simp only [List.length_append, List.length_cons, List.length_nil] at hcap
  generalize size_sub buf_size 1 = L at hL
  generalize c_str r = r1
  generalize hm0 : wr buf 0 NUL = m0
  have hor : a = [] ∨ a.getLast? = some '/' := Or.inr ha1
  rw [loop_append L a _ m0 0 hor, loop_append L a r1 m0 0 hor]
  have hcnt := loop_count_le L a m0 0
  have habs := (loop_abs_sim L a m0 0 m0 rfl ⟨fun _ => Or.inr ha0, fun h => absurd rfl h⟩).2.2
  have hprev := loop_prev_of_ends_slash L a m0 0
    (fun h => by rw [h] at ha1; simp at ha1) (fun _ => ha1) (by omega)
  generalize canonicalize_loop L a m0 0 = Sa at hcnt habs hprev
  obtain ⟨ma, na⟩ := Sa
  simp only [Nat.zero_add] at hcnt habs hprev ⊢
  have hna0 : na ≠ 0 := hprev.1
  have hma0 : rd ma 0 = '/' := habs hna0
  -- the segment and its slash are copied
  rw [loop_append L (s ++ ['/']) _ ma na (Or.inr (by simp))]
  have hv := loop_verbatim L (s ++ ['/']) ma na (by simp; omega)
    (okAt_segment (txt ma na) s _ hs0 hs1 hs2 hs3)
  generalize canonicalize_loop L (s ++ ['/']) ma na = S1 at hv
  obtain ⟨m1, n1⟩ := S1
  simp only [List.length_append, List.length_cons, List.length_nil] at hv ⊢
  obtain ⟨hn1, ht1⟩ := hv
  subst hn1
  have hcell : ∀ i, i < na + (s.length + (0 + 1)) →
      (txt ma na ++ (s ++ ['/']))[i]? = some (rd m1 i) := rd_of_txt m1 _ _ ht1
  have hlow : ∀ i, i < na → rd m1 i = rd ma i := by
    intro i hi
    have h1 := hcell i (by omega)
    rw [List.getElem?_append_left (by simp [txt_length]; omega), txt_getElem ma na i hi] at h1
    exact (Option.some.inj h1).symm
  have hm10 : rd m1 0 = '/' := by rw [hlow 0 (by omega)]; exact hma0
  have hp1 : prev m1 (na + (s.length + (0 + 1))) := by
    rw [prev_iff, ht1]; simp
  -- the ".." erases the segment
  rw [loop_dd_slash L r1 m1 _ (by omega) hp1 (guard_of_abs m1 hm10)]
  have hsb : scan_back m1 (na + (s.length + (0 + 1)) - 1) = na := by
    apply scan_back_eq m1 na _ (Or.inr (by rw [hlow _ (by omega)]; exact hprev.2)) (by omega)
    intro i hi1 hi2 e
    have h1 := hcell i (by omega)
    rw [List.getElem?_append_right (by simp [txt_length]; omega), txt_length,
      List.getElem?_append_left (by omega)] at h1
    have hmem : rd m1 i ∈ s := List.mem_iff_getElem?.mpr ⟨_, h1⟩
    rw [e] at hmem
    exact hs1 hmem
  rw [hsb]
  have hpa1 : prev m1 na := ⟨hna0, by rw [hlow _ (by omega)]; exact hprev.2⟩
  rw [loop_slash_skip L r1 m1 na (by omega) hpa1]
  -- both runs continue from buffers that agree below the cursor
  have hsim := loop_abs_sim L r1 ma na m1 (txt_congr m1 ma na hlow)
    ⟨fun h => absurd h hna0, fun _ => hma0⟩
  rw [hsim.2.1]

/-- C7, at the instance of the specification: `a = "/a/"`, `s = "b"`,
`r = "c"`; the text produced for "/a/b/../c" is "/a/c/". -/
theorem canonicalize_path_dotdot_collapse_witness :
    (['/', 'a', '/'].head? = some '/' ∧ ['/', 'a', '/'].getLast? = some '/'
        ∧ ['b'] ≠ [] ∧ '/' ∉ ['b'] ∧ ['b'] ≠ ['.'] ∧ ['b'] ≠ ['.', '.'] ∧ NUL ∉ ['b']
        ∧ (['/', 'a', '/'] ++ ['b'] ++ ['/', '.', '.', '/'] ++ ['c']).length + 2 ≤ 16
        ∧ 16 < 2 ^ 64)
      ∧ c_str (canonicalize_path (['/', 'a', '/'] ++ ['b'] ++ ['/', '.', '.', '/'] ++ ['c'])
          [] 'x' 16) = ['/', 'a', '/', 'c', '/'] :=
  ⟨⟨by decide, by decide, by decide, by decide, by decide, by decide, by decide, by decide,
      by decide⟩,
   (canonicalize_path_dotdot_collapse ['/', 'a', '/'] ['b'] ['c'] [] 'x' 16
      (by decide) (by decide) (by decide) (by decide) (by decide) (by decide) (by decide)
      (by decide) (by decide)).trans (by decide)⟩

/-- C8 (dot elision).  For every text `a` that ends with a slash and every text
`b`, `canonicalize_path` leaves the same bytes for `a ++ "./" ++ b` as for
`a ++ b`, and the same bytes for `a ++ "."` as for `a`; this holds for every
destination content, every byte in front of it and every capacity. -/
theorem canonicalize_path_dot_elision (a b buf : List Char) (before : Char) (buf_size : Nat)
    (ha : a.getLast? = some '/') :
    canonicalize_path (a ++ ['.', '/'] ++ b) buf before buf_size
        = canonicalize_path (a ++ b) buf before buf_size
      ∧ canonicalize_path (a ++ ['.']) buf before buf_size
        = canonicalize_path a buf before buf_size := by
  have key : ∀ x y : List Char, NUL ∉ a →
      (∀ m n, prev m n → canonicalize_loop (size_sub buf_size 1) x m n
        = canonicalize_loop (size_sub buf_size 1) y m n) →
      canonicalize_loop (size_sub buf_size 1) (a ++ x) (wr buf 0 NUL) 0
        = canonicalize_loop (size_sub buf_size 1) (a ++ y) (wr buf 0 NUL) 0 := by
    intro x y _ hxy
    rw [loop_append _ a x _ _ (Or.inr ha), loop_append _ a y _ _ (Or.inr ha)]
    by_cases hL : (canonicalize_loop (size_sub buf_size 1) a (wr buf 0 NUL) 0).2
        < size_sub buf_size 1
    · apply hxy
      apply loop_prev_of_ends_slash _ a _ _ _ (fun _ => ha) hL
      intro h; subst h; simp at ha
    · rw [loop_stop _ x _ _ hL, loop_stop _ y _ _ hL]
  by_cases hn : NUL ∈ a
  · constructor
    · apply canonicalize_path_congr
      rw [List.append_assoc, c_str_append_of_mem a _ hn, c_str_append_of_mem a _ hn]
    · apply canonicalize_path_congr
      rw [c_str_append_of_mem a _ hn]
  · constructor
    · apply canonicalize_path_congr
      rw [List.append_assoc, c_str_append_of_not_mem a _ hn, c_str_append_of_not_mem a _ hn]
      have e : c_str (['.', '/'] ++ b) = '.' :: '/' :: c_str b := by
        simp [c_str, List.takeWhile, NUL]
      rw [e, key ('.' :: '/' :: c_str b) (c_str b) hn]
      intro m n hp
      by_cases hL : n < size_sub buf_size 1
      · exact loop_dotslash _ _ m n hL hp
      · rw [loop_stop _ _ m n hL, loop_stop _ _ m n hL]
    · apply canonicalize_path_congr
      rw [c_str_append_of_not_mem a _ hn]
      have e : c_str ['.'] = ['.'] := by simp [c_str, List.takeWhile, NUL]
      have e2 : c_str a = a ++ [] := by simp [c_str_of_not_mem a hn]
      rw [e, e2, key ['.'] [] hn]
      intro m n hp
      rw [loop_dot _ m n hp, loop_nil]

/-- C8, at the instance of the specification: `a = "/a/"` and `b = "b/"`; the
text left for "/a/./b/" is "/a/b/". -/
theorem canonicalize_path_dot_elision_witness :
    ['/', 'a', '/'].getLast? = some '/'
      ∧ c_str (canonicalize_path (['/', 'a', '/'] ++ ['.', '/'] ++ ['b', '/']) [] 'x' 16)
          = ['/', 'a', '/', 'b', '/'] :=
  ⟨by decide,
   (congrArg c_str
      (canonicalize_path_dot_elision ['/', 'a', '/'] ['b', '/'] [] 'x' 16 (by decide)).1).trans
     (by decide)⟩

/-- C9 (trailing separator), evaluated where the cursor is back at `buf - 1`
when the loop ends (the empty text, and "a/.."): line 794 then reads `*q`, the
byte in front of the buffer.  When that byte is a slash no separator is
stored and the text written is empty; with another byte there it is "/". -/
theorem canonicalize_path_empty_result :
    c_str (canonicalize_path [] [] '/' 16) = []
      ∧ c_str (canonicalize_path ['a', '/', '.', '.'] [] '/' 16) = []
      ∧ c_str (canonicalize_path [] [] 'x' 16) = ['/'] := by
  decide

/-- C10 (self-relative), evaluated at the one-character relative path "a": the
loop of lines 817-830 is not entered because `p[1]` is the terminator, the
whole of `base` counts as unmatched, and the result is "a" instead of ".".
The two-character path "ab" gives ".". -/
theorem make_rel_path_self_one_char :
    make_rel_path 64 ['a'] ['a'] [] 'x' = ['a']
      ∧ make_rel_path 64 ['a', 'b'] ['a', 'b'] [] 'x' = ['.'] := by
  decide

/-- Claim C11: in a build without `_WIN32`, `is_root_dir(path)` is true if and
only if the text at `path` is exactly "/"; so it is true of "/" and false of
"/a". -/
theorem is_root_dir_posix (path : List Char) :
    (is_root_dir false path = true ↔ c_str path = ['/'])
      ∧ is_root_dir false ['/'] = true ∧ is_root_dir false ['/', 'a'] = false := by
  refine ⟨?_, by decide, by decide⟩
  have hs : ('/' : Char) ≠ NUL := by decide
  cases path with
  | nil => simp [is_root_dir, rd, c_str, NUL]
  | cons a t =>
    by_cases ha : a = '/'
    · subst ha
      cases t with
      | nil => simp [is_root_dir, rd, c_str, hs]
      | cons b t =>
        by_cases hb : b = NUL
        · subst hb
          simp [is_root_dir, rd, c_str, List.takeWhile_cons, hs]
        · have hb2 : (b != NUL) = true := by simpa using hb
          simp [is_root_dir, rd, c_str, List.takeWhile_cons, hs, hb, hb2]
    · by_cases hn : a = NUL
      · subst hn
        simp [is_root_dir, rd, c_str, List.takeWhile_cons, ha]
      · have hb2 : (a != NUL) = true := by simpa using hn
        simp [is_root_dir, rd, c_str, List.takeWhile_cons, ha, hb2]

/-- C12 as stated fails: in a `_WIN32` build `is_root_dir` is false of
"//server/share" and of "//server/share/", because the `strchr` of line 966
finds the slash that ends the server name and a character follows it;
`is_unc_root` answers the same. -/
theorem is_root_dir_unc_share_not_root :
    is_root_dir true ['/', '/', 's', 'e', 'r', 'v', 'e', 'r', '/', 's', 'h', 'a', 'r', 'e'] = false
      ∧ is_root_dir true
          ['/', '/', 's', 'e', 'r', 'v', 'e', 'r', '/', 's', 'h', 'a', 'r', 'e', '/'] = false
      ∧ is_unc_root ['/', '/', 's', 'e', 'r', 'v', 'e', 'r', '/', 's', 'h', 'a', 'r', 'e'] = false := by
  decide

/-- C12, amended (windows UNC root detection).  In a `_WIN32` build, for every
server name (non-empty, without slash), `is_root_dir` is true of "//server" and
of "//server/", and false of "//server/" followed by any non-empty text (so of
"//server/share" and of "//server/share/sub"); and it is true of "C:/". -/
theorem is_root_dir_unc_server (server : List Char) (hne : server ≠ [])
    (hs : '/' ∉ server) (hn : NUL ∉ server) :
    is_root_dir true (['/', '/'] ++ server) = true
      ∧ is_root_dir true (['/', '/'] ++ server ++ ['/']) = true
      ∧ (∀ sub : List Char, sub ≠ [] → NUL ∉ sub →
          is_root_dir true (['/', '/'] ++ server ++ ['/'] ++ sub) = false)
      ∧ is_root_dir true ['C', ':', '/'] = true := by
  obtain ⟨c, t, rfl⟩ := List.exists_cons_of_ne_nil hne
  have hc : c ≠ NUL := fun hh => hn (by simp [hh])
  have hc2 : c ≠ '/' := fun hh => hs (by simp [hh])
  have ha : isalpha '/' = false := by decide
  have hsn : ('/' : Char) ≠ NUL := by decide
  refine ⟨?_, ?_, ?_, by decide⟩
  · have e : strchr (c :: t) '/' = none :=
      strchr_none _ (by rw [c_str_of_not_mem _ hn]; exact hs)
    simp [is_root_dir, ha, rd, hc, e]
  · have e : strchr ((c :: t) ++ '/' :: []) '/' = some (c :: t).length :=
      strchr_append _ _ hs hn
    have e2 : rd ((c :: t) ++ '/' :: []) ((c :: t).length + 1) = NUL := by
      rw [rd_append_right]; simp [rd]
    simp only [List.cons_append, List.nil_append, List.append_assoc, List.length_cons,
      rd_cons_succ] at e e2 ⊢
    simp [is_root_dir, ha, rd_cons_zero, rd_cons_succ, hc, e, e2]
  · intro sub hsub hnsub
    obtain ⟨d, u, rfl⟩ := List.exists_cons_of_ne_nil hsub
    have hd : d ≠ NUL := fun hh => hnsub (by simp [hh])
    have e : strchr ((c :: t) ++ '/' :: (d :: u)) '/' = some (c :: t).length :=
      strchr_append _ _ hs hn
    have e2 : rd ((c :: t) ++ '/' :: (d :: u)) ((c :: t).length + 1) = d := by
      rw [rd_append_right]; simp [rd]
    simp only [List.cons_append, List.nil_append, List.append_assoc, List.length_cons,
      rd_cons_succ] at e e2 ⊢
    simp [is_root_dir, ha, rd_cons_zero, rd_cons_succ, hc, e, e2, hd, hsn]

/-- C12 amended, at the server name "server" and the text "share" after it. -/
theorem is_root_dir_unc_server_witness :
    (['s', 'e', 'r', 'v', 'e', 'r'] ≠ [] ∧ '/' ∉ ['s', 'e', 'r', 'v', 'e', 'r']
        ∧ NUL ∉ ['s', 'e', 'r', 'v', 'e', 'r'])
      ∧ (is_root_dir true (['/', '/'] ++ ['s', 'e', 'r', 'v', 'e', 'r']) = true
      ∧ is_root_dir true (['/', '/'] ++ ['s', 'e', 'r', 'v', 'e', 'r'] ++ ['/']) = true
      ∧ (∀ sub : List Char, sub ≠ [] → NUL ∉ sub →
          is_root_dir true (['/', '/'] ++ ['s', 'e', 'r', 'v', 'e', 'r'] ++ ['/'] ++ sub) = false)
      ∧ is_root_dir true ['C', ':', '/'] = true) :=
  ⟨⟨by decide, by decide, by decide⟩,
   is_root_dir_unc_server ['s', 'e', 'r', 'v', 'e', 'r'] (by decide) (by decide) (by decide)⟩

/-- Claim C13 (UNC prefix preservation).  In a `_WIN32` build, for every
server name `s` (non-empty, without slash) and every text `r` that is empty or
begins with a slash, the text `canonicalize_path` produces for "//" ++ s ++ r
begins with "//" ++ s, whatever the capacity and whatever ".." segments `r`
holds; and for "//server/share/../other" it is "//server/other/". -/
theorem canonicalize_path_win32_unc (s r buf : List Char) (before : Char) (buf_size : Nat)
    (hne : s ≠ []) (hs : '/' ∉ s) (hn : NUL ∉ s) (hr : r = [] ∨ r.head? = some '/') :
    (['/', '/'] ++ s) <+:
        c_str (canonicalize_path_win32 (['/', '/'] ++ s ++ r) buf before buf_size)
      ∧ c_str (canonicalize_path_win32
          ['/', '/', 's', 'e', 'r', 'v', 'e', 'r', '/', 's', 'h', 'a', 'r', 'e',
            '/', '.', '.', '/', 'o', 't', 'h', 'e', 'r'] [] 'x' 32)
        = ['/', '/', 's', 'e', 'r', 'v', 'e', 'r', '/', 'o', 't', 'h', 'e', 'r', '/'] := by
  refine ⟨?_, by decide⟩
  obtain ⟨c, t, rfl⟩ := List.exists_cons_of_ne_nil hne
  have hc : c ≠ '/' := fun hh => hs (by simp [hh])
  have hsn : ('/' : Char) ≠ NUL := by decide
  have hn2 : NUL ∉ ['/', '/'] ++ (c :: t) := by
    intro hh
    rcases List.mem_append.mp hh with h | h
    · revert h; decide
    · exact hn h
  have hr2 : c_str r = [] ∨ (c_str r).head? = some '/' := by
    rcases hr with rfl | hr
    · left; rfl
    · cases r with
      | nil => simp at hr
      | cons d u =>
        have hd : d = '/' := by simpa using hr
        subst hd
        right
        simp [c_str, List.takeWhile_cons, hsn]
  have ep : c_str (['/', '/'] ++ (c :: t) ++ r) = '/' :: '/' :: ((c :: t) ++ c_str r) := by
    rw [List.append_assoc, c_str_append_of_not_mem _ _ (by revert hsn; decide),
      c_str_append_of_not_mem _ _ hn]
    rfl
  obtain ⟨h1, -, h3, h4⟩ := unc_copy_spec (c :: t) hs (c_str r) hr2
    (store_text (wr buf 0 NUL) 0 ['/', '/']) 2
  obtain ⟨g1, g2⟩ := txt_store_two (wr buf 0 NUL) '/' '/'
  have h5 := h4 g2
  unfold canonicalize_path_win32
  simp only [ep]
  have hg : (rd ('/' :: '/' :: ((c :: t) ++ c_str r)) 0 == '/'
      && rd ('/' :: '/' :: ((c :: t) ++ c_str r)) 1 == '/'
      && rd ('/' :: '/' :: ((c :: t) ++ c_str r)) 2 != '/') = true := by
    simp [rd, hc]
  simp only [hg, if_true, List.drop_succ_cons, List.drop_zero]
  rw [h1, take_eq_txt _ _ h5, h3, g1, c_str_append_of_not_mem _ _ hn2]
  exact List.prefix_append _ _

/-- C13 at the server name "srv" and the rest "/../..", in a buffer of 16
bytes. -/
theorem canonicalize_path_win32_unc_witness :
    (['s', 'r', 'v'] ≠ [] ∧ '/' ∉ ['s', 'r', 'v'] ∧ NUL ∉ ['s', 'r', 'v']
        ∧ (['/', '.', '.', '/', '.', '.'] = [] ∨ ['/', '.', '.', '/', '.', '.'].head? = some '/'))
      ∧ (['/', '/'] ++ ['s', 'r', 'v']) <+:
        c_str (canonicalize_path_win32 (['/', '/'] ++ ['s', 'r', 'v']
          ++ ['/', '.', '.', '/', '.', '.']) [] 'x' 16) :=
  ⟨⟨by decide, by decide, by decide, Or.inr rfl⟩,
   (canonicalize_path_win32_unc ['s', 'r', 'v'] ['/', '.', '.', '/', '.', '.'] [] 'x' 16
     (by decide) (by decide) (by decide) (Or.inr rfl)).1⟩

/-- C14 as stated fails: for "~/x" line 891 appends `path + 2`, the text
after the slash, so with the home directory "/home/u/" the result is
"/home/u/x" and not "/home/u/" followed by "/x"; with "/home/u" it is
"/home/ux". -/
theorem expand_tilde_skips_slash :
    expand_tilde false 255 ['/', 'h', 'o', 'm', 'e', '/', 'u', '/'] (fun _ => none) true
        ['~', '/', 'x'] = some (some ['/', 'h', 'o', 'm', 'e', '/', 'u', '/', 'x'], [])
      ∧ expand_tilde false 255 ['/', 'h', 'o', 'm', 'e', '/', 'u', '/'] (fun _ => none) true
          ['~', '/', 'x']
        ≠ some (some (['/', 'h', 'o', 'm', 'e', '/', 'u', '/'] ++ ['~', '/', 'x'].tail), [])
      ∧ expand_tilde false 255 ['/', 'h', 'o', 'm', 'e', '/', 'u'] (fun _ => none) true
        ['~', '/', 'x'] = some (some ['/', 'h', 'o', 'm', 'e', '/', 'u', 'x'], []) := by
  decide

/-- C14, amended (own-home expansion).  For every path that is exactly "~" or
begins with "~/", and every home directory text, `expand_tilde` (when `malloc`
succeeds) returns the home directory followed by the path without its first
two characters, and consults no user lookup: the home directory takes the
place of "~/", bringing its own final slash. -/
theorem expand_tilde_own_home (NAME_MAX : Nat) (home_dir path : List Char)
    (getpwnam : List Char → Option (List Char)) (hh : NUL ∉ home_dir) (hp : NUL ∉ path)
    (h : path = ['~'] ∨ ['~', '/'] <+: path) :
    expand_tilde false NAME_MAX home_dir getpwnam true path
      = some (some (home_dir ++ path.drop 2), []) := by
  have ht : ('~' : Char) ≠ NUL := by decide
  rcases h with rfl | ⟨t, rfl⟩
  · simp [expand_tilde, rd, c_str_of_not_mem _ hh, NUL]
  · have hnt : NUL ∉ t := fun hx => hp (by simp [hx])
    exact expand_tilde_slash NAME_MAX home_dir t getpwnam hh hnt

/-- C14 amended, at the home directory "/home/u/" and the path "~/a/b". -/
theorem expand_tilde_own_home_witness :
    (NUL ∉ ['/', 'h', 'o', 'm', 'e', '/', 'u', '/'] ∧ NUL ∉ ['~', '/', 'a', '/', 'b']
        ∧ (['~', '/', 'a', '/', 'b'] = ['~'] ∨ ['~', '/'] <+: ['~', '/', 'a', '/', 'b']))
      ∧ expand_tilde false 255 ['/', 'h', 'o', 'm', 'e', '/', 'u', '/'] (fun _ => none) true
          ['~', '/', 'a', '/', 'b']
        = some (some (['/', 'h', 'o', 'm', 'e', '/', 'u', '/'] ++ ['~', '/', 'a', '/', 'b'].drop 2),
            []) :=
  ⟨⟨by decide, by decide, Or.inr ⟨['a', '/', 'b'], rfl⟩⟩,
   expand_tilde_own_home 255 ['/', 'h', 'o', 'm', 'e', '/', 'u', '/'] ['~', '/', 'a', '/', 'b']
     (fun _ => none) (by decide) (by decide) (Or.inr ⟨['a', '/', 'b'], rfl⟩)⟩

/-- C15 as stated fails for a path without rest: line 914 always stores a
slash after the directory, so "~bob", with "/home/bob" the directory of bob,
becomes "/home/bob/" and not "/home/bob". -/
theorem expand_tilde_named_adds_slash :
    expand_tilde false 255 ['/', 'h', '/']
        (fun n => if n = ['b', 'o', 'b'] then some ['/', 'h', 'o', 'm', 'e', '/', 'b', 'o', 'b']
          else none) true ['~', 'b', 'o', 'b']
      = some (some ['/', 'h', 'o', 'm', 'e', '/', 'b', 'o', 'b', '/'], [['b', 'o', 'b']])
      ∧ expand_tilde false 255 ['/', 'h', '/']
        (fun n => if n = ['b', 'o', 'b'] then some ['/', 'h', 'o', 'm', 'e', '/', 'b', 'o', 'b']
          else none) true ['~', 'b', 'o', 'b']
      ≠ some (some (['/', 'h', 'o', 'm', 'e', '/', 'b', 'o', 'b'] ++ []), [['b', 'o', 'b']]) := by
  decide

/-- C15, amended (named-user expansion).  For every path "~" ++ name ++ rest,
with `name` non-empty, without slash and shorter than `NAME_MAX` (so that it
fits the array `name` with its terminator), and `rest` empty or beginning with
a slash, if `getpwnam` of `name` gives the directory `d`, then `expand_tilde`
(when `malloc` succeeds) passes `name` to `getpwnam` and returns
d' ++ "/" ++ (rest without its leading slash), where d' is `d` with one
trailing slash removed: that is d' ++ rest when `rest` begins with a slash,
and d' ++ "/" when `rest` is empty. -/
theorem expand_tilde_named_user (NAME_MAX : Nat) (home_dir : List Char)
    (getpwnam : List Char → Option (List Char)) (name rest d : List Char)
    (hne : name ≠ []) (hs : '/' ∉ name) (hn : NUL ∉ name) (hnr : NUL ∉ rest) (hnd : NUL ∉ d)
    (hr : rest = [] ∨ rest.head? = some '/') (hl : getpwnam name = some d)
    (hfit : name.length < NAME_MAX) :
    expand_tilde false NAME_MAX home_dir getpwnam true ('~' :: name ++ rest)
        = some (some ((if d.getLast? = some '/' then d.dropLast else d) ++ '/' :: rest.drop 1),
            [name])
      ∧ (rest.head? = some '/' →
          expand_tilde false NAME_MAX home_dir getpwnam true ('~' :: name ++ rest)
            = some (some ((if d.getLast? = some '/' then d.dropLast else d) ++ rest), [name]))
      ∧ (rest = [] →
          expand_tilde false NAME_MAX home_dir getpwnam true ('~' :: name ++ rest)
            = some (some ((if d.getLast? = some '/' then d.dropLast else d) ++ ['/']),
                [name])) := by
  have ht : ('~' : Char) ≠ NUL := by decide
  obtain ⟨c, t, rfl⟩ := List.exists_cons_of_ne_nil hne
  have hc : c ≠ NUL := fun hh => hn (by simp [hh])
  have hc2 : c ≠ '/' := fun hh => hs (by simp [hh])
  have hnp : NUL ∉ '~' :: (c :: t) ++ rest := by
    intro hx
    rcases List.mem_append.mp hx with h | h
    · rcases List.mem_cons.mp h with h | h
      · exact ht h.symm
      · exact hn h
    · exact hnr h
  obtain ⟨w1, w2⟩ := takeWhile_name (c :: t) rest hs hr
  have key := expand_tilde_named NAME_MAX home_dir getpwnam true ('~' :: (c :: t) ++ rest)
    (by simp [rd]) (by simpa [rd] using hc) (by simpa [rd] using hc2)
  rw [c_str_of_not_mem _ hnp] at key
  simp only [List.cons_append, List.drop_succ_cons, List.drop_zero] at key
  simp only [List.cons_append] at w1 w2
  rw [w1, w2, hl, if_neg (by omega)] at key
  have e : expand_tilde false NAME_MAX home_dir getpwnam true ('~' :: (c :: t) ++ rest)
      = some (some ((if d.getLast? = some '/' then d.dropLast else d) ++ '/' :: rest.drop 1),
          [c :: t]) := by
    simp only [List.cons_append]
    rw [key]
    simp [c_str_chosp, c_str_of_not_mem _ hnd]
  refine ⟨e, ?_, ?_⟩
  · intro h
    cases rest with
    | nil => simp at h
    | cons x u =>
      have hx : x = '/' := by simpa using h
      subst hx
      rw [e]
      rfl
  · intro h
    subst h
    rw [e]
    rfl

/-- C15 amended, at "~bob/x" with "/home/bob/" the directory of bob and a
`NAME_MAX` of 255. -/
theorem expand_tilde_named_user_witness :
    (['b', 'o', 'b'] ≠ [] ∧ '/' ∉ ['b', 'o', 'b'] ∧ NUL ∉ ['b', 'o', 'b'] ∧ NUL ∉ ['/', 'x']
        ∧ NUL ∉ ['/', 'h', 'o', 'm', 'e', '/', 'b', 'o', 'b', '/']
        ∧ (['/', 'x'] = [] ∨ ['/', 'x'].head? = some '/')
        ∧ ['b', 'o', 'b'].length < 255)
      ∧ expand_tilde false 255 ['/', 'h', '/']
          (fun _ => some ['/', 'h', 'o', 'm', 'e', '/', 'b', 'o', 'b', '/']) true
          ('~' :: ['b', 'o', 'b'] ++ ['/', 'x'])
        = some (some (['/', 'h', 'o', 'm', 'e', '/', 'b', 'o', 'b'] ++ '/' :: ['x']),
            [['b', 'o', 'b']]) :=
  ⟨⟨by decide, by decide, by decide, by decide, by decide, Or.inr rfl, by decide⟩,
   (expand_tilde_named_user 255 ['/', 'h', '/']
     (fun _ => some ['/', 'h', 'o', 'm', 'e', '/', 'b', 'o', 'b', '/'])
     ['b', 'o', 'b'] ['/', 'x'] ['/', 'h', 'o', 'm', 'e', '/', 'b', 'o', 'b', '/']
     (by decide) (by decide) (by decide) (by decide) (by decide) (Or.inr rfl) rfl
     (by decide)).1⟩

/-- The unknown-user fallback for a name that fits the array `name`: for every
path that begins with "~", whose second character is neither the end of the
text nor a slash, and whose text between the "~" and the first slash (or the
end of the text) is shorter than `NAME_MAX`, `expand_tilde` passes exactly
that text to `getpwnam`, and when `getpwnam` finds no such user the path is
returned unchanged. -/
theorem expand_tilde_unknown_user (NAME_MAX : Nat) (home_dir : List Char)
    (getpwnam : List Char → Option (List Char)) (malloc_ok : Bool) (path : List Char)
    (h0 : rd path 0 = '~') (h1 : rd path 1 ≠ NUL) (h2 : rd path 1 ≠ '/')
    (hfit : (((c_str path).drop 1).takeWhile (fun c => c != '/')).length < NAME_MAX) :
    (expand_tilde false NAME_MAX home_dir getpwnam malloc_ok path).map Prod.snd
        = some [((c_str path).drop 1).takeWhile (fun c => c != '/')]
      ∧ (getpwnam (((c_str path).drop 1).takeWhile (fun c => c != '/')) = none →
          expand_tilde false NAME_MAX home_dir getpwnam malloc_ok path
            = some (some path, [((c_str path).drop 1).takeWhile (fun c => c != '/')])) := by
  rw [expand_tilde_named NAME_MAX home_dir getpwnam malloc_ok path h0 h1 h2, if_neg (by omega)]
  constructor
  · cases getpwnam (((c_str path).drop 1).takeWhile (fun c => c != '/')) with
    | none => rfl
    | some d => cases malloc_ok <;> rfl
  · intro h
    rw [h]

/-- The store into `name` runs past the array as soon as the text between the
"~" and the first slash (or the end of the text) has `NAME_MAX` characters or
more. -/
theorem expand_tilde_name_too_long (NAME_MAX : Nat) (home_dir : List Char)
    (getpwnam : List Char → Option (List Char)) (malloc_ok : Bool) (path : List Char)
    (h0 : rd path 0 = '~') (h1 : rd path 1 ≠ NUL) (h2 : rd path 1 ≠ '/')
    (hbig : NAME_MAX ≤ (((c_str path).drop 1).takeWhile (fun c => c != '/')).length) :
    expand_tilde false NAME_MAX home_dir getpwnam malloc_ok path = none := by
  rw [expand_tilde_named NAME_MAX home_dir getpwnam malloc_ok path h0 h1 h2, if_pos (by omega)]

set_option maxRecDepth 100000

/-- C16 (unknown-user fallback), evaluated with a `NAME_MAX` of 255.  For
"~nosuch/x" and a lookup that knows no user, the name asked for is "nosuch"
and the path comes back unchanged.  For "~", 300 times "a" and "/x", line
903 stores the 300 characters of the name and a terminator in the 255 bytes
of `name`, and for "~" and 255 times "a" line 899 stores 256 bytes there: the
store runs past the array and the behaviour is undefined, instead of the name
being passed on and the path returned. -/
theorem expand_tilde_name_overflow :
    expand_tilde false 255 ['/', 'h', '/'] (fun _ => none) true
        ['~', 'n', 'o', 's', 'u', 'c', 'h', '/', 'x']
      = some (some ['~', 'n', 'o', 's', 'u', 'c', 'h', '/', 'x'], [['n', 'o', 's', 'u', 'c', 'h']])
      ∧ expand_tilde false 255 ['/', 'h', '/'] (fun _ => none) true
          ('~' :: List.replicate 300 'a' ++ ['/', 'x']) = none
      ∧ expand_tilde false 255 ['/', 'h', '/'] (fun _ => none) true
          ('~' :: List.replicate 255 'a') = none := by
  decide

/-- Claim C17 (home-expansion no-op).  For every path whose first character is
not "~", the empty path included, `expand_tilde` returns the path itself and
passes no name to `getpwnam`, whatever the home directory, the lookup, the
outcome of `malloc` and the size of the array `name` are. -/
theorem expand_tilde_no_tilde (win32 : Bool) (NAME_MAX : Nat) (home_dir : List Char)
    (getpwnam : List Char → Option (List Char)) (malloc_ok : Bool) (path : List Char)
    (h0 : rd path 0 ≠ '~') :
    expand_tilde win32 NAME_MAX home_dir getpwnam malloc_ok path = some (some path, []) := by
  have hg0 : (rd path 0 != '~') = true := by simpa using h0
  unfold expand_tilde
  cases win32
  · simp only [Bool.false_eq_true, if_false, hg0, if_true]
  · simp only [if_true]

/-- C17 at "nothome", and at the empty path. -/
theorem expand_tilde_no_tilde_witness :
    (rd ['n', 'o', 't', 'h', 'o', 'm', 'e'] 0 ≠ '~'
        ∧ expand_tilde false 255 ['/', 'h', '/'] (fun _ => some ['/', 'x']) true
            ['n', 'o', 't', 'h', 'o', 'm', 'e']
          = some (some ['n', 'o', 't', 'h', 'o', 'm', 'e'], []))
      ∧ (rd [] 0 ≠ '~'
        ∧ expand_tilde false 255 ['/', 'h', '/'] (fun _ => some ['/', 'x']) true []
          = some (some [], [])) :=
  ⟨⟨by decide, expand_tilde_no_tilde false 255 ['/', 'h', '/'] (fun _ => some ['/', 'x']) true
      ['n', 'o', 't', 'h', 'o', 'm', 'e'] (by decide)⟩,
   ⟨by decide, expand_tilde_no_tilde false 255 ['/', 'h', '/'] (fun _ => some ['/', 'x']) true []
      (by decide)⟩⟩

/-- C18 (the result fits the buffer), at a base of many one-character
segments: for every `PATH_MAX` from 7 up to 2^63, the canonical absolute path "/" and
the canonical absolute base "/a/a/.../a" of (PATH_MAX - 1) / 2 segments are
both shorter than `PATH_MAX`, yet the text `make_rel_path` builds, one ".."
for each segment of the base, is longer than PATH_MAX - 1: lines 841-842
append "../" without looking at the size of the buffer. -/
theorem make_rel_path_exceeds_buffer (PATH_MAX : Nat) (buf : List Char) (before : Char)
    (h7 : 7 ≤ PATH_MAX) (hsz : PATH_MAX < 2 ^ 63) :
    (∀ s ∈ List.replicate ((PATH_MAX - 1) / 2) ['a'], Seg s)
      ∧ (abs_path []).length < PATH_MAX
      ∧ (abs_path (List.replicate ((PATH_MAX - 1) / 2) ['a'])).length < PATH_MAX
      ∧ make_rel_path PATH_MAX (abs_path [])
          (abs_path (List.replicate ((PATH_MAX - 1) / 2) ['a'])) buf before
        = join_slash (List.replicate ((PATH_MAX - 1) / 2) ['.', '.'])
      ∧ PATH_MAX - 1 < (make_rel_path PATH_MAX (abs_path [])
          (abs_path (List.replicate ((PATH_MAX - 1) / 2) ['a'])) buf before).length := by
  obtain ⟨M, hM⟩ : ∃ M, (PATH_MAX - 1) / 2 = M + 1 := ⟨(PATH_MAX - 1) / 2 - 1, by omega⟩
  have hseg : ∀ s ∈ List.replicate ((PATH_MAX - 1) / 2) ['a'], Seg s := by
    intro s hs
    rw [List.eq_of_mem_replicate hs]
    decide
  have hlen : (abs_path (List.replicate ((PATH_MAX - 1) / 2) ['a'])).length
      = 2 * ((PATH_MAX - 1) / 2) := by
    have h := rooted_replicate_length ((PATH_MAX - 1) / 2) ['a']
    rw [hM] at h ⊢
    rw [List.replicate_succ] at h ⊢
    rw [show abs_path (['a'] :: List.replicate M ['a']) = rooted (['a'] :: List.replicate M ['a'])
      from rfl, h]
    simp
    omega
  have hp63 : (2 : Nat) ^ 64 = 2 * 2 ^ 63 := by norm_num
  have e := make_rel_path_root PATH_MAX (List.replicate ((PATH_MAX - 1) / 2) ['a']) buf before
    hseg (by rw [hM]; simp [List.replicate_succ]) (by rw [hlen]; omega)
    (by
      rw [List.length_replicate, size_sub_wrap _ _ (by omega) (by omega)]
      omega)
    (by omega)
  rw [List.length_replicate] at e
  refine ⟨hseg, by simp [abs_path]; omega, by rw [hlen]; omega, e, ?_⟩
  rw [e, hM, join_dots_length]
  omega

/-- C18 at the `PATH_MAX` of Linux, 4096: the base has 2047 segments "a" and
4094 characters, the text built has 6140. -/
theorem make_rel_path_exceeds_buffer_witness :
    (7 ≤ 4096 ∧ 4096 < 2 ^ 63)
      ∧ 4096 - 1 < (make_rel_path 4096 (abs_path [])
          (abs_path (List.replicate ((4096 - 1) / 2) ['a'])) [] 'x').length :=
  ⟨⟨by decide, by decide⟩, (make_rel_path_exceeds_buffer 4096 [] 'x' (by decide) (by decide)).2.2.2.2⟩

/-- C19 (absoluteness is preserved), at the relative text "a/../b": after the
".." has erased "a/" the cursor is back at the start of the buffer, so the
slash that follows is stored as a first character (line 784), and the text
produced, "/b/", is absolute although "a/../b" is not.  The byte in front of
the buffer plays no part. -/
theorem canonicalize_path_makes_absolute (before : Char) :
    canon ['a', '/', '.', '.', '/', 'b'] before 16 = ['/', 'b', '/']
      ∧ is_path_absolute false ['a', '/', '.', '.', '/', 'b'] = false
      ∧ is_path_absolute false (canon ['a', '/', '.', '.', '/', 'b'] before 16) = true := by
  have e : canon ['a', '/', '.', '.', '/', 'b'] before 16 = ['/', 'b', '/'] := by
    rfl
  rw [e]
  exact ⟨rfl, by decide, by decide⟩

/-- C20 as stated fails when `malloc` fails: for the home directory
"/home/u/" and the directory "/home/u/a/b", `replace_home_part` leaves
"~/a/b", and `expand_tilde` of that text is `NULL` (lines 887-889), not the
directory. -/
theorem home_round_trip_malloc_fails :
    c_str (replace_home_part false 32 ['/', 'h', 'o', 'm', 'e', '/', 'u', '/']
        ['/', 'h', 'o', 'm', 'e', '/', 'u', '/', 'a', '/', 'b'] 'x' [])
      = ['~', '/', 'a', '/', 'b']
      ∧ expand_tilde false 255 ['/', 'h', 'o', 'm', 'e', '/', 'u', '/'] (fun _ => none) false
          (c_str (replace_home_part false 32 ['/', 'h', 'o', 'm', 'e', '/', 'u', '/']
            ['/', 'h', 'o', 'm', 'e', '/', 'u', '/', 'a', '/', 'b'] 'x' []))
        = some (none, [])
      ∧ expand_tilde false 255 ['/', 'h', 'o', 'm', 'e', '/', 'u', '/'] (fun _ => none) false
          (c_str (replace_home_part false 32 ['/', 'h', 'o', 'm', 'e', '/', 'u', '/']
            ['/', 'h', 'o', 'm', 'e', '/', 'u', '/', 'a', '/', 'b'] 'x' []))
        ≠ some (some ['/', 'h', 'o', 'm', 'e', '/', 'u', '/', 'a', '/', 'b'], []) := by
  decide

/-- C20, amended (home shorthand round trip).  For every home directory text
h ++ "/" and every directory text d = h ++ "/" ++ rest, with `rest` non-empty
and not ending in a slash, and `d` as well as "~/" ++ rest fitting a buffer
of `PATH_MAX` bytes, `replace_home_part(d)` leaves the text "~/" ++ rest, and
`expand_tilde` of that text (handed over in a block of its own, which
`expand_tilde` frees) is `d` again when `malloc` succeeds and `NULL` when it
fails; no user lookup is made. -/
theorem home_round_trip (PATH_MAX NAME_MAX : Nat) (h rest buf : List Char) (dir_before : Char)
    (getpwnam : List Char → Option (List Char))
    (hh : NUL ∉ h) (hr : NUL ∉ rest) (hne : rest ≠ []) (hl : rest.getLast? ≠ some '/')
    (hd : (h ++ '/' :: rest).length < PATH_MAX) (hfit : rest.length + 3 ≤ PATH_MAX)
    (hsz : PATH_MAX < 2 ^ 64) :
    c_str (replace_home_part false PATH_MAX (h ++ ['/']) (h ++ '/' :: rest) dir_before buf)
        = '~' :: '/' :: rest
      ∧ expand_tilde false NAME_MAX (h ++ ['/']) getpwnam true
          (c_str (replace_home_part false PATH_MAX (h ++ ['/']) (h ++ '/' :: rest)
            dir_before buf))
        = some (some (h ++ '/' :: rest), [])
      ∧ expand_tilde false NAME_MAX (h ++ ['/']) getpwnam false
          (c_str (replace_home_part false PATH_MAX (h ++ ['/']) (h ++ '/' :: rest)
            dir_before buf))
        = some (none, []) := by
  have _ := hfit
  have hs : ('/' : Char) ≠ NUL := by decide
  have e := replace_home_part_text PATH_MAX h rest buf dir_before hh hr hne hl hd hsz
  refine ⟨e, ?_, ?_⟩
  · rw [e, expand_tilde_slash NAME_MAX (h ++ ['/']) rest getpwnam (by
      intro x
      rcases List.mem_append.mp x with x | x
      · exact hh x
      · exact hs (by simpa using Eq.symm (List.mem_singleton.mp x))) hr]
    simp
  · rw [e, expand_tilde_slash_null]

/-- C20 amended, at the home directory "/home/u/" and the directory
"/home/u/a/b", with a `PATH_MAX` of 32 and a `NAME_MAX` of 255. -/
theorem home_round_trip_witness :
    (NUL ∉ ['/', 'h', 'o', 'm', 'e', '/', 'u'] ∧ NUL ∉ ['a', '/', 'b'] ∧ ['a', '/', 'b'] ≠ []
        ∧ ['a', '/', 'b'].getLast? ≠ some '/'
        ∧ (['/', 'h', 'o', 'm', 'e', '/', 'u'] ++ '/' :: ['a', '/', 'b']).length < 32
        ∧ ['a', '/', 'b'].length + 3 ≤ 32 ∧ 32 < 2 ^ 64)
      ∧ c_str (replace_home_part false 32 (['/', 'h', 'o', 'm', 'e', '/', 'u'] ++ ['/'])
          (['/', 'h', 'o', 'm', 'e', '/', 'u'] ++ '/' :: ['a', '/', 'b']) 'x' [])
        = '~' :: '/' :: ['a', '/', 'b']
      ∧ expand_tilde false 255 (['/', 'h', 'o', 'm', 'e', '/', 'u'] ++ ['/']) (fun _ => none) true
          (c_str (replace_home_part false 32 (['/', 'h', 'o', 'm', 'e', '/', 'u'] ++ ['/'])
            (['/', 'h', 'o', 'm', 'e', '/', 'u'] ++ '/' :: ['a', '/', 'b']) 'x' []))
        = some (some (['/', 'h', 'o', 'm', 'e', '/', 'u'] ++ '/' :: ['a', '/', 'b']), [])
      ∧ expand_tilde false 255 (['/', 'h', 'o', 'm', 'e', '/', 'u'] ++ ['/']) (fun _ => none) false
          (c_str (replace_home_part false 32 (['/', 'h', 'o', 'm', 'e', '/', 'u'] ++ ['/'])
            (['/', 'h', 'o', 'm', 'e', '/', 'u'] ++ '/' :: ['a', '/', 'b']) 'x' []))
        = some (none, []) :=
  ⟨⟨by decide, by decide, by decide, by decide, by decide, by decide, by decide⟩,
   home_round_trip 32 255 ['/', 'h', 'o', 'm', 'e', '/', 'u'] ['a', '/', 'b'] [] 'x'
     (fun _ => none)
     (by decide) (by decide) (by decide) (by decide) (by decide) (by decide) (by decide)⟩

/-- Claim C21 (UTF-8 overhead relation).  For every byte string `s`, valid
UTF-8 or not, whose length is a `size_t`: both scans end, with the pointer
exactly on the terminator of `s`, so the widths `get_char_width` returned sum
to `strlen(s)`; `get_utf8_string_length(s)` is some `n` not above `strlen(s)`,
and `get_utf8_overhead(s)` is `strlen(s) - n`. -/
theorem get_utf8_overhead_relation (s : List Char) (h : strlen s < 2 ^ 64) :
    ∃ n, n ≤ strlen s
      ∧ get_utf8_string_length s = some n
      ∧ get_utf8_overhead s = some (strlen s - n)
      ∧ get_utf8_string_length_loop s (s.length + 1) 0 0 = some (strlen s, n)
      ∧ get_utf8_overhead_loop s (s.length + 1) 0 0 = some (strlen s, strlen s - n) := by
  have hf : strlen (s.drop 0) < s.length + 1 := by
    have := c_str_length_le s
    unfold strlen
    simp only [List.drop_zero]
    omega
  obtain ⟨n, hn, hl, ho⟩ := utf8_loops s (s.length + 1) 0 hf
  simp only [List.drop_zero, Nat.zero_add] at hn hl ho
  have e1 := hl 0 (by omega)
  have e2 := ho 0 (by omega)
  simp only [Nat.zero_add] at e1 e2
  refine ⟨n, hn, ?_, ?_, e1, e2⟩
  · unfold get_utf8_string_length
    rw [e1]
    rfl
  · unfold get_utf8_overhead
    rw [e2]
    rfl

/-- C21 at the bytes 61 C3 A9 E2 82 00 A9: "a", a two-byte character, a
three-byte character cut after its second byte, the terminator, and a byte
behind it.  The text has 5 bytes, 4 characters are counted and the overhead
is 1. -/
theorem get_utf8_overhead_relation_witness :
    strlen [Char.ofNat 0x61, Char.ofNat 0xC3, Char.ofNat 0xA9, Char.ofNat 0xE2, Char.ofNat 0x82,
        Char.ofNat 0x00, Char.ofNat 0xA9] < 2 ^ 64
      ∧ (∃ n, n ≤ strlen [Char.ofNat 0x61, Char.ofNat 0xC3, Char.ofNat 0xA9, Char.ofNat 0xE2,
            Char.ofNat 0x82, Char.ofNat 0x00, Char.ofNat 0xA9]
        ∧ get_utf8_string_length [Char.ofNat 0x61, Char.ofNat 0xC3, Char.ofNat 0xA9,
            Char.ofNat 0xE2, Char.ofNat 0x82, Char.ofNat 0x00, Char.ofNat 0xA9] = some n
        ∧ get_utf8_overhead [Char.ofNat 0x61, Char.ofNat 0xC3, Char.ofNat 0xA9,
            Char.ofNat 0xE2, Char.ofNat 0x82, Char.ofNat 0x00, Char.ofNat 0xA9]
          = some (strlen [Char.ofNat 0x61, Char.ofNat 0xC3, Char.ofNat 0xA9, Char.ofNat 0xE2,
              Char.ofNat 0x82, Char.ofNat 0x00, Char.ofNat 0xA9] - n))
      ∧ get_utf8_string_length [Char.ofNat 0x61, Char.ofNat 0xC3, Char.ofNat 0xA9,
          Char.ofNat 0xE2, Char.ofNat 0x82, Char.ofNat 0x00, Char.ofNat 0xA9] = some 4
      ∧ get_utf8_overhead [Char.ofNat 0x61, Char.ofNat 0xC3, Char.ofNat 0xA9,
          Char.ofNat 0xE2, Char.ofNat 0x82, Char.ofNat 0x00, Char.ofNat 0xA9] = some 1 :=
  ⟨by decide,
   (get_utf8_overhead_relation [Char.ofNat 0x61, Char.ofNat 0xC3, Char.ofNat 0xA9,
      Char.ofNat 0xE2, Char.ofNat 0x82, Char.ofNat 0x00, Char.ofNat 0xA9] (by decide)).imp
     (fun _ hn => ⟨hn.1, hn.2.1, hn.2.2.1⟩),
   by decide, by decide⟩

end Vifm
